import Mathlib

/-!
picProject: 3x3 image convolution (`image.c`, `image2.c`)

A shallow embedding of the convolution engine of the repository and the
properties of it that the specification states.

Modelling conventions

* C `int` values (coordinates, image dimensions, loop counters, indices) are
  `Int`.  The images come from `stbi_load`, which refuses images whose
  `width * height * bpp` does not fit an `int`, so no index expression of the
  program overflows and no wrap-around is modelled.
* `uint8_t` samples are `Nat`; a well-formed image holds samples `< 256`.
* `double` values are IEEE 754 binary64 values (`Double`): a finite value is kept as the
  rational it denotes, and every product and every sum is rounded to the nearest
  representable value, ties to even, with gradual underflow and with overflow to an
  infinity (`toDouble`).  Each operation is rounded on its own, as the C expression is
  written: no fused multiply-add and no wider intermediate format.  The sign of a zero
  is not kept, the program has no operation that tells `-0.0` from `0.0`.
* Buffers are `List Nat`.  A read or a write outside the buffer is undefined
  behaviour in C; here it makes the operation return `none`.
* A `for (i = lo; i < hi; ++i)` loop whose body does not assign `i` runs its body
  exactly `max 0 (hi - lo)` times; `forRange` is that loop.
* What `main` takes from outside (the decoder `stbi_load`, the results of `malloc`, the
  `THREADS` variable read through `atoi`, the processor count of `sysconf`) is an
  explicit `Env`; `strcmp(a, b) == 0` is equality of the two strings.
* Threads: a worker reads the source only and writes destination positions of its own
  rows only, so the workers are run as whole units, one after another, and the theorems
  about the threaded engine hold for every order of the workers.
-/

namespace PicProject

/-! ## IEEE 754 binary64 arithmetic (`double`) -/

/-- A `double`: a finite value, one of the two infinities, or a NaN.  A finite value is
the rational it denotes; the values the arithmetic below produces are the representable
ones (`IsDouble`). -/
inductive Double where
  | fin (v : ℚ)
  | pinf
  | ninf
  | nan
deriving DecidableEq, Repr

/-- Round a rational to the nearest integer, a tie to the even one. -/
def rne (x : ℚ) : Int :=
  if x - ⌊x⌋ < 1 / 2 then ⌊x⌋
  else if 1 / 2 < x - ⌊x⌋ then ⌊x⌋ + 1
  else if ⌊x⌋ % 2 = 0 then ⌊x⌋ else ⌊x⌋ + 1

/-- The exponent of the unit in the last place at `x`: a value of the binade
`[2^k, 2^(k+1))` has 53 significant bits, so its unit is `2^(k-52)`; below `2^-1022`
(subnormal values) the unit stays `2^-1074`. -/
def cexp (x : ℚ) : Int :=
  max (Int.log 2 |x| - 52) (-1074)

/-- Rounding to the nearest point of the binary64 grid, ties to even, before the test
for overflow. -/
def roundQ (x : ℚ) : ℚ :=
  (rne (x / (2 : ℚ) ^ cexp x) : ℚ) * (2 : ℚ) ^ cexp x

/-- The double that an operation with the exact result `x` delivers (round to nearest,
ties to even): the rounded value, or an infinity when its magnitude reaches `2^1024`. -/
def toDouble (x : ℚ) : Double :=
  if (2 : ℚ) ^ (1024 : ℕ) ≤ roundQ x then Double.pinf
  else if roundQ x ≤ -(2 : ℚ) ^ (1024 : ℕ) then Double.ninf
  else Double.fin (roundQ x)

/-- The sum `a + b` of two doubles. -/
def Double.add : Double → Double → Double
  | .fin a, .fin b => toDouble (a + b)
  | .nan, _ => .nan
  | _, .nan => .nan
  | .pinf, .ninf => .nan
  | .ninf, .pinf => .nan
  | .pinf, _ => .pinf
  | _, .pinf => .pinf
  | .ninf, _ => .ninf
  | _, .ninf => .ninf

/-- The product `a * b` of two doubles. -/
def Double.mul : Double → Double → Double
  | .fin a, .fin b => toDouble (a * b)
  | .nan, _ => .nan
  | _, .nan => .nan
  | .pinf, .fin b => if b = 0 then .nan else if 0 < b then .pinf else .ninf
  | .ninf, .fin b => if b = 0 then .nan else if 0 < b then .ninf else .pinf
  | .fin a, .pinf => if a = 0 then .nan else if 0 < a then .pinf else .ninf
  | .fin a, .ninf => if a = 0 then .nan else if 0 < a then .ninf else .pinf
  | .pinf, .pinf => .pinf
  | .ninf, .ninf => .pinf
  | .pinf, .ninf => .ninf
  | .ninf, .pinf => .ninf

/-- The comparison `a < b` of two doubles; false when one of them is a NaN. -/
def Double.lt : Double → Double → Bool
  | .fin a, .fin b => decide (a < b)
  | .nan, _ => false
  | _, .nan => false
  | .ninf, .ninf => false
  | .ninf, _ => true
  | _, .ninf => false
  | .pinf, _ => false
  | _, .pinf => true

instance : Add Double := ⟨Double.add⟩

instance : Mul Double := ⟨Double.mul⟩

/-- The conversion of a sample (`uint8_t`, promoted to `int`) to `double`. -/
def Double.ofNat (n : Nat) : Double :=
  toDouble (n : ℚ)

/-! ## Data model (`image.h`) -/

/-- The kernel type of `image.h`: a 3x3 matrix of `double`, indexed `[row][col]`. -/
abbrev Matrix : Type := Fin 3 → Fin 3 → Double

/-- The `Image` struct of `image.h`: the sample buffer and its three dimensions. -/
structure Image where
  data : List Nat
  width : Int
  height : Int
  bpp : Int
deriving DecidableEq, Repr

/-- Modelled from the spec: the `Index` macro of `image.h` (the header is not part of
the sources), `index(x, y, channel) = (y * width + x) * channel_count + channel`. -/
def Index (x y width bit bpp : Int) : Int :=
  (y * width + x) * bpp + bit

/-- Read `data[i]`; `none` when `i` is outside the buffer. -/
def load (data : List Nat) (i : Int) : Option Nat :=
  if 0 ≤ i then data[i.toNat]? else none

/-- Write `data[i] = v`; `none` when `i` is outside the buffer. -/
def store (data : List Nat) (i : Int) (v : Nat) : Option (List Nat) :=
  if 0 ≤ i ∧ i.toNat < data.length then some (data.set i.toNat v) else none

/-- The image invariant of the data model: positive dimensions, a buffer of
`width * height * bpp` samples, every sample an 8-bit value. -/
def Image.WF (img : Image) : Prop :=
  1 ≤ img.width ∧ 1 ≤ img.height ∧ 1 ≤ img.bpp ∧
  (img.data.length : Int) = img.width * img.height * img.bpp ∧
  ∀ b ∈ img.data, b < 256

instance (img : Image) : Decidable img.WF := by
  unfold Image.WF; infer_instance

/-- A valid access: `0 <= x < width`, `0 <= y < height`, `0 <= c < bpp`. -/
def Image.Valid (img : Image) (x y c : Int) : Prop :=
  0 ≤ x ∧ x < img.width ∧ 0 ≤ y ∧ y < img.height ∧ 0 ≤ c ∧ c < img.bpp

instance (img : Image) (x y c : Int) : Decidable (img.Valid x y c) := by
  unfold Image.Valid; infer_instance

/-! ## `clamp_u8` (image.c 17-21, image2.c 16-20) -/

/-- C conversion of a finite `double` to an integer type: truncation toward zero. -/
def truncate (v : ℚ) : Int :=
  if 0 ≤ v then ⌊v⌋ else ⌈v⌉

/-- The cast `(uint8_t)d`.  For a NaN or an infinity C leaves the value of the
conversion unspecified (Annex F.4); the byte 0 stands for it here, which is what the
conversion instructions of x86-64 and AArch64 deliver.  `clamp_u8` gets there for a NaN
only, and no result below depends on that byte. -/
def toU8 : Double → Nat
  | .fin v => (truncate v % 256).toNat
  | _ => 0

/-- `clamp_u8`: 0 below 0, 255 above 255, otherwise `(uint8_t)(v + 0.5)`, the sum
`v + 0.5` being a double addition. -/
def clamp_u8 (v : Double) : Nat :=
  if Double.lt v (Double.fin 0) then 0
  else if Double.lt (Double.fin 255) v then 255
  else toU8 (v + Double.fin (1 / 2))

/-! ## The kernel table `algorithms` (image.c 25-32, image2.c 24-31) -/

/-- The value of an initialiser of constant expressions: each cell holds the double
nearest to the value of its expression.  The cells of the tables are integer constants,
which convert exactly, and quotients of two exactly represented constants (`1/9.0`,
`1.0/16`, `1.0/8`, `1.0/4`), which the division rounds to the nearest double. -/
def Matrix.ofConst (m : Fin 3 → Fin 3 → ℚ) : Matrix :=
  fun i j => toDouble (m i j)

/-- Entry 0, `EDGE`. -/
def edgeKernel : Matrix := Matrix.ofConst ![![0, -1, 0], ![-1, 4, -1], ![0, -1, 0]]

/-- Entry 1, `SHARPEN`. -/
def sharpenKernel : Matrix := Matrix.ofConst ![![0, -1, 0], ![-1, 5, -1], ![0, -1, 0]]

/-- Entry 2, `BLUR`: nine cells `1/9.0`. -/
def blurKernel : Matrix :=
  Matrix.ofConst ![![1 / 9, 1 / 9, 1 / 9], ![1 / 9, 1 / 9, 1 / 9], ![1 / 9, 1 / 9, 1 / 9]]

/-- Entry 3, `GAUSE_BLUR`. -/
def gaussKernel : Matrix :=
  Matrix.ofConst ![![1 / 16, 1 / 8, 1 / 16], ![1 / 8, 1 / 4, 1 / 8], ![1 / 16, 1 / 8, 1 / 16]]

/-- Entry 4, `EMBOSS`. -/
def embossKernel : Matrix := Matrix.ofConst ![![-2, -1, 0], ![-1, 1, 1], ![0, 1, 2]]

/-- Entry 5, `IDENTITY`. -/
def identityKernel : Matrix := Matrix.ofConst ![![0, 0, 0], ![0, 1, 0], ![0, 0, 0]]

/-- The table `algorithms`, in the order of the enumeration of `image.h`. -/
def algorithms : List Matrix :=
  [edgeKernel, sharpenKernel, blurKernel, gaussKernel, embossKernel, identityKernel]

/-! ## The kernel selection: `KernelTypes`, `GetKernelType` (image.c 85-92, image2.c 75-82) -/

/-- Modelled from the spec: the enumeration `KernelTypes` of `image.h` (the header is not
part of the sources): the six identifiers Edge, Sharpen, Blur, GaussianBlur, Emboss,
Identity, in the order of the catalog, under the names the code uses for them. -/
inductive KernelTypes where
  | EDGE
  | SHARPEN
  | BLUR
  | GAUSE_BLUR
  | EMBOSS
  | IDENTITY
deriving DecidableEq, Repr

/-- The integer value of an enumerator: the index used in `algorithms[type]`. -/
def KernelTypes.toNat : KernelTypes → Nat
  | .EDGE => 0
  | .SHARPEN => 1
  | .BLUR => 2
  | .GAUSE_BLUR => 3
  | .EMBOSS => 4
  | .IDENTITY => 5

/-- The table `algorithms` of image2.c, written as it stands there. -/
def algorithms2 : List Matrix :=
  [ Matrix.ofConst ![![0, -1, 0], ![-1, 4, -1], ![0, -1, 0]],
    Matrix.ofConst ![![0, -1, 0], ![-1, 5, -1], ![0, -1, 0]],
    Matrix.ofConst ![![1 / 9, 1 / 9, 1 / 9], ![1 / 9, 1 / 9, 1 / 9], ![1 / 9, 1 / 9, 1 / 9]],
    Matrix.ofConst ![![1 / 16, 1 / 8, 1 / 16], ![1 / 8, 1 / 4, 1 / 8], ![1 / 16, 1 / 8, 1 / 16]],
    Matrix.ofConst ![![-2, -1, 0], ![-1, 1, 1], ![0, 1, 2]],
    Matrix.ofConst ![![0, 0, 0], ![0, 1, 0], ![0, 0, 0]] ]

/-- The nine entries of a kernel, row by row. -/
def Matrix.rows (m : Matrix) : List (List Double) :=
  [[m 0 0, m 0 1, m 0 2], [m 1 0, m 1 1, m 1 2], [m 2 0, m 2 1, m 2 2]]

/-- `GetKernelType`: a chain of `strcmp` tests; `!strcmp(type, s)` holds exactly when the
C string `type` equals `s`, character for character. -/
def GetKernelType (type : String) : KernelTypes :=
  if type = "edge" then KernelTypes.EDGE
  else if type = "sharpen" then KernelTypes.SHARPEN
  else if type = "blur" then KernelTypes.BLUR
  else if type = "gauss" then KernelTypes.GAUSE_BLUR
  else if type = "emboss" then KernelTypes.EMBOSS
  else KernelTypes.IDENTITY

/-! ## `decide_thread_count` (image.c 95-105) -/

/-- Lines 101-104 of `decide_thread_count`: the processor count `n` reported by
`sysconf`, replaced by 4 when below 1 and then capped at 64. -/
def coreCount (n : Int) : Int :=
  let n := if n < 1 then 4 else n
  let n := if n > 64 then 64 else n
  n

/-- `decide_thread_count`.  `env` is `none` when `getenv("THREADS")` is null and holds
`atoi(env)` otherwise; `n` is the value of `sysconf(_SC_NPROCESSORS_ONLN)`. -/
def decide_thread_count (env : Option Int) (n : Int) : Int :=
  match env with
  | some t => if t ≥ 1 ∧ t ≤ 1024 then t else coreCount n
  | none => coreCount n

/-! ## `getPixelValue` (image.c 34-52, image2.c 34-52) -/

/-- Lines 35-39 of `getPixelValue`: the neighbour coordinates `(mx, px, my, py)` after
the four clamping tests. -/
def clampedNeighbours (srcImage : Image) (x y : Int) : Int × Int × Int × Int :=
  let px := x + 1
  let mx := x - 1
  let py := y + 1
  let my := y - 1
  let mx := if mx < 0 then 0 else mx
  let my := if my < 0 then 0 else my
  let px := if px ≥ srcImage.width then srcImage.width - 1 else px
  let py := if py ≥ srcImage.height then srcImage.height - 1 else py
  (mx, px, my, py)

/-- `getPixelValue`: the neighbour coordinates are clamped to the image, the nine
samples are read, each is converted to `double` and multiplied by its weight, the nine
products are added from left to right, and the accumulated double goes through
`clamp_u8`. -/
def getPixelValue (srcImage : Image) (x y bit : Int) (algorithm : Matrix) : Option Nat :=
  let mx := (clampedNeighbours srcImage x y).1
  let px := (clampedNeighbours srcImage x y).2.1
  let my := (clampedNeighbours srcImage x y).2.2.1
  let py := (clampedNeighbours srcImage x y).2.2.2
  (load srcImage.data (Index mx my srcImage.width bit srcImage.bpp)).bind fun a00 =>
  (load srcImage.data (Index x my srcImage.width bit srcImage.bpp)).bind fun a01 =>
  (load srcImage.data (Index px my srcImage.width bit srcImage.bpp)).bind fun a02 =>
  (load srcImage.data (Index mx y srcImage.width bit srcImage.bpp)).bind fun a10 =>
  (load srcImage.data (Index x y srcImage.width bit srcImage.bpp)).bind fun a11 =>
  (load srcImage.data (Index px y srcImage.width bit srcImage.bpp)).bind fun a12 =>
  (load srcImage.data (Index mx py srcImage.width bit srcImage.bpp)).bind fun a20 =>
  (load srcImage.data (Index x py srcImage.width bit srcImage.bpp)).bind fun a21 =>
  (load srcImage.data (Index px py srcImage.width bit srcImage.bpp)).bind fun a22 =>
  let acc : Double :=
    algorithm 0 0 * Double.ofNat a00 +
    algorithm 0 1 * Double.ofNat a01 +
    algorithm 0 2 * Double.ofNat a02 +
    algorithm 1 0 * Double.ofNat a10 +
    algorithm 1 1 * Double.ofNat a11 +
    algorithm 1 2 * Double.ofNat a12 +
    algorithm 2 0 * Double.ofNat a20 +
    algorithm 2 1 * Double.ofNat a21 +
    algorithm 2 2 * Double.ofNat a22
  some (clamp_u8 acc)

/-! ## Loops -/

/-- Run `body` for `n` consecutive counter values starting at `i`, threading the
state; a failing iteration aborts the loop. -/
def forLoop {σ : Type} (body : Int → σ → Option σ) : Nat → Int → σ → Option σ
  | 0, _, s => some s
  | n + 1, i, s => (body i s).bind (forLoop body n (i + 1))

/-- The C loop `for (i = lo; i < hi; ++i) body`. -/
def forRange {σ : Type} (lo hi : Int) (body : Int → σ → Option σ) (s : σ) : Option σ :=
  forLoop body (hi - lo).toNat lo s

/-! ## `worker` (image.c 55-77) and `convolute` (image2.c 55-66) -/

/-- The two images of `main`: every `ThreadJob` points at these same two structs. -/
structure Bufs where
  srcImage : Image
  destImage : Image
deriving DecidableEq, Repr

/-- The `ThreadJob` struct.  Its `src` and `dst` pointers are `&srcImage` and
`&destImage` in every job `main` builds; they are the two fields of `Bufs`. -/
structure ThreadJob where
  kernel : Matrix
  row_start : Int
  row_end : Int

/-- The assignment `dst->data[Index(x, row, src->width, bit, src->bpp)] =
getPixelValue(src, x, row, bit, kernel)`. -/
def writePixel (kernel : Matrix) (row x bit : Int) (m : Bufs) : Option Bufs :=
  (getPixelValue m.srcImage x row bit kernel).bind fun v =>
  (store m.destImage.data (Index x row m.srcImage.width bit m.srcImage.bpp) v).bind fun d =>
  some { m with destImage := { m.destImage with data := d } }

/-- The body of the row loop: the loops over `x` and `bit`. -/
def convolveRow (kernel : Matrix) (row : Int) (m : Bufs) : Option Bufs :=
  forRange 0 m.srcImage.width
    (fun x m => forRange 0 m.srcImage.bpp (fun bit m => writePixel kernel row x bit m) m) m

/-- `worker`: rows `row_start <= row < row_end` of the destination are computed. -/
def worker (job : ThreadJob) (m : Bufs) : Option Bufs :=
  forRange job.row_start job.row_end (fun row m => convolveRow job.kernel row m) m

/-- `convolute` of image2.c, its row loop read sequentially. -/
def convolute (algorithm : Matrix) (m : Bufs) : Option Bufs :=
  forRange 0 m.srcImage.height (fun row m => convolveRow algorithm row m) m

/-! ## `main` (image.c 127-165): destination, thread count, partition loop, workers -/

/-- The state of `main` when the workers start (image.c 127-130): `destImage` has the
dimensions of `srcImage` and a freshly allocated buffer, whose contents `d0` are
arbitrary. -/
def mainState (src : Image) (d0 : List Nat) : Bufs :=
  { srcImage := src,
    destImage := { data := d0, width := src.width, height := src.height, bpp := src.bpp } }

/-- Line 139 of `main`: `if (T > destImage.height) T = destImage.height;`. -/
def clampThreads (T height : Int) : Int :=
  if T > height then height else T

/-- State of the partition loop: the cursor `cur` and the jobs built so far. -/
structure PartState where
  cur : Int
  jobs : List ThreadJob

/-- One iteration of the partition loop. -/
def partitionStep (kernel : Matrix) (base rem : Int) (i : Int) (st : PartState) :
    Option PartState :=
  let take := base + (if i < rem then 1 else 0)
  some { cur := st.cur + take,
         jobs := st.jobs ++ [{ kernel := kernel, row_start := st.cur, row_end := st.cur + take }] }

/-- The jobs `main` builds for `rows` rows and `T` threads; `none` when `T = 0`
(the divisions `rows / T` and `rows % T` are undefined). -/
def mainJobs (kernel : Matrix) (rows T : Int) : Option (List ThreadJob) :=
  if T = 0 then none
  else
    let base := Int.tdiv rows T
    let rem := Int.tmod rows T
    (forRange 0 T (partitionStep kernel base rem) { cur := 0, jobs := [] }).map (·.jobs)

/-- The workers run one after another, in the order of the list. -/
def runJobs : List ThreadJob → Bufs → Option Bufs
  | [], m => some m
  | j :: js, m => (worker j m).bind (runJobs js)

/-- The convolution part of `main` (image.c 138-165) for a thread count `T` returned by
`decide_thread_count`: clamp `T` to the height, build the jobs, run the workers (here in
the order in which they are created). -/
def mainConvolve (src : Image) (d0 : List Nat) (kernel : Matrix) (T : Int) : Option Bufs :=
  (mainJobs kernel src.height (clampThreads T src.height)).bind fun jobs =>
    runJobs jobs (mainState src d0)

/-! ## `main` as a whole (image.c 107-179) -/

/-- What `main` takes from outside the program: the decoder `stbi_load` (`none` for a null
result), the buffer returned by the `malloc` of the destination (`none` for null, and
otherwise its arbitrary contents), whether the two `malloc`s of the thread bookkeeping
succeed, the `THREADS` hint (`atoi` of the variable when it is set) and the processor
count reported by `sysconf`. -/
structure Env where
  stbi_load : String → Option Image
  destBuf : Option (List Nat)
  threadBufs : Bool
  threadsHint : Option Int
  nproc : Int

/-- How `main` ends: it returns `code`, having written `output` to `output.png` when it
got that far; or its behaviour is undefined (division by zero, access outside a
buffer). -/
inductive MainResult where
  | exit (code : Int) (output : Option Image)
  | undefined
deriving DecidableEq, Repr

/-- `main`: `args` are `argv[1]`, `argv[2]`, ... (so `argc = args.length + 1`).  Every
test that makes `main` return early is here, in the order of the code. -/
def main (args : List String) (env : Env) : MainResult :=
  match args with
  | [fileName, typeName] =>
    let type := GetKernelType typeName
    match env.stbi_load fileName with
    | none => MainResult.exit (-1) none
    | some srcImage =>
      match env.destBuf with
      | none => MainResult.exit (-1) none
      | some d0 =>
        let T := decide_thread_count env.threadsHint env.nproc
        if env.threadBufs = false then MainResult.exit (-1) none
        else
          match algorithms[type.toNat]? with
          | none => MainResult.undefined
          | some kernel =>
            match mainConvolve srcImage d0 kernel T with
            | none => MainResult.undefined
            | some m => MainResult.exit 0 (some m.destImage)
  | _ => MainResult.exit (-1) none

/-! ## Specification-side definitions -/

/-- The finite values of the binary64 format: `m * 2^e` with a mantissa `m` of at most 53
bits and `-1074 <= e <= 971`. -/
def IsDouble (v : ℚ) : Prop :=
  ∃ m e : Int, |m| < 2 ^ 53 ∧ -1074 ≤ e ∧ e ≤ 971 ∧ v = (m : ℚ) * (2 : ℚ) ^ e

/-- The largest double below 1/2, `0x1.fffffffffffffp-2 = 1/2 - 2^-54`. -/
def predHalf : ℚ := 9007199254740991 / 18014398509481984

/-- The double that `1/9.0` evaluates to, `0x1.c71c71c71c71cp-4`: it is
`1/9 - 1/(9 * 2^54)`. -/
def ninthDouble : ℚ := 2001599834386887 / 18014398509481984

/-- The value `t` is the value of the finite double `d` up to an error of `ε`. -/
def Near (d : Double) (t ε : ℚ) : Prop :=
  ∃ r : ℚ, d = Double.fin r ∧ |r - t| ≤ ε

/-- Clamp a coordinate into `[lo, hi]`. -/
def clampCoord (v lo hi : Int) : Int :=
  max lo (min v hi)

/-- The sample of `img` at `(x, y, c)` as a natural number (0 outside the buffer). -/
def sampleNat (img : Image) (x y c : Int) : Nat :=
  img.data.getD (Index x y img.width c img.bpp).toNat 0

/-- The sample of `img` at `(x, y, c)` (0 outside the buffer). -/
def sample (img : Image) (x y c : Int) : ℚ :=
  (sampleNat img x y c : ℚ)

/-- Round to the nearest integer, ties away from zero. -/
def roundHalfAway (v : ℚ) : Int :=
  if 0 ≤ v then ⌊v + 1 / 2⌋ else -⌊-v + 1 / 2⌋

/-- Saturate an integer into `[0, 255]`. -/
def saturate (n : Int) : Nat :=
  (max 0 (min 255 n)).toNat

/-- The accumulated value of the spec for exact weights `kernel`: the sum over `dr, dc`
in `{-1, 0, 1}` of `kernel[dr+1][dc+1] * sample(clamp(x+dc), clamp(y+dr), c)`. -/
def accSpec (img : Image) (x y c : Int) (kernel : Fin 3 → Fin 3 → ℚ) : ℚ :=
  ∑ r : Fin 3, ∑ k : Fin 3,
    kernel r k * sample img (clampCoord (x + ((k : Nat) : Int) - 1) 0 (img.width - 1))
      (clampCoord (y + ((r : Nat) : Int) - 1) 0 (img.height - 1)) c

/-- The output sample of the spec: the accumulated value, rounded and saturated. -/
def pixelSpec (img : Image) (x y c : Int) (kernel : Fin 3 → Fin 3 → ℚ) : Nat :=
  saturate (roundHalfAway (accSpec img x y c kernel))

/-- The nine cells of a 3x3 matrix in row-major order, as `(row, column)`. -/
def rowMajor : List (Fin 3 × Fin 3) :=
  [(0, 0), (0, 1), (0, 2), (1, 0), (1, 1), (1, 2), (2, 0), (2, 1), (2, 2)]

/-- The double sum `p0 + p1 + ... + pn` of a C expression: the terms are added from
left to right and every partial sum is rounded. -/
def accSum : List Double → Double
  | [] => Double.fin 0
  | p :: ps => ps.foldl (fun s t => s + t) p

/-- The nine weights of a kernel in row-major order. -/
def Matrix.cells (kernel : Matrix) : List Double :=
  rowMajor.map fun rk => kernel rk.1 rk.2

/-- The nine samples `sample(clamp(x+dc), clamp(y+dr), c)` of the edge-replicated
neighbourhood of `(x, y)`, in row-major order (`dr` outer, `dc` inner). -/
def neighbourhood (img : Image) (x y c : Int) : List Nat :=
  rowMajor.map fun rk =>
    sampleNat img (clampCoord (x + ((rk.2 : Nat) : Int) - 1) 0 (img.width - 1))
      (clampCoord (y + ((rk.1 : Nat) : Int) - 1) 0 (img.height - 1)) c

/-- The accumulated double: the nine products `kernel[dr+1][dc+1] * sample(clamp(x+dc),
clamp(y+dr), c)`, each rounded, added in row-major order, each partial sum rounded. -/
def accDouble (img : Image) (x y c : Int) (kernel : Matrix) : Double :=
  accSum (List.zipWith (fun (w : Double) (s : Nat) => w * Double.ofNat s) kernel.cells
    (neighbourhood img x y c))

/-- The sum of the spec for the weights `ws` and the samples `ss`, in exact arithmetic. -/
def exactSum (ws : List ℚ) (ss : List Nat) : ℚ :=
  (List.zipWith (fun (w : ℚ) (s : Nat) => w * (s : ℚ)) ws ss).sum

/-- The output sample at `(x, y, c)`: the accumulated double through `clamp_u8`. -/
def pixelValue (img : Image) (x y c : Int) (kernel : Matrix) : Nat :=
  clamp_u8 (accDouble img x y c kernel)

/-- The matrices of the catalog of the spec, with exact weights. -/
def catalog : KernelTypes → Fin 3 → Fin 3 → ℚ
  | .EDGE => ![![0, -1, 0], ![-1, 4, -1], ![0, -1, 0]]
  | .SHARPEN => ![![0, -1, 0], ![-1, 5, -1], ![0, -1, 0]]
  | .BLUR => ![![1 / 9, 1 / 9, 1 / 9], ![1 / 9, 1 / 9, 1 / 9], ![1 / 9, 1 / 9, 1 / 9]]
  | .GAUSE_BLUR => ![![1 / 16, 1 / 8, 1 / 16], ![1 / 8, 1 / 4, 1 / 8], ![1 / 16, 1 / 8, 1 / 16]]
  | .EMBOSS => ![![-2, -1, 0], ![-1, 1, 1], ![0, 1, 2]]
  | .IDENTITY => ![![0, 0, 0], ![0, 1, 0], ![0, 0, 0]]

/-- The thread count as the spec words it: the explicit hint when one is given, otherwise
the available processor count, otherwise 4, in each case clamped into `1..1024`. -/
def resolve_thread_count_spec (hint : Option Int) (n : Int) : Int :=
  let r := match hint with
    | some t => t
    | none => if 1 ≤ n then n else 4
  max 1 (min 1024 r)

/-! ## Predicates used to state the effect of the loops -/

/-- The two buffers have the shape the source image announces. -/
def Ready (m : Bufs) : Prop :=
  0 ≤ m.srcImage.width ∧ 0 ≤ m.srcImage.bpp ∧
  (m.srcImage.data.length : Int) = m.srcImage.width * m.srcImage.height * m.srcImage.bpp ∧
  (m.destImage.data.length : Int) = m.srcImage.width * m.srcImage.height * m.srcImage.bpp

instance (m : Bufs) : Decidable (Ready m) := by
  unfold Ready; infer_instance

/-- The state `m` differs from `m0` in the contents of the destination buffer only. -/
def SameShape (m0 m : Bufs) : Prop :=
  m.srcImage = m0.srcImage ∧ m.destImage.width = m0.destImage.width ∧
  m.destImage.height = m0.destImage.height ∧ m.destImage.bpp = m0.destImage.bpp ∧
  m.destImage.data.length = m0.destImage.data.length

/-- Starting from `m0`, the destination samples at the coordinates selected by `P` hold
the convolved value and all the others are as in `m0`. -/
def Upd (kernel : Matrix) (P : Int → Int → Int → Prop) (m0 m : Bufs) : Prop :=
  SameShape m0 m ∧
  ∀ x y c, m0.srcImage.Valid x y c →
    (P x y c → load m.destImage.data (Index x y m0.srcImage.width c m0.srcImage.bpp) =
      some (pixelValue m0.srcImage x y c kernel)) ∧
    (¬ P x y c → load m.destImage.data (Index x y m0.srcImage.width c m0.srcImage.bpp) =
      load m0.destImage.data (Index x y m0.srcImage.width c m0.srcImage.bpp))

/-- First row of range `n` of the partition: `n` ranges of `base` rows before it, the
first `rem` of them one row longer. -/
def rowStart (base rem : Int) (n : Nat) : Int :=
  (n : Int) * base + min (n : Int) rem

/-- Job `n` of the partition. -/
def jobAt (kernel : Matrix) (base rem : Int) (n : Nat) : ThreadJob :=
  { kernel := kernel, row_start := rowStart base rem n, row_end := rowStart base rem (n + 1) }

/-! ## Concrete inputs -/

/-- The 4x1 grayscale image of the spec: four columns, one row. -/
def img4x1 : Image := { data := [0, 255, 0, 255], width := 4, height := 1, bpp := 1 }

/-- The same four samples as one column of four rows. -/
def img1x4 : Image := { data := [0, 255, 0, 255], width := 1, height := 4, bpp := 1 }

/-- The 3x3 all-128 grayscale image of the spec. -/
def img3x3 : Image :=
  { data := [128, 128, 128, 128, 128, 128, 128, 128, 128], width := 3, height := 3, bpp := 1 }

/-- A 2x3 image with two channels. -/
def img2x3 : Image :=
  { data := [10, 200, 20, 190, 30, 180, 40, 170, 50, 160, 60, 150], width := 2, height := 3,
    bpp := 2 }

/-- A 1x1 image with three channels. -/
def img1x1 : Image := { data := [17, 200, 255], width := 1, height := 1, bpp := 3 }

/-- The 2x2 all-255 grayscale image. -/
def img2x2 : Image := { data := [255, 255, 255, 255], width := 2, height := 2, bpp := 1 }

/-- Weights that sum to 5. -/
def heavyWeights : Fin 3 → Fin 3 → ℚ := ![![0, 1, 0], ![1, 1, 1], ![0, 1, 0]]

/-- A kernel whose weights sum to 5. -/
def heavyKernel : Matrix := Matrix.ofConst heavyWeights

/-- The two-channel 2x3 image with other samples in channel 0. -/
def img2x3b : Image :=
  { data := [1, 200, 2, 190, 3, 180, 4, 170, 5, 160, 6, 150], width := 2, height := 3,
    bpp := 2 }

/-- A 3x3 grayscale image whose nine samples sum to 215. -/
def img3x3b : Image :=
  { data := [43, 11, 6, 37, 36, 40, 12, 23, 7], width := 3, height := 3, bpp := 1 }

/-- Nine weights `0.1`. -/
def tenthKernel : Matrix := Matrix.ofConst fun _ _ => 1 / 10

/-- The value of the double `0.1`, `0x1.999999999999ap-4`. -/
def tenth : ℚ := 3602879701896397 / 36028797018963968

/-- The weights `1e17, 1, -1e17` in the first row, 0 elsewhere: their sum is 1. -/
def cancelWeights : Fin 3 → Fin 3 → ℚ :=
  ![![100000000000000000, 1, -100000000000000000], ![0, 0, 0], ![0, 0, 0]]

/-- The kernel of the weights `1e17, 1, -1e17, 0, ...`. -/
def cancelKernel : Matrix := Matrix.ofConst cancelWeights

/-- The weights `1e17, 2, -1e17` in the first row, 0 elsewhere: their sum is 2. -/
def cancelWeights2 : Fin 3 → Fin 3 → ℚ :=
  ![![100000000000000000, 2, -100000000000000000], ![0, 0, 0], ![0, 0, 0]]

/-- The kernel of the weights `1e17, 2, -1e17, 0, ...`. -/
def cancelKernel2 : Matrix := Matrix.ofConst cancelWeights2

/-- The centre weight `0x1.fffffffffffffp-2`, the largest double below 1/2, 0 elsewhere. -/
def halfWeights : Fin 3 → Fin 3 → ℚ :=
  ![![0, 0, 0], ![0, 9007199254740991 / 18014398509481984, 0], ![0, 0, 0]]

/-- The kernel of the centre weight `0x1.fffffffffffffp-2`. -/
def halfKernel : Matrix := Matrix.ofConst halfWeights

/-- The 1x1 grayscale image with the sample 1. -/
def img1 : Image := { data := [1], width := 1, height := 1, bpp := 1 }

/-! ## Concrete environments of `main` -/

/-- A decoder result with no row, every allocation succeeding. -/
def envNoRows : Env :=
  { stbi_load := fun _ => some { data := [], width := 3, height := 0, bpp := 1 },
    destBuf := some [], threadBufs := true, threadsHint := none, nproc := 8 }

/-- A decoder result with no column, every allocation succeeding. -/
def envNoColumns : Env :=
  { stbi_load := fun _ => some { data := [], width := 0, height := 2, bpp := 1 },
    destBuf := some [], threadBufs := true, threadsHint := none, nproc := 8 }

/-- The decoder returns the two-channel 2x3 image, every allocation succeeds,
`THREADS=2`. -/
def envTwoThreads : Env :=
  { stbi_load := fun _ => some img2x3,
    destBuf := some [0, 0, 0, 0, 0, 0, 0, 0, 0, 0, 0, 0], threadBufs := true,
    threadsHint := some 2, nproc := 8 }

/-- The decoder fails. -/
def envNoFile : Env :=
  { stbi_load := fun _ => none, destBuf := some [], threadBufs := true, threadsHint := none,
    nproc := 8 }

/-! ## Theorems -/

/-! ## The operations on finite doubles -/

theorem Double.fin_add_fin (a b : ℚ) : Double.fin a + Double.fin b = toDouble (a + b) := rfl

theorem Double.fin_mul_fin (a b : ℚ) : Double.fin a * Double.fin b = toDouble (a * b) := rfl

/-! ## Rounding to the nearest integer -/

theorem rne_intCast (n : Int) : rne (n : ℚ) = n := by
  unfold rne
  simp

theorem rne_le_of_le {x : ℚ} {N : Int} (h : x ≤ N) : rne x ≤ N := by
  unfold rne
  have h1 : ⌊x⌋ ≤ N := Int.floor_le_floor h |>.trans (by simp)
  have hfl := Int.floor_le x
  split
  · exact h1
  · have hlt : ⌊x⌋ < N := by
      rcases lt_or_eq_of_le h1 with h2 | h2
      · exact h2
      · exfalso
        have : x - ⌊x⌋ ≤ 0 := by rw [h2]; linarith
        linarith
    split
    · omega
    · split <;> omega

theorem rne_ge_of_ge {x : ℚ} {N : Int} (h : (N : ℚ) ≤ x) : N ≤ rne x := by
  unfold rne
  have h1 : N ≤ ⌊x⌋ := Int.le_floor.mpr h
  split
  · exact h1
  · split
    · omega
    · split <;> omega

theorem rne_eq_of_abs_lt {x : ℚ} {n : Int} (h : |x - n| < 1 / 2) : rne x = n := by
  rw [abs_lt] at h
  obtain ⟨h1, h2⟩ := h
  unfold rne
  have hfl := Int.floor_le x
  have hfl2 := Int.lt_floor_add_one x
  by_cases hx : (n : ℚ) ≤ x
  · have e : ⌊x⌋ = n := by
      rw [Int.floor_eq_iff]; constructor <;> linarith
    rw [e, if_pos (by linarith)]
  · have hx2 : x < n := not_le.mp hx
    have e : ⌊x⌋ = n - 1 := by
      rw [Int.floor_eq_iff]; push_cast; constructor <;> linarith
    rw [e]
    push_cast
    rw [if_neg (by linarith), if_pos (by linarith)]
    ring

theorem rne_tie_up {x : ℚ} {n : Int} (h : x = n - 1 / 2) (hn : n % 2 = 0) : rne x = n := by
  unfold rne
  have e : ⌊x⌋ = n - 1 := by
    rw [Int.floor_eq_iff]; push_cast; constructor <;> linarith
  rw [e]
  push_cast
  rw [if_neg (by linarith), if_neg (by linarith), if_neg (by omega)]
  ring

theorem rne_tie_down {x : ℚ} {n : Int} (h : x = n + 1 / 2) (hn : n % 2 = 0) : rne x = n := by
  unfold rne
  have e : ⌊x⌋ = n := by
    rw [Int.floor_eq_iff]; constructor <;> linarith
  rw [e, if_neg (by linarith), if_neg (by linarith), if_pos hn]

theorem rne_lt_of_lt {x : ℚ} {N : Int} (h : x < N - 1 / 2) : rne x < N := by
  have h1 : rne x ≤ N - 1 := by
    by_cases hx : x ≤ ((N - 1 : Int) : ℚ)
    · exact rne_le_of_le hx
    · have := rne_eq_of_abs_lt (x := x) (n := N - 1) (by
        rw [abs_lt]; push_cast at hx ⊢; constructor <;> linarith)
      omega
  omega

/-! ## The unit in the last place and the rounding to the binary64 grid -/

theorem two_zpow_pos (e : Int) : (0 : ℚ) < (2 : ℚ) ^ e := zpow_pos (by norm_num) e

theorem log_eq_of_bounds {x : ℚ} {k : Int} (h1 : (2 : ℚ) ^ k ≤ x) (h2 : x < (2 : ℚ) ^ (k + 1)) :
    Int.log 2 x = k := by
  have hx : 0 < x := lt_of_lt_of_le (two_zpow_pos k) h1
  apply le_antisymm
  · have := (Int.lt_zpow_iff_log_lt (b := 2) (by norm_num) hx (x := k + 1)).mp (by exact_mod_cast h2)
    omega
  · exact (Int.zpow_le_iff_le_log (b := 2) (by norm_num) hx).mp (by exact_mod_cast h1)

theorem cexp_eq {x : ℚ} {e : Int} (he : -1074 ≤ e) (h1 : (2 : ℚ) ^ (e + 52) ≤ |x|)
    (h2 : |x| < (2 : ℚ) ^ (e + 53)) : cexp x = e := by
  unfold cexp
  rw [log_eq_of_bounds h1 (by rw [show e + 52 + 1 = e + 53 by ring]; exact h2)]
  omega

theorem cexp_le {x : ℚ} {e : Int} (hx : x ≠ 0) (he : -1074 ≤ e)
    (h2 : |x| < (2 : ℚ) ^ (e + 53)) : cexp x ≤ e := by
  unfold cexp
  have hpos : 0 < |x| := abs_pos.mpr hx
  have := (Int.lt_zpow_iff_log_lt (b := 2) (by norm_num) hpos (x := e + 53)).mp
    (by exact_mod_cast h2)
  omega

theorem roundQ_zero : roundQ 0 = 0 := by
  have h : rne 0 = 0 := by simpa using rne_intCast 0
  unfold roundQ
  rw [zero_div, h]
  simp

theorem roundQ_eq_of {x : ℚ} {e n : Int} (he : cexp x = e) (hn : rne (x / (2 : ℚ) ^ e) = n) :
    roundQ x = n * (2 : ℚ) ^ e := by
  unfold roundQ
  rw [he, hn]

/-- A dyadic rational with a mantissa of at most 53 bits is its own rounding. -/
theorem roundQ_dyadic (m e : Int) (hm : |m| < 2 ^ 53) (he : -1074 ≤ e) :
    roundQ ((m : ℚ) * (2 : ℚ) ^ e) = (m : ℚ) * (2 : ℚ) ^ e := by
  by_cases hm0 : m = 0
  · subst hm0; simp [roundQ_zero]
  have hpow := two_zpow_pos e
  have hx : (m : ℚ) * (2 : ℚ) ^ e ≠ 0 := mul_ne_zero (by exact_mod_cast hm0) hpow.ne'
  have habs : |(m : ℚ) * (2 : ℚ) ^ e| < (2 : ℚ) ^ (e + 53) := by
    rw [abs_mul, abs_of_pos hpow, zpow_add₀ (by norm_num : (2 : ℚ) ≠ 0), mul_comm]
    apply mul_lt_mul_of_pos_left _ hpow
    rw [show ((2 : ℚ) ^ (53 : ℤ)) = (2 : ℚ) ^ (53 : ℕ) by norm_num]
    exact_mod_cast hm
  have hc := cexp_le hx he habs
  obtain ⟨d, hd⟩ : ∃ d : ℕ, e = cexp ((m : ℚ) * (2 : ℚ) ^ e) + d :=
    ⟨(e - cexp ((m : ℚ) * (2 : ℚ) ^ e)).toNat, by omega⟩
  unfold roundQ
  have hq : (m : ℚ) * (2 : ℚ) ^ e / (2 : ℚ) ^ cexp ((m : ℚ) * (2 : ℚ) ^ e)
      = ((m * 2 ^ d : Int) : ℚ) := by
    have hc0 := (two_zpow_pos (cexp ((m : ℚ) * (2 : ℚ) ^ e))).ne'
    rw [div_eq_iff hc0]
    push_cast
    conv_lhs => rw [hd]
    rw [zpow_add₀ (by norm_num : (2 : ℚ) ≠ 0), zpow_natCast]
    ring
  rw [hq, rne_intCast, ← hq]
  exact div_mul_cancel₀ _ (two_zpow_pos _).ne'

theorem cexp_ge (x : ℚ) : -1074 ≤ cexp x := le_max_right _ _

/-! ## Evaluation of `toDouble` -/

theorem toDouble_of_lt {x : ℚ} (h1 : -(2 : ℚ) ^ (1024 : ℕ) < roundQ x)
    (h2 : roundQ x < (2 : ℚ) ^ (1024 : ℕ)) : toDouble x = Double.fin (roundQ x) := by
  unfold toDouble
  rw [if_neg (not_le.mpr h2), if_neg (not_le.mpr h1)]

theorem toDouble_dyadic (m e : Int) (hm : |m| < 2 ^ 53) (he : -1074 ≤ e) (he2 : e ≤ 971) :
    toDouble ((m : ℚ) * (2 : ℚ) ^ e) = Double.fin ((m : ℚ) * (2 : ℚ) ^ e) := by
  have hpow := two_zpow_pos e
  have hm2 : |(m : ℚ)| < (2 : ℚ) ^ (53 : ℕ) := by exact_mod_cast hm
  have hle : (2 : ℚ) ^ e ≤ (2 : ℚ) ^ (971 : ℤ) := zpow_le_zpow_right₀ (by norm_num) he2
  have habs : |(m : ℚ) * (2 : ℚ) ^ e| < (2 : ℚ) ^ (1024 : ℕ) := by
    rw [abs_mul, abs_of_pos hpow]
    calc |(m : ℚ)| * (2 : ℚ) ^ e ≤ |(m : ℚ)| * (2 : ℚ) ^ (971 : ℤ) :=
          mul_le_mul_of_nonneg_left hle (abs_nonneg _)
      _ < (2 : ℚ) ^ (53 : ℕ) * (2 : ℚ) ^ (971 : ℤ) :=
          mul_lt_mul_of_pos_right hm2 (two_zpow_pos _)
      _ = (2 : ℚ) ^ (1024 : ℕ) := by norm_num
  rw [abs_lt] at habs
  have e1 := roundQ_dyadic m e hm he
  rw [toDouble_of_lt (by rw [e1]; exact habs.1) (by rw [e1]; exact habs.2), e1]

theorem toDouble_intCast (n : Int) (hn : |n| < 2 ^ 53) : toDouble (n : ℚ) = Double.fin n := by
  have := toDouble_dyadic n 0 hn (by norm_num) (by norm_num)
  simpa using this

theorem toDouble_natCast (n : Nat) (hn : n < 2 ^ 53) : toDouble (n : ℚ) = Double.fin n := by
  have := toDouble_intCast n (by rw [abs_of_nonneg (by positivity)]; exact_mod_cast hn)
  simpa using this

theorem toDouble_zero : toDouble 0 = Double.fin 0 := by
  simpa using toDouble_natCast 0 (by norm_num)

/-- Evaluation of a rounding in the normal range, away from a tie. -/
theorem toDouble_cert (x : ℚ) (e n : Int) (he : -1074 ≤ e) (he2 : e ≤ 970)
    (h1 : (2 : ℚ) ^ (e + 52) ≤ |x|) (h2 : |x| < (2 : ℚ) ^ (e + 53))
    (h3 : |x / (2 : ℚ) ^ e - n| < 1 / 2) : toDouble x = Double.fin (n * (2 : ℚ) ^ e) := by
  have hr := roundQ_eq_of (cexp_eq he h1 h2) (rne_eq_of_abs_lt h3)
  have hpow := two_zpow_pos e
  have hxe : |x / (2 : ℚ) ^ e| < (2 : ℚ) ^ (53 : ℕ) := by
    rw [abs_div, abs_of_pos hpow, div_lt_iff₀ hpow]
    calc |x| < (2 : ℚ) ^ (e + 53) := h2
      _ = (2 : ℚ) ^ (53 : ℕ) * (2 : ℚ) ^ e := by
          rw [zpow_add₀ (by norm_num : (2 : ℚ) ≠ 0)]; norm_num [mul_comm]
  have hn : |(n : ℚ)| ≤ (2 : ℚ) ^ (53 : ℕ) := by
    have hN : ((2 ^ 53 : Int) : ℚ) = (2 : ℚ) ^ (53 : ℕ) := by norm_num
    rw [abs_le]
    rw [abs_lt] at hxe
    constructor
    · have : -(2 ^ 53 : Int) ≤ n := by
        rw [← rne_eq_of_abs_lt h3]
        apply rne_ge_of_ge
        push_cast
        linarith [hxe.1]
      have h' : ((-(2 ^ 53 : Int) : Int) : ℚ) ≤ (n : ℚ) := by exact_mod_cast this
      push_cast at h'
      linarith
    · have : n ≤ (2 ^ 53 : Int) := by
        rw [← rne_eq_of_abs_lt h3]
        apply rne_le_of_le
        push_cast
        linarith [hxe.2]
      have h' : (n : ℚ) ≤ ((2 ^ 53 : Int) : ℚ) := by exact_mod_cast this
      push_cast at h'
      linarith
  have hle : (2 : ℚ) ^ e ≤ (2 : ℚ) ^ (970 : ℤ) := zpow_le_zpow_right₀ (by norm_num) he2
  have habs : |(n : ℚ) * (2 : ℚ) ^ e| < (2 : ℚ) ^ (1024 : ℕ) := by
    rw [abs_mul, abs_of_pos hpow]
    calc |(n : ℚ)| * (2 : ℚ) ^ e ≤ (2 : ℚ) ^ (53 : ℕ) * (2 : ℚ) ^ (970 : ℤ) :=
          mul_le_mul hn hle hpow.le (by positivity)
      _ < (2 : ℚ) ^ (1024 : ℕ) := by norm_num
  rw [abs_lt] at habs
  rw [toDouble_of_lt (by rw [hr]; exact habs.1) (by rw [hr]; exact habs.2), hr]

/-- Evaluation of a rounding in the normal range at a tie: the even neighbour. -/
theorem toDouble_cert_tie (x : ℚ) (e n : Int) (he : -1074 ≤ e) (he2 : e ≤ 970)
    (h1 : (2 : ℚ) ^ (e + 52) ≤ |x|) (h2 : |x| < (2 : ℚ) ^ (e + 53))
    (h3 : x / (2 : ℚ) ^ e = n - 1 / 2 ∨ x / (2 : ℚ) ^ e = n + 1 / 2) (hn : n % 2 = 0)
    (hb : |n| ≤ 2 ^ 53) : toDouble x = Double.fin (n * (2 : ℚ) ^ e) := by
  have hrne : rne (x / (2 : ℚ) ^ e) = n := by
    rcases h3 with h | h
    · exact rne_tie_up h hn
    · exact rne_tie_down h hn
  have hr := roundQ_eq_of (cexp_eq he h1 h2) hrne
  have hpow := two_zpow_pos e
  have hn2 : |(n : ℚ)| ≤ (2 : ℚ) ^ (53 : ℕ) := by exact_mod_cast hb
  have hle : (2 : ℚ) ^ e ≤ (2 : ℚ) ^ (970 : ℤ) := zpow_le_zpow_right₀ (by norm_num) he2
  have habs : |(n : ℚ) * (2 : ℚ) ^ e| < (2 : ℚ) ^ (1024 : ℕ) := by
    rw [abs_mul, abs_of_pos hpow]
    calc |(n : ℚ)| * (2 : ℚ) ^ e ≤ (2 : ℚ) ^ (53 : ℕ) * (2 : ℚ) ^ (970 : ℤ) :=
          mul_le_mul hn2 hle hpow.le (by positivity)
      _ < (2 : ℚ) ^ (1024 : ℕ) := by norm_num
  rw [abs_lt] at habs
  rw [toDouble_of_lt (by rw [hr]; exact habs.1) (by rw [hr]; exact habs.2), hr]

/-- The certificate for a positive argument, with the bounds spelled out. -/
theorem toDouble_cert_pos (x : ℚ) (e n : Int) (he : -1074 ≤ e) (he2 : e ≤ 970)
    (h1 : (2 : ℚ) ^ (e + 52) ≤ x) (h2 : x < (2 : ℚ) ^ (e + 53))
    (h3 : (n : ℚ) - 1 / 2 < x / (2 : ℚ) ^ e) (h4 : x / (2 : ℚ) ^ e < (n : ℚ) + 1 / 2) :
    toDouble x = Double.fin (n * (2 : ℚ) ^ e) := by
  have hx : 0 < x := lt_of_lt_of_le (two_zpow_pos _) h1
  exact toDouble_cert x e n he he2 (by rw [abs_of_pos hx]; exact h1)
    (by rw [abs_of_pos hx]; exact h2) (by rw [abs_lt]; constructor <;> linarith)

/-- The tie certificate for a positive argument. -/
theorem toDouble_cert_tie_pos (x : ℚ) (e n : Int) (he : -1074 ≤ e) (he2 : e ≤ 970)
    (h1 : (2 : ℚ) ^ (e + 52) ≤ x) (h2 : x < (2 : ℚ) ^ (e + 53))
    (h3 : x / (2 : ℚ) ^ e = n - 1 / 2 ∨ x / (2 : ℚ) ^ e = n + 1 / 2) (hn : n % 2 = 0)
    (hb : |n| ≤ 2 ^ 53) : toDouble x = Double.fin (n * (2 : ℚ) ^ e) := by
  have hx : 0 < x := lt_of_lt_of_le (two_zpow_pos _) h1
  exact toDouble_cert_tie x e n he he2 (by rw [abs_of_pos hx]; exact h1)
    (by rw [abs_of_pos hx]; exact h2) h3 hn hb


/-! ## Doubles are multiples of the unit of their binade -/

theorem IsDouble.multiple {v : ℚ} (hv : IsDouble v) {j : Int} (hj : (2 : ℚ) ^ j ≤ v) :
    ∃ k : Int, v = (k : ℚ) * (2 : ℚ) ^ (j - 52) := by
  obtain ⟨m, e, hm, _, _, rfl⟩ := hv
  have hpow := two_zpow_pos e
  have hm2 : (m : ℚ) < (2 : ℚ) ^ (53 : ℤ) := by
    have h1 : |(m : ℚ)| < (2 : ℚ) ^ (53 : ℕ) := by exact_mod_cast hm
    rw [show ((2 : ℚ) ^ (53 : ℤ)) = (2 : ℚ) ^ (53 : ℕ) by norm_num]
    exact lt_of_le_of_lt (le_abs_self _) h1
  have hlt : (2 : ℚ) ^ j < (2 : ℚ) ^ (e + 53) := by
    rw [zpow_add₀ (by norm_num : (2 : ℚ) ≠ 0), mul_comm]
    exact lt_of_le_of_lt hj (mul_lt_mul_of_pos_right hm2 hpow)
  have hje : j < e + 53 := (zpow_lt_zpow_iff_right₀ (by norm_num : (1 : ℚ) < 2)).mp hlt
  obtain ⟨d, hd⟩ : ∃ d : ℕ, e = (j - 52) + d := ⟨(e - (j - 52)).toNat, by omega⟩
  refine ⟨m * 2 ^ d, ?_⟩
  push_cast
  conv_lhs => rw [hd]
  rw [zpow_add₀ (by norm_num : (2 : ℚ) ≠ 0), zpow_natCast]
  ring

/-! ## The rounding of `v + 1/2` in `clamp_u8` -/

theorem roundQ_add_half_binade {v : ℚ} (hv : IsDouble v) (e : Int) (Pn : Int)
    (he1 : -1074 ≤ e) (he : e ≤ -1) (hP : (Pn : ℚ) = (2 : ℚ) ^ (e + 52))
    (h1 : (Pn : ℚ) ≤ v + 1 / 2) (h2 : v + 1 / 2 < 2 * (Pn : ℚ)) :
    ⌊roundQ (v + 1 / 2)⌋ = ⌊v + 1 / 2⌋ := by
  have hpow := two_zpow_pos e
  have h2e : (2 : ℚ) ^ (e + 53) = 2 * (Pn : ℚ) := by
    rw [hP, show e + 53 = (e + 52) + 1 by ring, zpow_add₀ (by norm_num : (2 : ℚ) ≠ 0)]
    norm_num [mul_comm]
  have hPpos : (0 : ℚ) < Pn := by rw [hP]; exact two_zpow_pos _
  have hy : 0 < v + 1 / 2 := lt_of_lt_of_le hPpos h1
  obtain ⟨d, hd⟩ : ∃ d : ℕ, -1 = e + d := ⟨(-1 - e).toNat, by omega⟩
  have hhalf : (1 / 2 : ℚ) = ((2 ^ d : Int) : ℚ) * (2 : ℚ) ^ e := by
    push_cast
    rw [← zpow_natCast, ← zpow_add₀ (by norm_num : (2 : ℚ) ≠ 0), add_comm, ← hd]
    norm_num
  by_cases hvP : (Pn : ℚ) ≤ v
  · -- `v + 1/2` is itself a double
    obtain ⟨k, hk⟩ := hv.multiple (j := e + 52) (by rw [← hP]; exact hvP)
    rw [show e + 52 - 52 = e by ring] at hk
    have hyk : v + 1 / 2 = ((k + 2 ^ d : Int) : ℚ) * (2 : ℚ) ^ e := by
      rw [hk, hhalf]; push_cast; ring
    have hmant : |k + 2 ^ d| < 2 ^ 53 := by
      have hlt : ((k + 2 ^ d : Int) : ℚ) * (2 : ℚ) ^ e < (2 : ℚ) ^ (53 : ℕ) * (2 : ℚ) ^ e := by
        rw [← hyk]
        calc v + 1 / 2 < 2 * (Pn : ℚ) := h2
          _ = (2 : ℚ) ^ (e + 53) := h2e.symm
          _ = (2 : ℚ) ^ (53 : ℕ) * (2 : ℚ) ^ e := by
              rw [zpow_add₀ (by norm_num : (2 : ℚ) ≠ 0)]; norm_num [mul_comm]
      have hlt2 : ((k + 2 ^ d : Int) : ℚ) < (2 : ℚ) ^ (53 : ℕ) := lt_of_mul_lt_mul_right hlt hpow.le
      have hpos2 : (0 : ℚ) < ((k + 2 ^ d : Int) : ℚ) := by
        have : 0 < ((k + 2 ^ d : Int) : ℚ) * (2 : ℚ) ^ e := by rw [← hyk]; exact hy
        exact pos_of_mul_pos_left this hpow.le
      have a : (0 : Int) < k + 2 ^ d := by exact_mod_cast hpos2
      have b : k + 2 ^ d < (2 : Int) ^ 53 := by exact_mod_cast hlt2
      rw [abs_of_pos a]; exact b
    rw [hyk, roundQ_dyadic _ e hmant he1]
  · have hvP2 : v < Pn := not_le.mp hvP
    have hc : cexp (v + 1 / 2) = e :=
      cexp_eq he1 (by rw [abs_of_pos hy, ← hP]; exact h1) (by rw [abs_of_pos hy, h2e]; exact h2)
    obtain ⟨a, ha⟩ : ∃ a : ℕ, -e = (a : Int) := ⟨(-e).toNat, by omega⟩
    have hA : (Pn : ℚ) / (2 : ℚ) ^ e = ((Pn * 2 ^ a : Int) : ℚ) := by
      rw [div_eq_iff hpow.ne']
      push_cast
      rw [mul_assoc, ← zpow_natCast, ← zpow_add₀ (by norm_num : (2 : ℚ) ≠ 0), ← ha]
      simp
    have hlow : Pn * 2 ^ a ≤ rne ((v + 1 / 2) / (2 : ℚ) ^ e) := by
      apply rne_ge_of_ge
      rw [← hA]
      exact div_le_div_of_nonneg_right h1 hpow.le
    have hup : rne ((v + 1 / 2) / (2 : ℚ) ^ e) ≤ Pn * 2 ^ a + 2 ^ d := by
      apply rne_le_of_le
      have : ((Pn * 2 ^ a + 2 ^ d : Int) : ℚ) = ((Pn : ℚ) + 1 / 2) / (2 : ℚ) ^ e := by
        rw [add_div, hA, hhalf, mul_div_assoc, div_self hpow.ne']
        push_cast; ring
      rw [this]
      exact div_le_div_of_nonneg_right (by linarith) hpow.le
    have hr : roundQ (v + 1 / 2) = (rne ((v + 1 / 2) / (2 : ℚ) ^ e) : ℚ) * (2 : ℚ) ^ e :=
      roundQ_eq_of hc rfl
    have hlow2 : (Pn : ℚ) ≤ roundQ (v + 1 / 2) := by
      rw [hr]
      have : ((Pn * 2 ^ a : Int) : ℚ) * (2 : ℚ) ^ e = Pn := by
        rw [← hA]; exact div_mul_cancel₀ _ hpow.ne'
      rw [← this]
      exact mul_le_mul_of_nonneg_right (by exact_mod_cast hlow) hpow.le
    have hup2 : roundQ (v + 1 / 2) ≤ (Pn : ℚ) + 1 / 2 := by
      rw [hr]
      have : ((Pn * 2 ^ a + 2 ^ d : Int) : ℚ) * (2 : ℚ) ^ e = (Pn : ℚ) + 1 / 2 := by
        have h3 : ((Pn * 2 ^ a : Int) : ℚ) * (2 : ℚ) ^ e = Pn := by
          rw [← hA]; exact div_mul_cancel₀ _ hpow.ne'
        push_cast at h3 ⊢
        rw [add_mul, h3]
        push_cast at hhalf
        rw [← hhalf]
      rw [← this]
      exact mul_le_mul_of_nonneg_right (by exact_mod_cast hup) hpow.le
    have e1 : ⌊roundQ (v + 1 / 2)⌋ = Pn := by
      rw [Int.floor_eq_iff]; constructor <;> linarith
    have e2 : ⌊v + 1 / 2⌋ = Pn := by
      rw [Int.floor_eq_iff]; constructor <;> linarith
    rw [e1, e2]

theorem roundQ_add_half_low {v : ℚ} (hv : IsDouble v) (h0 : 0 ≤ v) (h1 : v + 1 / 2 < 1)
    (hne : v ≠ predHalf) : ⌊roundQ (v + 1 / 2)⌋ = ⌊v + 1 / 2⌋ := by
  have hy : 0 < v + 1 / 2 := by linarith
  have hc : cexp (v + 1 / 2) = -53 :=
    cexp_eq (by norm_num) (by rw [abs_of_pos hy]; norm_num; linarith)
      (by rw [abs_of_pos hy]; norm_num; linarith)
  have hbound : v + 1 / 2 ≤ 1 - 1 / 9007199254740992 := by
    by_cases hq : v < 1 / 4
    · linarith
    · obtain ⟨k, hk⟩ := hv.multiple (j := -2) (by norm_num; linarith)
      norm_num at hk
      have hk1 : (k : ℚ) < 9007199254740992 := by linarith
      have hk2 : k < 9007199254740992 := by exact_mod_cast hk1
      have hk3 : k ≠ 9007199254740991 := by
        intro h
        apply hne
        rw [hk, h]
        norm_num [predHalf]
      have hk4 : k ≤ 9007199254740990 := by omega
      have hk5 : (k : ℚ) ≤ 9007199254740990 := by exact_mod_cast hk4
      linarith
  have hr : roundQ (v + 1 / 2) = (rne ((v + 1 / 2) / (2 : ℚ) ^ (-53 : ℤ)) : ℚ) * (2 : ℚ) ^ (-53 : ℤ) :=
    roundQ_eq_of hc rfl
  have hlow : (0 : Int) ≤ rne ((v + 1 / 2) / (2 : ℚ) ^ (-53 : ℤ)) := by
    apply rne_ge_of_ge
    norm_num
    linarith
  have hup : rne ((v + 1 / 2) / (2 : ℚ) ^ (-53 : ℤ)) ≤ 9007199254740991 := by
    apply rne_le_of_le
    norm_num
    linarith
  generalize rne ((v + 1 / 2) / (2 : ℚ) ^ (-53 : ℤ)) = r at hr hlow hup
  have hlow2 : (0 : ℚ) ≤ (r : ℚ) := by exact_mod_cast hlow
  have hup2 : (r : ℚ) ≤ 9007199254740991 := by exact_mod_cast hup
  have e1 : ⌊roundQ (v + 1 / 2)⌋ = 0 := by
    rw [Int.floor_eq_iff, hr]
    norm_num
    constructor <;> linarith
  have e2 : ⌊v + 1 / 2⌋ = 0 := by
    rw [Int.floor_eq_iff]; norm_num; constructor <;> linarith
  rw [e1, e2]

theorem floor_roundQ_add_half {v : ℚ} (hv : IsDouble v) (h0 : 0 ≤ v) (h255 : v ≤ 255)
    (hne : v ≠ predHalf) : ⌊roundQ (v + 1 / 2)⌋ = ⌊v + 1 / 2⌋ := by
  by_cases c0 : v + 1 / 2 < 1
  · exact roundQ_add_half_low hv h0 c0 hne
  by_cases c1 : v + 1 / 2 < 2
  · exact roundQ_add_half_binade hv (-52) 1 (by norm_num) (by norm_num) (by norm_num)
      (by push_cast; linarith) (by push_cast; linarith)
  by_cases c2 : v + 1 / 2 < 4
  · exact roundQ_add_half_binade hv (-51) 2 (by norm_num) (by norm_num) (by norm_num)
      (by push_cast; linarith) (by push_cast; linarith)
  by_cases c3 : v + 1 / 2 < 8
  · exact roundQ_add_half_binade hv (-50) 4 (by norm_num) (by norm_num) (by norm_num)
      (by push_cast; linarith) (by push_cast; linarith)
  by_cases c4 : v + 1 / 2 < 16
  · exact roundQ_add_half_binade hv (-49) 8 (by norm_num) (by norm_num) (by norm_num)
      (by push_cast; linarith) (by push_cast; linarith)
  by_cases c5 : v + 1 / 2 < 32
  · exact roundQ_add_half_binade hv (-48) 16 (by norm_num) (by norm_num) (by norm_num)
      (by push_cast; linarith) (by push_cast; linarith)
  by_cases c6 : v + 1 / 2 < 64
  · exact roundQ_add_half_binade hv (-47) 32 (by norm_num) (by norm_num) (by norm_num)
      (by push_cast; linarith) (by push_cast; linarith)
  by_cases c7 : v + 1 / 2 < 128
  · exact roundQ_add_half_binade hv (-46) 64 (by norm_num) (by norm_num) (by norm_num)
      (by push_cast; linarith) (by push_cast; linarith)
  · exact roundQ_add_half_binade hv (-45) 128 (by norm_num) (by norm_num) (by norm_num)
      (by push_cast; linarith) (by push_cast; linarith)

theorem clamp_u8_fin_of_floor {v : ℚ} (h0 : 0 ≤ v) (h255 : v ≤ 255)
    (hfl : ⌊roundQ (v + 1 / 2)⌋ = ⌊v + 1 / 2⌋) :
    clamp_u8 (Double.fin v) = saturate (roundHalfAway v) := by
  have hn0 : 0 ≤ ⌊v + 1 / 2⌋ := Int.floor_nonneg.mpr (by linarith)
  have hn1 : ⌊v + 1 / 2⌋ < 256 := Int.floor_lt.mpr (by push_cast; linarith)
  have hr0 : 0 ≤ roundQ (v + 1 / 2) := by
    have := Int.floor_le (roundQ (v + 1 / 2))
    rw [hfl] at this
    have h' : (0 : ℚ) ≤ (⌊v + 1 / 2⌋ : ℚ) := by exact_mod_cast hn0
    linarith
  have hr1 : roundQ (v + 1 / 2) < 256 := by
    have := Int.lt_floor_add_one (roundQ (v + 1 / 2))
    rw [hfl] at this
    have h' : (⌊v + 1 / 2⌋ : ℚ) + 1 ≤ 256 := by exact_mod_cast hn1
    linarith
  have hbig : (256 : ℚ) < (2 : ℚ) ^ (1024 : ℕ) := by norm_num
  have htd : toDouble (v + 1 / 2) = Double.fin (roundQ (v + 1 / 2)) :=
    toDouble_of_lt (by linarith) (by linarith)
  unfold clamp_u8
  simp only [Double.lt, Double.fin_add_fin, htd, toU8, truncate, hr0, if_true, hfl, roundHalfAway, h0,
    saturate, decide_eq_true_eq, not_lt.mpr h0, not_lt.mpr h255, if_false]
  omega

theorem clamp_u8_neg {v : ℚ} (h : v < 0) : clamp_u8 (Double.fin v) = 0 := by
  simp [clamp_u8, Double.lt, h]

theorem clamp_u8_big {v : ℚ} (h : 255 < v) : clamp_u8 (Double.fin v) = 255 := by
  have h2 : ¬ v < 0 := by linarith
  simp [clamp_u8, Double.lt, h, h2]

theorem saturate_round_neg {v : ℚ} (h : v < 0) : saturate (roundHalfAway v) = 0 := by
  unfold saturate roundHalfAway
  have h1 : ¬ (0 ≤ v) := not_le.mpr h
  have h2 : 0 ≤ ⌊-v + 1 / 2⌋ := Int.floor_nonneg.mpr (by linarith)
  simp only [h1, if_false]
  omega

theorem saturate_round_big {v : ℚ} (h : 255 < v) : saturate (roundHalfAway v) = 255 := by
  unfold saturate roundHalfAway
  have h1 : 0 ≤ v := by linarith
  have h2 : (255 : Int) ≤ ⌊v + 1 / 2⌋ := Int.le_floor.mpr (by push_cast; linarith)
  simp only [h1, if_true]
  omega

theorem clamp_u8_double {v : ℚ} (hv : IsDouble v) (hne : v ≠ predHalf) :
    clamp_u8 (Double.fin v) = saturate (roundHalfAway v) := by
  by_cases h0 : v < 0
  · rw [clamp_u8_neg h0, saturate_round_neg h0]
  by_cases h1 : 255 < v
  · rw [clamp_u8_big h1, saturate_round_big h1]
  · exact clamp_u8_fin_of_floor (not_lt.mp h0) (not_lt.mp h1)
      (floor_roundQ_add_half hv (not_lt.mp h0) (not_lt.mp h1) hne)

theorem isDouble_predHalf : IsDouble predHalf :=
  ⟨9007199254740991, -54, by norm_num, by norm_num, by norm_num, by norm_num [predHalf]⟩

theorem clamp_u8_predHalf : clamp_u8 (Double.fin predHalf) = 1 := by
  have h : toDouble (predHalf + 1 / 2) = Double.fin 1 := by
    rw [toDouble_cert_tie_pos _ (-53) 9007199254740992 (by norm_num) (by norm_num)
      (by norm_num [predHalf]) (by norm_num [predHalf]) (by norm_num [predHalf]) (by norm_num)
      (by norm_num)]
    norm_num
  simp only [clamp_u8, Double.lt, Double.fin_add_fin, h, toU8, truncate]
  norm_num [predHalf]

theorem Double.ofNat_eq {n : Nat} (hn : n < 256) : Double.ofNat n = Double.fin (n : ℚ) :=
  toDouble_natCast n (by omega)

theorem toDouble_one : toDouble 1 = Double.fin 1 := by
  simpa using toDouble_natCast 1 (by norm_num)

/-! ## The constants of the kernel table -/

theorem toDouble_neg_one : toDouble (-1) = Double.fin (-1) := by
  simpa using toDouble_intCast (-1) (by norm_num)

theorem toDouble_two : toDouble 2 = Double.fin 2 := by
  simpa using toDouble_intCast 2 (by norm_num)

theorem toDouble_neg_two : toDouble (-2) = Double.fin (-2) := by
  simpa using toDouble_intCast (-2) (by norm_num)

theorem toDouble_four : toDouble 4 = Double.fin 4 := by
  simpa using toDouble_intCast 4 (by norm_num)

theorem toDouble_five : toDouble 5 = Double.fin 5 := by
  simpa using toDouble_intCast 5 (by norm_num)

theorem toDouble_quarter : toDouble (1 / 4) = Double.fin (1 / 4) := by
  have h := toDouble_dyadic 1 (-2) (by norm_num) (by norm_num) (by norm_num)
  norm_num at h
  simpa using h

theorem toDouble_eighth : toDouble (1 / 8) = Double.fin (1 / 8) := by
  have h := toDouble_dyadic 1 (-3) (by norm_num) (by norm_num) (by norm_num)
  norm_num at h
  simpa using h

theorem toDouble_sixteenth : toDouble (1 / 16) = Double.fin (1 / 16) := by
  have h := toDouble_dyadic 1 (-4) (by norm_num) (by norm_num) (by norm_num)
  norm_num at h
  simpa using h

/-- The constant `1/9.0` is the double `2001599834386887 / 2^54`. -/
theorem toDouble_ninth :
    toDouble (1 / 9) = Double.fin (2001599834386887 / 18014398509481984) := by
  rw [toDouble_cert_pos (1 / 9) (-56) 8006399337547548 (by norm_num) (by norm_num)
    (by norm_num) (by norm_num) (by norm_num) (by norm_num)]
  norm_num

theorem toDouble_inv_four : toDouble 4⁻¹ = Double.fin 4⁻¹ := by
  simpa using toDouble_quarter

theorem toDouble_inv_eight : toDouble 8⁻¹ = Double.fin 8⁻¹ := by
  simpa using toDouble_eighth

theorem toDouble_inv_sixteen : toDouble 16⁻¹ = Double.fin 16⁻¹ := by
  simpa using toDouble_sixteenth

theorem toDouble_inv_nine :
    toDouble 9⁻¹ = Double.fin (2001599834386887 / 18014398509481984) := by
  rw [← one_div]; exact toDouble_ninth

theorem algorithms_catalog (t : KernelTypes) :
    algorithms[t.toNat]? = some (Matrix.ofConst (catalog t)) := by
  cases t <;> rfl

theorem not_isDouble_ninth : ¬ IsDouble (1 / 9) := by
  rintro ⟨m, e, _, _, _, h⟩
  rcases le_or_lt 0 e with he | he
  · obtain ⟨k, rfl⟩ : ∃ k : ℕ, e = k := ⟨e.toNat, by omega⟩
    rw [zpow_natCast] at h
    have h2 : ((1 : Int) : ℚ) = ((9 * m * 2 ^ k : Int) : ℚ) := by push_cast; linarith
    have h3 : (1 : Int) = 9 * m * 2 ^ k := by exact_mod_cast h2
    have h4 : (9 : Int) ∣ 1 := ⟨m * 2 ^ k, by rw [h3]; ring⟩
    omega
  · obtain ⟨k, hk⟩ : ∃ k : ℕ, e = -(k : Int) := ⟨(-e).toNat, by omega⟩
    rw [hk, zpow_neg, zpow_natCast] at h
    have hpos : (0 : ℚ) < (2 : ℚ) ^ k := by positivity
    have h2 : (((2 : Int) ^ k : Int) : ℚ) = ((9 * m : Int) : ℚ) := by
      push_cast
      field_simp at h
      linarith
    have h3 : (2 : Int) ^ k = 9 * m := by exact_mod_cast h2
    have h4 : (3 : Int) ∣ 2 ^ k := ⟨3 * m, by rw [h3]; ring⟩
    have h5 : (3 : Int) ∣ 2 := Int.prime_three.dvd_of_dvd_pow h4
    omega

theorem isDouble_ninthDouble : IsDouble ninthDouble :=
  ⟨2001599834386887, -54, by norm_num, by norm_num, by norm_num, by norm_num [ninthDouble]⟩

theorem blurKernel_apply (r k : Fin 3) : blurKernel r k = Double.fin ninthDouble := by
  fin_cases r <;> fin_cases k <;>
    simp [blurKernel, Matrix.ofConst, toDouble_inv_nine, ninthDouble, Matrix.vecHead,
      Matrix.vecTail]

/-! ## The error of one rounding -/

theorem rne_abs_sub_le (x : ℚ) : |(rne x : ℚ) - x| ≤ 1 / 2 := by
  unfold rne
  have h1 := Int.floor_le x
  have h2 := Int.lt_floor_add_one x
  rw [abs_le]
  split_ifs <;> push_cast <;> constructor <;> linarith

theorem roundQ_abs_sub_le {x : ℚ} {e : Int} (he : -1074 ≤ e) (hx : |x| < (2 : ℚ) ^ (e + 53)) :
    |roundQ x - x| ≤ (2 : ℚ) ^ e / 2 := by
  by_cases h0 : x = 0
  · subst h0
    rw [roundQ_zero]
    simp only [sub_zero, abs_zero]
    exact (div_pos (two_zpow_pos e) (by norm_num)).le
  · have hc := cexp_le h0 he hx
    have hpow := two_zpow_pos (cexp x)
    have h1 := rne_abs_sub_le (x / (2 : ℚ) ^ cexp x)
    have e1 : roundQ x - x
        = ((rne (x / (2 : ℚ) ^ cexp x) : ℚ) - x / (2 : ℚ) ^ cexp x) * (2 : ℚ) ^ cexp x := by
      unfold roundQ
      rw [sub_mul, div_mul_cancel₀ _ hpow.ne']
    have hle : (2 : ℚ) ^ cexp x ≤ (2 : ℚ) ^ e := zpow_le_zpow_right₀ (by norm_num) hc
    rw [e1, abs_mul, abs_of_pos hpow]
    calc |(rne (x / (2 : ℚ) ^ cexp x) : ℚ) - x / (2 : ℚ) ^ cexp x| * (2 : ℚ) ^ cexp x
        ≤ 1 / 2 * (2 : ℚ) ^ cexp x := mul_le_mul_of_nonneg_right h1 hpow.le
      _ ≤ 1 / 2 * (2 : ℚ) ^ e := mul_le_mul_of_nonneg_left hle (by norm_num)
      _ = (2 : ℚ) ^ e / 2 := by ring

theorem Near.mono {d : Double} {t ε ε2 : ℚ} (h : Near d t ε) (hε : ε ≤ ε2) : Near d t ε2 := by
  obtain ⟨r, hr, hb⟩ := h
  exact ⟨r, hr, hb.trans hε⟩

theorem Near.shift {d : Double} {t t2 ε δ : ℚ} (h : Near d t ε) (ht : |t - t2| ≤ δ) :
    Near d t2 (ε + δ) := by
  obtain ⟨r, hr, hb⟩ := h
  refine ⟨r, hr, ?_⟩
  have e : r - t2 = (r - t) + (t - t2) := by ring
  rw [e]
  exact (abs_add _ _).trans (add_le_add hb ht)

/-- A result of magnitude below `2^j` is rounded with an error of at most `2^(j-54)`:
half a unit in the last place of the binade below `2^j`. -/
theorem toDouble_near (j : Nat) (hj : j ≤ 1000) {x : ℚ} (hx : |x| < (2 : ℚ) ^ j) :
    Near (toDouble x) x ((2 : ℚ) ^ j / 2 ^ 54) := by
  have hP : (0 : ℚ) < (2 : ℚ) ^ j := by positivity
  have hx2 : |x| < (2 : ℚ) ^ ((j : Int) - 53 + 53) := by
    rw [show (j : Int) - 53 + 53 = (j : Int) by ring, zpow_natCast]
    exact hx
  have h := roundQ_abs_sub_le (x := x) (e := (j : Int) - 53) (by omega) hx2
  have h2 : (2 : ℚ) ^ ((j : Int) - 53) / 2 = (2 : ℚ) ^ j / 2 ^ 54 := by
    rw [zpow_sub₀ (by norm_num : (2 : ℚ) ≠ 0), zpow_natCast]
    norm_num
    ring
  rw [h2] at h
  have hb := abs_le.mp h
  have hx3 := abs_lt.mp hx
  have hbig : (2 : ℚ) ^ j * 2 ≤ (2 : ℚ) ^ (1024 : ℕ) := by
    have h1 : (2 : ℚ) ^ j ≤ (2 : ℚ) ^ (1000 : ℕ) := pow_le_pow_right₀ (by norm_num) hj
    have h3 : (2 : ℚ) ^ (1000 : ℕ) * 2 ≤ (2 : ℚ) ^ (1024 : ℕ) := by norm_num
    linarith
  have hs : (2 : ℚ) ^ j / 2 ^ 54 < (2 : ℚ) ^ j := by
    rw [div_lt_iff₀ (by positivity)]
    have : (1 : ℚ) < 2 ^ 54 := by norm_num
    nlinarith
  refine ⟨roundQ x, toDouble_of_lt ?_ ?_, h⟩
  · linarith [hb.1, hx3.1]
  · linarith [hb.2, hx3.2]

/-! ## The accumulation of bounded products -/

theorem zipWith_mul_fin (vs : List ℚ) (ss : List Nat) (hs : ∀ s ∈ ss, s < 256) :
    List.zipWith (fun (w : Double) (s : Nat) => w * Double.ofNat s) (vs.map Double.fin) ss
      = (List.zipWith (fun (v : ℚ) (s : Nat) => v * (s : ℚ)) vs ss).map toDouble := by
  induction vs generalizing ss with
  | nil => simp
  | cons v vs ih =>
    cases ss with
    | nil => simp
    | cons s ss =>
      simp only [List.map_cons, List.zipWith_cons_cons]
      rw [ih ss (fun t ht => hs t (List.mem_cons_of_mem _ ht)),
        Double.ofNat_eq (hs s (List.mem_cons_self _ _)), Double.fin_mul_fin]

theorem zipWith_mul_bound (W : ℚ) (vs : List ℚ) (ss : List Nat) (hv : ∀ v ∈ vs, |v| ≤ W)
    (hs : ∀ s ∈ ss, s < 256) :
    ∀ u ∈ List.zipWith (fun (v : ℚ) (s : Nat) => v * (s : ℚ)) vs ss, |u| ≤ W * 255 := by
  induction vs generalizing ss with
  | nil => simp
  | cons v vs ih =>
    cases ss with
    | nil => simp
    | cons s ss =>
      intro u hu
      simp only [List.zipWith_cons_cons, List.mem_cons] at hu
      rcases hu with rfl | hu
      · have h1 := hv v (List.mem_cons_self _ _)
        have h2 : (s : ℚ) ≤ 255 := by
          have := hs s (List.mem_cons_self _ _)
          exact_mod_cast (by omega : s ≤ 255)
        have h3 : (0 : ℚ) ≤ (s : ℚ) := Nat.cast_nonneg s
        have h4 : 0 ≤ W := le_trans (abs_nonneg v) h1
        rw [abs_mul, abs_of_nonneg h3]
        exact mul_le_mul h1 h2 h3 h4
      · exact ih ss (fun w hw => hv w (List.mem_cons_of_mem _ hw))
          (fun t ht => hs t (List.mem_cons_of_mem _ ht)) u hu

theorem foldl_near (j : Nat) (hj : j ≤ 1000) : ∀ (ts : List ℚ) (d : Double) (t ε : ℚ) (n : Nat),
    Near d t ε → |t| ≤ (n : ℚ) * ((2 : ℚ) ^ j * 255 / 4096) → ε ≤ (n : ℚ) * ((2 : ℚ) ^ j / 2 ^ 53) →
    (∀ u ∈ ts, |u| ≤ (2 : ℚ) ^ j * 255 / 4096) → n + ts.length ≤ 15 →
    Near ((ts.map toDouble).foldl (fun s p => s + p) d) (t + ts.sum)
      (((n + ts.length : Nat) : ℚ) * ((2 : ℚ) ^ j / 2 ^ 53)) := by
  intro ts
  induction ts with
  | nil =>
    intro d t ε n h _ hε _ _
    simpa using h.mono hε
  | cons u us ih =>
    intro d t ε n h ht hε hu hn
    obtain ⟨r, hr, hb⟩ := h
    have hP : (0 : ℚ) < (2 : ℚ) ^ j := by positivity
    have hu1 := hu u (List.mem_cons_self _ _)
    have hulit : |u| < (2 : ℚ) ^ j := lt_of_le_of_lt hu1 (by linarith)
    obtain ⟨ru, hru, hbu⟩ := toDouble_near j hj hulit
    have hnq : (n : ℚ) ≤ 14 := by
      have : n ≤ 14 := by simp only [List.length_cons] at hn; omega
      exact_mod_cast this
    have hn0 : (0 : ℚ) ≤ (n : ℚ) := Nat.cast_nonneg n
    have hB : (n : ℚ) * ((2 : ℚ) ^ j * 255 / 4096) ≤ 14 * ((2 : ℚ) ^ j * 255 / 4096) :=
      mul_le_mul_of_nonneg_right hnq (by positivity)
    have hE : (n : ℚ) * ((2 : ℚ) ^ j / 2 ^ 53) ≤ 14 * ((2 : ℚ) ^ j / 2 ^ 53) :=
      mul_le_mul_of_nonneg_right hnq (by positivity)
    have hb2 := abs_le.mp hb
    have hbu2 := abs_le.mp hbu
    have ht2 := abs_le.mp ht
    have hu2 := abs_le.mp hu1
    have h53 : (2 : ℚ) ^ j / 2 ^ 53 = (2 : ℚ) ^ j * (1 / 2 ^ 53) := by ring
    have h54 : (2 : ℚ) ^ j / 2 ^ 54 = (2 : ℚ) ^ j * (1 / 2 ^ 54) := by ring
    have c53 : (1 : ℚ) / 2 ^ 53 ≤ 1 / 8192 := by norm_num
    have c54 : (1 : ℚ) / 2 ^ 54 ≤ 1 / 8192 := by norm_num
    have hs53 : (2 : ℚ) ^ j / 2 ^ 53 ≤ (2 : ℚ) ^ j * (1 / 8192) := by
      rw [h53]; exact mul_le_mul_of_nonneg_left c53 hP.le
    have hs54 : (2 : ℚ) ^ j / 2 ^ 54 ≤ (2 : ℚ) ^ j * (1 / 8192) := by
      rw [h54]; exact mul_le_mul_of_nonneg_left c54 hP.le
    have hsum : |r + ru| < (2 : ℚ) ^ j := by
      rw [abs_lt]
      constructor <;> linarith [hb2.1, hb2.2, hbu2.1, hbu2.2, ht2.1, ht2.2, hu2.1, hu2.2]
    obtain ⟨r2, hr2, hb3⟩ := toDouble_near j hj hsum
    have hstep : Near (d + toDouble u) (t + u) (ε + (2 : ℚ) ^ j / 2 ^ 53) := by
      refine ⟨r2, by rw [hr, hru, Double.fin_add_fin, hr2], ?_⟩
      have e : r2 - (t + u) = (r2 - (r + ru)) + (r - t) + (ru - u) := by ring
      rw [e]
      have h38 : (2 : ℚ) ^ j / 2 ^ 53 = (2 : ℚ) ^ j / 2 ^ 54 + (2 : ℚ) ^ j / 2 ^ 54 := by ring
      calc |r2 - (r + ru) + (r - t) + (ru - u)|
          ≤ |r2 - (r + ru) + (r - t)| + |ru - u| := abs_add _ _
        _ ≤ |r2 - (r + ru)| + |r - t| + |ru - u| := by
            have := abs_add (r2 - (r + ru)) (r - t)
            linarith
        _ ≤ (2 : ℚ) ^ j / 2 ^ 54 + ε + (2 : ℚ) ^ j / 2 ^ 54 := by linarith
        _ = ε + (2 : ℚ) ^ j / 2 ^ 53 := by rw [h38]; ring
    have hih := ih (d + toDouble u) (t + u) (ε + (2 : ℚ) ^ j / 2 ^ 53) (n + 1) hstep
      (by
        push_cast
        have := abs_add t u
        linarith)
      (by
        push_cast
        linarith)
      (fun w hw => hu w (List.mem_cons_of_mem _ hw))
      (by simp only [List.length_cons] at hn; omega)
    simp only [List.map_cons, List.foldl_cons, List.sum_cons, List.length_cons]
    have e3 : t + (u + us.sum) = t + u + us.sum := by ring
    have e4 : n + (us.length + 1) = n + 1 + us.length := by ring
    rw [e3, e4]
    exact hih

/-- The double accumulation of at most 15 products of a sample and a weight of
magnitude at most `2^j / 4096` is within `15 * 2^(j-53)` of the exact sum. -/
theorem accSum_near (j : Nat) (hj : j ≤ 1000) (vs : List ℚ) (ss : List Nat)
    (hv : ∀ v ∈ vs, |v| ≤ (2 : ℚ) ^ j / 4096) (hs : ∀ s ∈ ss, s < 256) (hl : vs.length ≤ 15) :
    Near (accSum (List.zipWith (fun (w : Double) (s : Nat) => w * Double.ofNat s)
        (vs.map Double.fin) ss))
      (exactSum vs ss) (15 * ((2 : ℚ) ^ j / 2 ^ 53)) := by
  rw [zipWith_mul_fin vs ss hs]
  have hP : (0 : ℚ) < (2 : ℚ) ^ j := by positivity
  have hb : ∀ u ∈ List.zipWith (fun (v : ℚ) (s : Nat) => v * (s : ℚ)) vs ss,
      |u| ≤ (2 : ℚ) ^ j * 255 / 4096 := by
    intro u hu
    have := zipWith_mul_bound _ vs ss hv hs u hu
    have e : (2 : ℚ) ^ j / 4096 * 255 = (2 : ℚ) ^ j * 255 / 4096 := by ring
    rw [e] at this
    exact this
  have hlen : (List.zipWith (fun (v : ℚ) (s : Nat) => v * (s : ℚ)) vs ss).length ≤ 15 := by
    rw [List.length_zipWith]
    omega
  unfold exactSum
  generalize List.zipWith (fun (v : ℚ) (s : Nat) => v * (s : ℚ)) vs ss = ts at hb hlen
  cases ts with
  | nil =>
    refine ⟨0, rfl, ?_⟩
    simp only [List.sum_nil, sub_zero, abs_zero]
    positivity
  | cons u us =>
    have hu1 := hb u (List.mem_cons_self _ _)
    have h1 := toDouble_near j hj (x := u) (lt_of_le_of_lt hu1 (by linarith))
    have h2 := foldl_near j hj us (toDouble u) u ((2 : ℚ) ^ j / 2 ^ 54) 1 h1
      (by simpa using hu1)
      (by
        push_cast
        rw [one_mul]
        exact div_le_div_of_nonneg_left hP.le (by positivity) (by norm_num))
      (fun w hw => hb w (List.mem_cons_of_mem _ hw))
      (by simp only [List.length_cons] at hlen; omega)
    simp only [List.map_cons, accSum, List.sum_cons]
    refine h2.mono ?_
    have hq : (((1 + us.length : Nat) : ℚ)) ≤ 15 := by
      have : 1 + us.length ≤ 15 := by simp only [List.length_cons] at hlen; omega
      exact_mod_cast this
    exact mul_le_mul_of_nonneg_right hq (by positivity)

/-! ## `clamp_u8` of an approximated value -/

theorem saturate_round_of_bounds {t : ℚ} {n : Nat} (hn : n ≤ 255)
    (h1 : (n : ℚ) - 1 / 2 ≤ t) (h2 : t < (n : ℚ) + 1 / 2) (h0 : 0 ≤ t) :
    saturate (roundHalfAway t) = n := by
  have e : roundHalfAway t = (n : Int) := by
    unfold roundHalfAway
    rw [if_pos h0, Int.floor_eq_iff]
    push_cast
    constructor <;> linarith
  rw [e]
  unfold saturate
  omega

/-- When the accumulated double is within `ε` of `t`, and `t` is more than `ε + 2^-38` away
from the ties `n - 1/2` and `n + 1/2`, `clamp_u8` returns `n`. -/
theorem clamp_u8_of_near {d : Double} {t ε μ : ℚ} {n : Nat} (h : Near d t ε)
    (hε : ε + 1 / 2 ^ 38 < μ) (hn : n ≤ 255) (h1 : (n : ℚ) - 1 / 2 + μ ≤ t ∨ n = 0)
    (h2 : t ≤ (n : ℚ) + 1 / 2 - μ ∨ n = 255) : clamp_u8 d = n := by
  obtain ⟨r, rfl, hb⟩ := h
  have hb2 := abs_le.mp hb
  have h38 : (0 : ℚ) < 1 / 2 ^ 38 := by norm_num
  have h38b : (1 : ℚ) / 2 ^ 38 < 1 / 4 := by norm_num
  by_cases hneg : r < 0
  · rw [clamp_u8_neg hneg]
    rcases h1 with h1 | h1
    · have : (n : ℚ) < 1 := by linarith [hb2.1, hb2.2]
      have : n < 1 := by exact_mod_cast this
      omega
    · exact h1.symm
  by_cases hbig : 255 < r
  · rw [clamp_u8_big hbig]
    rcases h2 with h2 | h2
    · have : (254 : ℚ) < (n : ℚ) := by linarith [hb2.1, hb2.2]
      have : 254 < n := by exact_mod_cast this
      omega
    · exact h2.symm
  have hr0 : 0 ≤ r := not_lt.mp hneg
  have hr1 : r ≤ 255 := not_lt.mp hbig
  have hy : |r + 1 / 2| < (2 : ℚ) ^ 16 := by
    rw [abs_lt]; constructor <;> norm_num <;> linarith
  obtain ⟨r2, hr2, hb3⟩ := toDouble_near 16 (by norm_num) hy
  have e38 : (2 : ℚ) ^ 16 / 2 ^ 54 = 1 / 2 ^ 38 := by norm_num
  rw [e38] at hb3
  have hb4 := abs_le.mp hb3
  have hnq : (n : ℚ) ≤ 255 := by exact_mod_cast hn
  have hn0 : (0 : ℚ) ≤ (n : ℚ) := Nat.cast_nonneg n
  have hlow : (n : ℚ) ≤ r2 := by
    rcases h1 with h1 | h1
    · linarith [hb2.1, hb2.2, hb4.1, hb4.2]
    · subst h1
      simp only [Nat.cast_zero] at *
      linarith [hb4.1]
  have hup : r2 < (n : ℚ) + 1 := by
    rcases h2 with h2 | h2
    · linarith [hb2.1, hb2.2, hb4.1, hb4.2]
    · subst h2
      push_cast
      linarith [hb4.2]
  have hfl : ⌊r2⌋ = (n : Int) := by
    rw [Int.floor_eq_iff]
    push_cast
    exact ⟨hlow, hup⟩
  have hr2pos : 0 ≤ r2 := le_trans hn0 hlow
  simp only [clamp_u8, Double.lt, Double.fin_add_fin, hr2, toU8, truncate, hr2pos, if_true, hfl,
    decide_eq_true_eq, not_lt.mpr hr0, not_lt.mpr hr1, if_false]
  omega

/-- The same for the value of the spec: when `t` is at least `μ` away from every tie,
`clamp_u8` of a double within `ε` of `t` is `t` rounded and saturated. -/
theorem clamp_u8_near_spec {d : Double} {t ε μ : ℚ} (h : Near d t ε)
    (hε : ε + 1 / 2 ^ 38 < μ) (hμ : μ ≤ 1 / 2)
    (htie : ∀ k : Int, 0 ≤ k → k ≤ 254 → μ ≤ |t - ((k : ℚ) + 1 / 2)|) :
    clamp_u8 d = saturate (roundHalfAway t) := by
  by_cases ht0 : t < 0
  · have e : saturate (roundHalfAway t) = 0 := saturate_round_neg ht0
    rw [e]
    refine clamp_u8_of_near h hε (by norm_num) (Or.inr rfl) (Or.inl ?_)
    push_cast
    linarith
  by_cases ht1 : 255 ≤ t
  · have e : saturate (roundHalfAway t) = 255 := by
      unfold saturate roundHalfAway
      have h2 : (255 : Int) ≤ ⌊t + 1 / 2⌋ := Int.le_floor.mpr (by push_cast; linarith)
      rw [if_pos (by linarith)]
      omega
    rw [e]
    refine clamp_u8_of_near (n := 255) h hε (by norm_num) (Or.inl ?_) (Or.inr rfl)
    push_cast
    linarith
  have ht0 : 0 ≤ t := not_lt.mp ht0
  have ht1 : t < 255 := not_le.mp ht1
  have hfl0 : 0 ≤ ⌊t + 1 / 2⌋ := Int.floor_nonneg.mpr (by linarith)
  have hfl1 : ⌊t + 1 / 2⌋ ≤ 255 := by
    have : ⌊t + 1 / 2⌋ < 256 := Int.floor_lt.mpr (by push_cast; linarith)
    omega
  obtain ⟨n, hn⟩ : ∃ n : Nat, ⌊t + 1 / 2⌋ = (n : Int) := ⟨⌊t + 1 / 2⌋.toNat, by omega⟩
  have hn255 : n ≤ 255 := by omega
  have hf1 := Int.floor_le (t + 1 / 2)
  have hf2 := Int.lt_floor_add_one (t + 1 / 2)
  rw [hn] at hf1 hf2
  push_cast at hf1 hf2
  have e : saturate (roundHalfAway t) = n :=
    saturate_round_of_bounds hn255 (by linarith) (by linarith) ht0
  rw [e]
  refine clamp_u8_of_near h hε hn255 ?_ ?_
  · by_cases hz : n = 0
    · exact Or.inr hz
    · left
      have hk := htie ((n : Int) - 1) (by omega) (by omega)
      push_cast at hk
      have e2 : t - ((n : ℚ) - 1 + 1 / 2) = t - ((n : ℚ) - 1 / 2) := by ring
      rw [e2, abs_of_nonneg (by linarith)] at hk
      linarith
  · by_cases hz : n = 255
    · exact Or.inr hz
    · left
      have hk := htie (n : Int) (by omega) (by omega)
      push_cast at hk
      rw [abs_of_nonpos (by linarith)] at hk
      linarith

/-! ## Weights that are multiples of 1/16: the accumulation is exact -/

theorem fin_mul_exact (m : Int) (s : Nat) (hm : |m| ≤ 2 ^ 20) (hs : s < 256) :
    Double.fin ((m : ℚ) / 16) * Double.ofNat s
      = Double.fin (((m * (s : Int) : Int) : ℚ) / 16) ∧ |m * (s : Int)| ≤ 2 ^ 28 := by
  have hb : |m * (s : Int)| ≤ 2 ^ 28 := by
    rw [abs_mul, abs_of_nonneg (Int.natCast_nonneg s)]
    have h1 : (s : Int) ≤ 256 := by omega
    calc |m| * (s : Int) ≤ 2 ^ 20 * 256 :=
          mul_le_mul hm h1 (Int.natCast_nonneg s) (by norm_num)
      _ = 2 ^ 28 := by norm_num
  refine ⟨?_, hb⟩
  rw [Double.ofNat_eq hs, Double.fin_mul_fin]
  have h := toDouble_dyadic (m * (s : Int)) (-4) (lt_of_le_of_lt hb (by norm_num)) (by norm_num)
    (by norm_num)
  have e : (m : ℚ) / 16 * (s : ℚ) = ((m * (s : Int) : Int) : ℚ) * (2 : ℚ) ^ (-4 : ℤ) := by
    push_cast
    norm_num
    ring
  have e2 : ((m * (s : Int) : Int) : ℚ) / 16 = ((m * (s : Int) : Int) : ℚ) * (2 : ℚ) ^ (-4 : ℤ) := by
    norm_num
    ring
  rw [e, h, e2]

theorem fin_add_exact (A B : Int) (h : |A + B| < 2 ^ 53) :
    Double.fin ((A : ℚ) / 16) + Double.fin ((B : ℚ) / 16)
      = Double.fin (((A + B : Int) : ℚ) / 16) := by
  rw [Double.fin_add_fin]
  have h2 := toDouble_dyadic (A + B) (-4) h (by norm_num) (by norm_num)
  have e : (A : ℚ) / 16 + (B : ℚ) / 16 = ((A + B : Int) : ℚ) * (2 : ℚ) ^ (-4 : ℤ) := by
    push_cast
    norm_num
    ring
  have e2 : ((A + B : Int) : ℚ) / 16 = ((A + B : Int) : ℚ) * (2 : ℚ) ^ (-4 : ℤ) := by
    norm_num
    ring
  rw [e, h2, e2]

theorem foldl_exact : ∀ (Ms : List Int) (A : Int) (n : Nat), |A| ≤ (n : Int) * 2 ^ 28 →
    (∀ M ∈ Ms, |M| ≤ 2 ^ 28) → n + Ms.length ≤ 1024 →
    (Ms.map fun (M : Int) => Double.fin ((M : ℚ) / 16)).foldl (fun s p => s + p)
        (Double.fin ((A : ℚ) / 16))
      = Double.fin (((A + Ms.sum : Int) : ℚ) / 16) ∧
    |A + Ms.sum| ≤ ((n + Ms.length : Nat) : Int) * 2 ^ 28 := by
  intro Ms
  induction Ms with
  | nil =>
    intro A n hA _ _
    simpa using hA
  | cons M Ms ih =>
    intro A n hA hM hn
    have hM1 := hM M (List.mem_cons_self _ _)
    simp only [List.length_cons] at hn
    have hAM : |A + M| ≤ ((n + 1 : Nat) : Int) * 2 ^ 28 := by
      have := abs_add A M
      push_cast
      linarith
    have hlt : |A + M| < 2 ^ 53 := by
      have h1 : ((n + 1 : Nat) : Int) ≤ 1024 := by omega
      have h2 : ((n + 1 : Nat) : Int) * 2 ^ 28 ≤ 1024 * 2 ^ 28 :=
        mul_le_mul_of_nonneg_right h1 (by norm_num)
      have h3 : (1024 : Int) * 2 ^ 28 < 2 ^ 53 := by norm_num
      linarith
    obtain ⟨h1, h2⟩ := ih (A + M) (n + 1) hAM (fun K hK => hM K (List.mem_cons_of_mem _ hK))
      (by omega)
    simp only [List.map_cons, List.foldl_cons, List.sum_cons, List.length_cons]
    rw [fin_add_exact A M hlt, h1]
    have e3 : A + (M + Ms.sum) = A + M + Ms.sum := by ring
    have e4 : n + (Ms.length + 1) = n + 1 + Ms.length := by ring
    rw [e3, e4]
    exact ⟨rfl, h2⟩

theorem zipWith_mul_exact (ms : List Int) (ss : List Nat) (hm : ∀ m ∈ ms, |m| ≤ 2 ^ 20)
    (hs : ∀ s ∈ ss, s < 256) :
    List.zipWith (fun (w : Double) (s : Nat) => w * Double.ofNat s)
        (ms.map fun (m : Int) => Double.fin ((m : ℚ) / 16)) ss
      = (List.zipWith (fun (m : Int) (s : Nat) => m * (s : Int)) ms ss).map
          (fun (M : Int) => Double.fin ((M : ℚ) / 16)) ∧
    (∀ M ∈ List.zipWith (fun (m : Int) (s : Nat) => m * (s : Int)) ms ss, |M| ≤ 2 ^ 28) ∧
    exactSum (ms.map fun (m : Int) => (m : ℚ) / 16) ss
      = (((List.zipWith (fun (m : Int) (s : Nat) => m * (s : Int)) ms ss).sum : Int) : ℚ) / 16 := by
  induction ms generalizing ss with
  | nil => simp [exactSum]
  | cons m ms ih =>
    cases ss with
    | nil => simp [exactSum]
    | cons s ss =>
      obtain ⟨h1, h2, h3⟩ := ih ss (fun k hk => hm k (List.mem_cons_of_mem _ hk))
        (fun t ht => hs t (List.mem_cons_of_mem _ ht))
      obtain ⟨p1, p2⟩ := fin_mul_exact m s (hm m (List.mem_cons_self _ _))
        (hs s (List.mem_cons_self _ _))
      refine ⟨?_, ?_, ?_⟩
      · simp only [List.map_cons, List.zipWith_cons_cons]
        rw [h1, p1]
      · intro M hM
        simp only [List.zipWith_cons_cons, List.mem_cons] at hM
        rcases hM with rfl | hM
        · exact p2
        · exact h2 M hM
      · unfold exactSum at h3 ⊢
        simp only [List.map_cons, List.zipWith_cons_cons, List.sum_cons]
        rw [h3]
        push_cast
        ring

/-- With weights `m / 16`, `|m| <= 2^20`, every product and every partial sum is a double:
the accumulated double is the exact sum. -/
theorem accSum_exact (ms : List Int) (ss : List Nat) (hm : ∀ m ∈ ms, |m| ≤ 2 ^ 20)
    (hs : ∀ s ∈ ss, s < 256) (hl : ms.length ≤ 1024) :
    ∃ K : Int, |K| < 2 ^ 53 ∧
      accSum (List.zipWith (fun (w : Double) (s : Nat) => w * Double.ofNat s)
        (ms.map fun (m : Int) => Double.fin ((m : ℚ) / 16)) ss) = Double.fin ((K : ℚ) / 16) ∧
      (K : ℚ) / 16 = exactSum (ms.map fun (m : Int) => (m : ℚ) / 16) ss := by
  obtain ⟨h1, h2, h3⟩ := zipWith_mul_exact ms ss hm hs
  have hlen : (List.zipWith (fun (m : Int) (s : Nat) => m * (s : Int)) ms ss).length ≤ 1024 := by
    rw [List.length_zipWith]
    omega
  rw [h1, h3]
  generalize List.zipWith (fun (m : Int) (s : Nat) => m * (s : Int)) ms ss = Ms at h2 hlen
  cases Ms with
  | nil => exact ⟨0, by norm_num, by simp [accSum], by simp⟩
  | cons M Ms =>
    simp only [List.length_cons] at hlen
    obtain ⟨e1, e2⟩ := foldl_exact Ms M 1 (by simpa using h2 M (List.mem_cons_self _ _))
      (fun K hK => h2 K (List.mem_cons_of_mem _ hK)) (by omega)
    refine ⟨M + Ms.sum, ?_, ?_, by simp⟩
    · have h4 : ((1 + Ms.length : Nat) : Int) ≤ 1024 := by omega
      have h5 : ((1 + Ms.length : Nat) : Int) * 2 ^ 28 ≤ 1024 * 2 ^ 28 :=
        mul_le_mul_of_nonneg_right h4 (by norm_num)
      have h6 : (1024 : Int) * 2 ^ 28 < 2 ^ 53 := by norm_num
      linarith
    · simp only [List.map_cons, accSum]
      exact e1

theorem clamp_u8_sixteenth (K : Int) (hK : |K| < 2 ^ 53) :
    clamp_u8 (Double.fin ((K : ℚ) / 16)) = saturate (roundHalfAway ((K : ℚ) / 16)) := by
  apply clamp_u8_double
  · exact ⟨K, -4, hK, by norm_num, by norm_num, by norm_num; ring⟩
  · intro h
    unfold predHalf at h
    have h2 : ((K * 18014398509481984 : Int) : ℚ) = ((16 * 9007199254740991 : Int) : ℚ) := by
      push_cast
      field_simp at h
      linarith
    have h3 : K * 18014398509481984 = 16 * 9007199254740991 := by exact_mod_cast h2
    omega

/-! ## Indices, loads and the loops -/

theorem index_bounds {x y c w h b : Int} (hx0 : 0 ≤ x) (hx : x < w) (hy0 : 0 ≤ y) (hy : y < h)
    (hc0 : 0 ≤ c) (hc : c < b) : 0 ≤ Index x y w c b ∧ Index x y w c b < w * h * b := by
  unfold Index
  have hw : 0 < w := by omega
  have hb : 0 < b := by omega
  have h1 : 0 ≤ y * w := mul_nonneg hy0 hw.le
  have h2 : 0 ≤ (y * w + x) * b := mul_nonneg (by omega) hb.le
  have h3 : (y + 1) * w ≤ h * w := mul_le_mul_of_nonneg_right (by omega) hw.le
  have h4 : (y * w + x + 1) * b ≤ (h * w) * b :=
    mul_le_mul_of_nonneg_right (by nlinarith) hb.le
  constructor
  · omega
  · nlinarith

theorem index_inj {x y c x2 y2 c2 w b : Int} (hx0 : 0 ≤ x) (hx : x < w) (hc0 : 0 ≤ c) (hc : c < b)
    (hx20 : 0 ≤ x2) (hx2 : x2 < w) (hc20 : 0 ≤ c2) (hc2 : c2 < b)
    (h : Index x y w c b = Index x2 y2 w c2 b) : x = x2 ∧ y = y2 ∧ c = c2 := by
  unfold Index at h
  have hb : 0 < b := by omega
  have hw : 0 < w := by omega
  have e1 : ((y * w + x) * b + c) / b = y * w + x := by
    rw [add_comm, Int.add_mul_ediv_right _ _ hb.ne', Int.ediv_eq_zero_of_lt hc0 hc]; simp
  have e2 : ((y2 * w + x2) * b + c2) / b = y2 * w + x2 := by
    rw [add_comm, Int.add_mul_ediv_right _ _ hb.ne', Int.ediv_eq_zero_of_lt hc20 hc2]; simp
  have ha : y * w + x = y2 * w + x2 := by rw [← e1, ← e2, h]
  have e3 : (y * w + x) / w = y := by
    rw [add_comm, Int.add_mul_ediv_right _ _ hw.ne', Int.ediv_eq_zero_of_lt hx0 hx]; simp
  have e4 : (y2 * w + x2) / w = y2 := by
    rw [add_comm, Int.add_mul_ediv_right _ _ hw.ne', Int.ediv_eq_zero_of_lt hx20 hx2]; simp
  have hy : y = y2 := by rw [← e3, ← e4, ha]
  subst hy
  have hxx : x = x2 := by omega
  subst hxx
  exact ⟨rfl, rfl, by omega⟩

theorem index_decomp {k w h b : Int} (hw : 0 < w) (hb : 0 < b) (hk0 : 0 ≤ k)
    (hk : k < w * h * b) :
    ∃ x y c, 0 ≤ x ∧ x < w ∧ 0 ≤ y ∧ y < h ∧ 0 ≤ c ∧ c < b ∧ k = Index x y w c b := by
  refine ⟨(k / b) % w, (k / b) / w, k % b, Int.emod_nonneg _ hw.ne', Int.emod_lt_of_pos _ hw,
    Int.ediv_nonneg (Int.ediv_nonneg hk0 hb.le) hw.le, ?_, Int.emod_nonneg _ hb.ne',
    Int.emod_lt_of_pos _ hb, ?_⟩
  · have h1 : k / b < h * w := Int.ediv_lt_of_lt_mul hb (by nlinarith)
    exact Int.ediv_lt_of_lt_mul hw h1
  · unfold Index
    rw [mul_comm (k / b / w) w, Int.ediv_add_emod, mul_comm (k / b) b, Int.ediv_add_emod]

theorem load_valid {img : Image} {x y c : Int}
    (hlen : (img.data.length : Int) = img.width * img.height * img.bpp) (hv : img.Valid x y c) :
    load img.data (Index x y img.width c img.bpp) =
      some (img.data.getD (Index x y img.width c img.bpp).toNat 0) := by
  obtain ⟨hx0, hx, hy0, hy, hc0, hc⟩ := hv
  obtain ⟨h0, h1⟩ := index_bounds (h := img.height) hx0 hx hy0 hy hc0 hc
  have h2 : (Index x y img.width c img.bpp).toNat < img.data.length := by omega
  unfold load
  rw [if_pos h0, List.getD_eq_getElem?_getD, List.getElem?_eq_getElem h2]
  rfl

theorem clampCoord_minus {x w : Int} (hx0 : 0 ≤ x) (hx : x < w) :
    clampCoord (x + ((0 : Nat) : Int) - 1) 0 (w - 1) = if x - 1 < 0 then 0 else x - 1 := by
  unfold clampCoord; split <;> omega

theorem clampCoord_mid {x w : Int} (hx0 : 0 ≤ x) (hx : x < w) :
    clampCoord (x + ((1 : Nat) : Int) - 1) 0 (w - 1) = x := by
  unfold clampCoord; omega

theorem clampCoord_plus {x w : Int} (hx0 : 0 ≤ x) (hx : x < w) :
    clampCoord (x + ((2 : Nat) : Int) - 1) 0 (w - 1) = if x + 1 ≥ w then w - 1 else x + 1 := by
  unfold clampCoord; split <;> omega

theorem getPixelValue_eq_pixelValue {img : Image} {x y c : Int} (kernel : Matrix)
    (hlen : (img.data.length : Int) = img.width * img.height * img.bpp)
    (hv : img.Valid x y c) :
    getPixelValue img x y c kernel = some (pixelValue img x y c kernel) := by
  obtain ⟨hx0, hx, hy0, hy, hc0, hc⟩ := hv
  have hmx : 0 ≤ (if x - 1 < 0 then 0 else x - 1) ∧ (if x - 1 < 0 then 0 else x - 1) < img.width := by
    split <;> omega
  have hpx : 0 ≤ (if x + 1 ≥ img.width then img.width - 1 else x + 1) ∧
      (if x + 1 ≥ img.width then img.width - 1 else x + 1) < img.width := by
    split <;> omega
  have hmy : 0 ≤ (if y - 1 < 0 then 0 else y - 1) ∧ (if y - 1 < 0 then 0 else y - 1) < img.height := by
    split <;> omega
  have hpy : 0 ≤ (if y + 1 ≥ img.height then img.height - 1 else y + 1) ∧
      (if y + 1 ≥ img.height then img.height - 1 else y + 1) < img.height := by
    split <;> omega
  unfold getPixelValue clampedNeighbours
  simp only []
  rw [load_valid hlen ⟨hmx.1, hmx.2, hmy.1, hmy.2, hc0, hc⟩,
    load_valid hlen ⟨hx0, hx, hmy.1, hmy.2, hc0, hc⟩,
    load_valid hlen ⟨hpx.1, hpx.2, hmy.1, hmy.2, hc0, hc⟩,
    load_valid hlen ⟨hmx.1, hmx.2, hy0, hy, hc0, hc⟩,
    load_valid hlen ⟨hx0, hx, hy0, hy, hc0, hc⟩,
    load_valid hlen ⟨hpx.1, hpx.2, hy0, hy, hc0, hc⟩,
    load_valid hlen ⟨hmx.1, hmx.2, hpy.1, hpy.2, hc0, hc⟩,
    load_valid hlen ⟨hx0, hx, hpy.1, hpy.2, hc0, hc⟩,
    load_valid hlen ⟨hpx.1, hpx.2, hpy.1, hpy.2, hc0, hc⟩]
  simp only [Option.some_bind, pixelValue, accDouble, accSum, Matrix.cells, neighbourhood,
    rowMajor, List.map, List.zipWith, List.foldl, sampleNat, Fin.val_zero, Fin.val_one, Fin.val_two,
    clampCoord_minus hx0 hx, clampCoord_mid hx0 hx, clampCoord_plus hx0 hx,
    clampCoord_minus hy0 hy, clampCoord_mid hy0 hy, clampCoord_plus hy0 hy]

theorem forLoop_inv {σ : Type} (Inv : Int → σ → Prop) (body : Int → σ → Option σ) :
    ∀ (n : Nat) (lo : Int) (s : σ), Inv lo s →
      (∀ i t, lo ≤ i → i < lo + n → Inv i t → ∃ t2, body i t = some t2 ∧ Inv (i + 1) t2) →
      ∃ s2, forLoop body n lo s = some s2 ∧ Inv (lo + n) s2 := by
  intro n
  induction n with
  | zero => intro lo s h0 _; exact ⟨s, rfl, by simpa using h0⟩
  | succ n ih =>
    intro lo s h0 hstep
    obtain ⟨t, ht, hInv⟩ := hstep lo s le_rfl (by push_cast; omega) h0
    obtain ⟨s2, hs2, hfin⟩ := ih (lo + 1) t hInv (fun i u h1 h2 hu =>
      hstep i u (by omega) (by push_cast; omega) hu)
    refine ⟨s2, ?_, ?_⟩
    · simp only [forLoop, ht, Option.some_bind, hs2]
    · have e : lo + ((n + 1 : Nat) : Int) = lo + 1 + (n : Int) := by push_cast; ring
      rw [e]; exact hfin

theorem forRange_inv {σ : Type} (Inv : Int → σ → Prop) (body : Int → σ → Option σ)
    (lo hi : Int) (hle : lo ≤ hi) (s : σ) (h0 : Inv lo s)
    (hstep : ∀ i t, lo ≤ i → i < hi → Inv i t → ∃ t2, body i t = some t2 ∧ Inv (i + 1) t2) :
    ∃ s2, forRange lo hi body s = some s2 ∧ Inv hi s2 := by
  have e : lo + (((hi - lo).toNat : Nat) : Int) = hi := by omega
  obtain ⟨s2, h1, h2⟩ := forLoop_inv Inv body (hi - lo).toNat lo s h0
    (fun i t h1 h2 ht => hstep i t h1 (by omega) ht)
  exact ⟨s2, h1, e ▸ h2⟩

theorem load_set {data : List Nat} {i j : Int} (v : Nat) (hi0 : 0 ≤ i) (hj0 : 0 ≤ j)
    (hi : i.toNat < data.length) :
    load (data.set i.toNat v) j = if i = j then some v else load data j := by
  unfold load
  rw [if_pos hj0, if_pos hj0, List.getElem?_set]
  by_cases h : i = j
  · subst h; simp [hi]
  · have h2 : i.toNat ≠ j.toNat := by omega
    simp [h, h2]

theorem SameShape.refl (m : Bufs) : SameShape m m := ⟨rfl, rfl, rfl, rfl, rfl⟩

theorem Upd.congr {kernel : Matrix} {P Q : Int → Int → Int → Prop} {m0 m : Bufs}
    (h : Upd kernel P m0 m) (hPQ : ∀ x y c, m0.srcImage.Valid x y c → (P x y c ↔ Q x y c)) :
    Upd kernel Q m0 m := by
  refine ⟨h.1, fun x y c hv => ⟨fun hq => (h.2 x y c hv).1 ((hPQ x y c hv).mpr hq), fun hq =>
    (h.2 x y c hv).2 (fun hp => hq ((hPQ x y c hv).mp hp))⟩⟩

theorem Upd.init (kernel : Matrix) (m : Bufs) : Upd kernel (fun _ _ _ => False) m m :=
  ⟨SameShape.refl m, fun _ _ _ _ => ⟨fun h => h.elim, fun _ => rfl⟩⟩

theorem writePixel_upd {kernel : Matrix} {P : Int → Int → Int → Prop} {m0 m : Bufs}
    (hr : Ready m0) (h : Upd kernel P m0 m) {x y c : Int} (hv : m0.srcImage.Valid x y c) :
    ∃ m2, writePixel kernel y x c m = some m2 ∧
      Upd kernel (fun x2 y2 c2 => P x2 y2 c2 ∨ (x2 = x ∧ y2 = y ∧ c2 = c)) m0 m2 := by
  obtain ⟨⟨hsrc, hw, hh, hb, hlen⟩, hupd⟩ := h
  obtain ⟨_, _, hslen, hdlen⟩ := hr
  have hv2 := hv
  obtain ⟨hx0, hx, hy0, hy, hc0, hc⟩ := hv2
  obtain ⟨hi0, hi1⟩ := index_bounds (h := m0.srcImage.height) hx0 hx hy0 hy hc0 hc
  have hin : (Index x y m0.srcImage.width c m0.srcImage.bpp).toNat < m.destImage.data.length := by
    rw [hlen]; omega
  refine ⟨{ m with destImage := { m.destImage with
      data := m.destImage.data.set (Index x y m0.srcImage.width c m0.srcImage.bpp).toNat
        (pixelValue m0.srcImage x y c kernel) } }, ?_, ⟨hsrc, hw, hh, hb, ?_⟩, ?_⟩
  · unfold writePixel
    rw [hsrc, getPixelValue_eq_pixelValue kernel hslen hv]
    simp only [Option.some_bind, store, hi0, hin, and_self, if_true]
  · simp [hlen]
  · intro x2 y2 c2 hv2
    obtain ⟨hx20, hx2, hy20, hy2, hc20, hc2⟩ := hv2
    obtain ⟨hj0, _⟩ := index_bounds (h := m0.srcImage.height) hx20 hx2 hy20 hy2 hc20 hc2
    simp only []
    rw [load_set _ hi0 hj0 hin]
    by_cases he : Index x y m0.srcImage.width c m0.srcImage.bpp =
        Index x2 y2 m0.srcImage.width c2 m0.srcImage.bpp
    · obtain ⟨e1, e2, e3⟩ := index_inj hx0 hx hc0 hc hx20 hx2 hc20 hc2 he
      subst e1 e2 e3
      simp
    · have hne : ¬ (x2 = x ∧ y2 = y ∧ c2 = c) := by
        rintro ⟨e1, e2, e3⟩; subst e1 e2 e3; exact he rfl
      rw [if_neg he]
      constructor
      · rintro (hp | hq)
        · exact (hupd x2 y2 c2 ⟨hx20, hx2, hy20, hy2, hc20, hc2⟩).1 hp
        · exact (hne hq).elim
      · intro hn
        exact (hupd x2 y2 c2 ⟨hx20, hx2, hy20, hy2, hc20, hc2⟩).2 (fun hp => hn (Or.inl hp))

theorem bitLoop_upd {kernel : Matrix} {P : Int → Int → Int → Prop} {m0 m : Bufs}
    (hr : Ready m0) (h : Upd kernel P m0 m) {x y : Int} (hx0 : 0 ≤ x)
    (hx : x < m0.srcImage.width) (hy0 : 0 ≤ y) (hy : y < m0.srcImage.height) :
    ∃ m2, forRange 0 m.srcImage.bpp (fun bit t => writePixel kernel y x bit t) m = some m2 ∧
      Upd kernel (fun x2 y2 c2 => P x2 y2 c2 ∨ (x2 = x ∧ y2 = y)) m0 m2 := by
  have hsrc : m.srcImage = m0.srcImage := h.1.1
  rw [hsrc]
  obtain ⟨m2, h1, h2⟩ := forRange_inv
    (fun b t => Upd kernel (fun x2 y2 c2 => P x2 y2 c2 ∨ (x2 = x ∧ y2 = y ∧ c2 < b)) m0 t)
    (fun bit t => writePixel kernel y x bit t) 0 m0.srcImage.bpp hr.2.1 m
    (h.congr (fun x2 y2 c2 hv => by
      constructor
      · exact Or.inl
      · rintro (hp | ⟨_, _, hc⟩)
        · exact hp
        · have := hv.2.2.2.2.1; omega))
    (fun b t hb0 hb ht => by
      obtain ⟨t2, e, hu⟩ := writePixel_upd hr ht (x := x) (y := y) (c := b)
        ⟨hx0, hx, hy0, hy, hb0, hb⟩
      refine ⟨t2, e, hu.congr (fun x2 y2 c2 _ => ?_)⟩
      constructor
      · rintro ((hp | ⟨e1, e2, e3⟩) | ⟨e1, e2, e3⟩)
        · exact Or.inl hp
        · exact Or.inr ⟨e1, e2, by omega⟩
        · exact Or.inr ⟨e1, e2, by omega⟩
      · rintro (hp | ⟨e1, e2, e3⟩)
        · exact Or.inl (Or.inl hp)
        · by_cases hc : c2 = b
          · exact Or.inr ⟨e1, e2, hc⟩
          · exact Or.inl (Or.inr ⟨e1, e2, by omega⟩))
  refine ⟨m2, h1, h2.congr (fun x2 y2 c2 hv => ?_)⟩
  constructor
  · rintro (hp | ⟨e1, e2, _⟩)
    · exact Or.inl hp
    · exact Or.inr ⟨e1, e2⟩
  · rintro (hp | ⟨e1, e2⟩)
    · exact Or.inl hp
    · exact Or.inr ⟨e1, e2, hv.2.2.2.2.2⟩

theorem convolveRow_upd {kernel : Matrix} {P : Int → Int → Int → Prop} {m0 m : Bufs}
    (hr : Ready m0) (h : Upd kernel P m0 m) {y : Int} (hy0 : 0 ≤ y)
    (hy : y < m0.srcImage.height) :
    ∃ m2, convolveRow kernel y m = some m2 ∧
      Upd kernel (fun x2 y2 c2 => P x2 y2 c2 ∨ y2 = y) m0 m2 := by
  have hsrc : m.srcImage = m0.srcImage := h.1.1
  unfold convolveRow
  rw [hsrc]
  obtain ⟨m2, h1, h2⟩ := forRange_inv
    (fun x t => Upd kernel (fun x2 y2 c2 => P x2 y2 c2 ∨ (y2 = y ∧ x2 < x)) m0 t)
    (fun x t => forRange 0 t.srcImage.bpp (fun bit u => writePixel kernel y x bit u) t)
    0 m0.srcImage.width hr.1 m
    (h.congr (fun x2 y2 c2 hv => by
      constructor
      · exact Or.inl
      · rintro (hp | ⟨_, hc⟩)
        · exact hp
        · have := hv.1; omega))
    (fun x t hx0 hx ht => by
      obtain ⟨t2, e, hu⟩ := bitLoop_upd hr ht hx0 hx hy0 hy
      refine ⟨t2, e, hu.congr (fun x2 y2 c2 _ => ?_)⟩
      constructor
      · rintro ((hp | ⟨e1, e2⟩) | ⟨e1, e2⟩)
        · exact Or.inl hp
        · exact Or.inr ⟨e1, by omega⟩
        · exact Or.inr ⟨e2, by omega⟩
      · rintro (hp | ⟨e1, e2⟩)
        · exact Or.inl (Or.inl hp)
        · by_cases hc : x2 = x
          · exact Or.inr ⟨hc, e1⟩
          · exact Or.inl (Or.inr ⟨e1, by omega⟩))
  refine ⟨m2, h1, h2.congr (fun x2 y2 c2 hv => ?_)⟩
  constructor
  · rintro (hp | ⟨e1, _⟩)
    · exact Or.inl hp
    · exact Or.inr e1
  · rintro (hp | e1)
    · exact Or.inl hp
    · exact Or.inr ⟨e1, hv.2.1⟩

theorem rowLoop_upd {kernel : Matrix} {P : Int → Int → Int → Prop} {m0 m : Bufs}
    (hr : Ready m0) (h : Upd kernel P m0 m) {lo hi : Int} (hlo : 0 ≤ lo) (hle : lo ≤ hi)
    (hhi : hi ≤ m0.srcImage.height) :
    ∃ m2, forRange lo hi (fun row t => convolveRow kernel row t) m = some m2 ∧
      Upd kernel (fun x2 y2 c2 => P x2 y2 c2 ∨ (lo ≤ y2 ∧ y2 < hi)) m0 m2 := by
  exact forRange_inv
    (fun r t => Upd kernel (fun x2 y2 c2 => P x2 y2 c2 ∨ (lo ≤ y2 ∧ y2 < r)) m0 t)
    (fun row t => convolveRow kernel row t) lo hi hle m
    (h.congr (fun x2 y2 c2 _ => by
      constructor
      · exact Or.inl
      · rintro (hp | ⟨_, _⟩)
        · exact hp
        · omega))
    (fun r t hr0 hr1 ht => by
      obtain ⟨t2, e, hu⟩ := convolveRow_upd hr ht (y := r) (by omega) (by omega)
      refine ⟨t2, e, hu.congr (fun x2 y2 c2 _ => ?_)⟩
      constructor
      · rintro ((hp | ⟨e1, e2⟩) | e1)
        · exact Or.inl hp
        · exact Or.inr ⟨e1, by omega⟩
        · exact Or.inr ⟨by omega, by omega⟩
      · rintro (hp | ⟨e1, e2⟩)
        · exact Or.inl (Or.inl hp)
        · by_cases hc : y2 = r
          · exact Or.inr hc
          · exact Or.inl (Or.inr ⟨e1, by omega⟩))

theorem worker_upd {P : Int → Int → Int → Prop} {m0 m : Bufs} (job : ThreadJob)
    (hr : Ready m0) (h : Upd job.kernel P m0 m) (hlo : 0 ≤ job.row_start)
    (hle : job.row_start ≤ job.row_end) (hhi : job.row_end ≤ m0.srcImage.height) :
    ∃ m2, worker job m = some m2 ∧
      Upd job.kernel (fun x2 y2 c2 => P x2 y2 c2 ∨ (job.row_start ≤ y2 ∧ y2 < job.row_end))
        m0 m2 :=
  rowLoop_upd hr h hlo hle hhi

theorem runJobs_upd (kernel : Matrix) {m0 : Bufs} (hr : Ready m0) :
    ∀ (js : List ThreadJob) (P : Int → Int → Int → Prop) (m : Bufs), Upd kernel P m0 m →
      (∀ j ∈ js, j.kernel = kernel ∧ 0 ≤ j.row_start ∧ j.row_start ≤ j.row_end ∧
        j.row_end ≤ m0.srcImage.height) →
      ∃ m2, runJobs js m = some m2 ∧
        Upd kernel (fun x2 y2 c2 => P x2 y2 c2 ∨ ∃ j ∈ js, j.row_start ≤ y2 ∧ y2 < j.row_end)
          m0 m2 := by
  intro js
  induction js with
  | nil =>
    intro P m h _
    exact ⟨m, rfl, h.congr (fun _ _ _ _ => by simp)⟩
  | cons j js ih =>
    intro P m h hjs
    obtain ⟨hk, h0, h1, h2⟩ := hjs j (List.mem_cons_self _ _)
    subst hk
    obtain ⟨t, ht, hu⟩ := worker_upd j hr h h0 h1 h2
    obtain ⟨m2, hm2, hu2⟩ := ih _ t hu (fun i hi => hjs i (List.mem_cons_of_mem _ hi))
    refine ⟨m2, by simp only [runJobs, ht, Option.some_bind, hm2], hu2.congr (fun x2 y2 c2 _ => ?_)⟩
    simp only [List.mem_cons, exists_eq_or_imp, or_assoc]

theorem rowStart_succ (base rem : Int) (n : Nat) :
    rowStart base rem (n + 1) = rowStart base rem n + (base + (if (n : Int) < rem then 1 else 0)) := by
  unfold rowStart
  have e : ((n + 1 : Nat) : Int) * base = (n : Int) * base + base := by push_cast; ring
  rw [e]
  split <;> omega

theorem rowStart_zero (base rem : Int) (hrem : 0 ≤ rem) : rowStart base rem 0 = 0 := by
  unfold rowStart; simp [hrem]

theorem rowStart_last {rows T : Int} (hT : 0 < T) :
    rowStart (rows / T) (rows % T) T.toNat = rows := by
  unfold rowStart
  have h1 : rows % T < T := Int.emod_lt_of_pos _ hT
  have h2 : ((T.toNat : Nat) : Int) = T := Int.toNat_of_nonneg hT.le
  rw [h2, min_eq_right h1.le, Int.ediv_add_emod]

theorem rowStart_le_succ {base rem : Int} (hb : 0 ≤ base) (n : Nat) :
    rowStart base rem n ≤ rowStart base rem (n + 1) := by
  rw [rowStart_succ]; split <;> omega

theorem rowStart_mono (base rem : Int) (hb : 0 ≤ base) {i j : Nat} (hij : i ≤ j) :
    rowStart base rem i ≤ rowStart base rem j :=
  monotone_nat_of_le_succ (rowStart_le_succ hb) hij

theorem rowStart_find (base rem y : Int) :
    ∀ n : Nat, rowStart base rem 0 ≤ y → y < rowStart base rem n →
      ∃ i, i < n ∧ rowStart base rem i ≤ y ∧ y < rowStart base rem (i + 1) := by
  intro n
  induction n with
  | zero => intro h0 h1; omega
  | succ n ih =>
    intro h0 h1
    by_cases h : y < rowStart base rem n
    · obtain ⟨i, hi, h2, h3⟩ := ih h0 h
      exact ⟨i, by omega, h2, h3⟩
    · exact ⟨n, by omega, by omega, h1⟩

theorem mainJobs_eq (kernel : Matrix) {rows T : Int} (hT : 0 < T) (hrows : 0 ≤ rows) :
    mainJobs kernel rows T =
      some ((List.range T.toNat).map (jobAt kernel (rows / T) (rows % T))) := by
  unfold mainJobs
  rw [if_neg hT.ne', Int.tdiv_eq_ediv hrows hT.le, Int.tmod_eq_emod hrows hT.le]
  obtain ⟨st, h1, _, h2, h3⟩ := forRange_inv
    (fun i (st : PartState) => 0 ≤ i ∧ st.cur = rowStart (rows / T) (rows % T) i.toNat ∧
      st.jobs = (List.range i.toNat).map (jobAt kernel (rows / T) (rows % T)))
    (partitionStep kernel (rows / T) (rows % T)) 0 T hT.le { cur := 0, jobs := [] }
    ⟨le_rfl, by simp [rowStart_zero _ _ (Int.emod_nonneg rows hT.ne')], by simp⟩
    (fun i st hi0 _ hinv => by
      obtain ⟨_, hc, hj⟩ := hinv
      have e1 : (i + 1).toNat = i.toNat + 1 := by omega
      have e2 : ((i.toNat : Nat) : Int) = i := Int.toNat_of_nonneg hi0
      refine ⟨_, rfl, by omega, ?_, ?_⟩
      · simp only [e1, rowStart_succ, e2, hc]
      · simp only [e1, List.range_succ, List.map_append, List.map_cons, List.map_nil, hj, hc,
          jobAt, rowStart_succ, e2])
  simp only [h1, Option.map_some', h3]

theorem WF.ready {src : Image} (hwf : src.WF) {d0 : List Nat}
    (hd : (d0.length : Int) = src.width * src.height * src.bpp) : Ready (mainState src d0) := by
  obtain ⟨h1, _, h3, h4, _⟩ := hwf
  exact ⟨by simp only [mainState]; omega, by simp only [mainState]; omega, h4, hd⟩

theorem load_natCast (data : List Nat) (n : Nat) : load data (n : Int) = data[n]? := by
  simp [load]

theorem Upd.full_data {kernel : Matrix} {P : Int → Int → Int → Prop} {m0 m : Bufs}
    (hr : Ready m0) (h : Upd kernel P m0 m) (hP : ∀ x y c, m0.srcImage.Valid x y c → P x y c)
    (f : List Nat) (hlen : f.length = m0.destImage.data.length)
    (hf : ∀ x y c, m0.srcImage.Valid x y c →
      load f (Index x y m0.srcImage.width c m0.srcImage.bpp) =
        some (pixelValue m0.srcImage x y c kernel)) :
    m.destImage.data = f := by
  obtain ⟨hw0, hb0, _, hdlen⟩ := hr
  apply List.ext_getElem?
  intro n
  by_cases hn : n < f.length
  · have hk : (n : Int) < m0.srcImage.width * m0.srcImage.height * m0.srcImage.bpp := by omega
    have hpos : 0 < m0.srcImage.width ∧ 0 < m0.srcImage.bpp := by
      constructor
      · rcases hw0.eq_or_lt with e | e
        · rw [← e] at hk; simp at hk; omega
        · exact e
      · rcases hb0.eq_or_lt with e | e
        · rw [← e] at hk; simp at hk; omega
        · exact e
    obtain ⟨x, y, c, hx0, hx, hy0, hy, hc0, hc, e⟩ :=
      index_decomp hpos.1 hpos.2 (Int.natCast_nonneg n) hk
    have hv : m0.srcImage.Valid x y c := ⟨hx0, hx, hy0, hy, hc0, hc⟩
    rw [← load_natCast, ← load_natCast, e, (h.2 x y c hv).1 (hP x y c hv), hf x y c hv]
  · have h1 : f.length ≤ n := by omega
    have h2 : m.destImage.data.length ≤ n := by rw [h.1.2.2.2.2, ← hlen]; exact h1
    rw [List.getElem?_eq_none h1, List.getElem?_eq_none h2]

theorem bufs_eq {m m2 : Bufs} (h1 : m.srcImage = m2.srcImage)
    (h2 : m.destImage.width = m2.destImage.width) (h3 : m.destImage.height = m2.destImage.height)
    (h4 : m.destImage.bpp = m2.destImage.bpp) (h5 : m.destImage.data = m2.destImage.data) :
    m = m2 := by
  obtain ⟨s, ⟨d, w, h, b⟩⟩ := m
  obtain ⟨s2, ⟨d2, w2, h2, b2⟩⟩ := m2
  simp only at h1 h2 h3 h4 h5
  subst h1 h2 h3 h4 h5
  rfl

theorem mainJobs_ranges {kernel : Matrix} {rows T : Int} (hT : 0 < T) (hrows : T ≤ rows)
    {j : ThreadJob} (hj : j ∈ (List.range T.toNat).map (jobAt kernel (rows / T) (rows % T))) :
    j.kernel = kernel ∧ 0 ≤ j.row_start ∧ j.row_start < j.row_end ∧ j.row_end ≤ rows := by
  obtain ⟨n, hn, rfl⟩ := List.mem_map.mp hj
  have hn2 : n < T.toNat := List.mem_range.mp hn
  have hb : 1 ≤ rows / T := (Int.le_ediv_iff_mul_le hT).mpr (by omega)
  have hrem : 0 ≤ rows % T := Int.emod_nonneg _ hT.ne'
  have h0 := rowStart_mono (rows / T) (rows % T) (by omega : 0 ≤ rows / T) (Nat.zero_le n)
  have h1 := rowStart_mono (rows / T) (rows % T) (by omega : 0 ≤ rows / T) (by omega : n + 1 ≤ T.toNat)
  rw [rowStart_zero _ _ hrem] at h0
  rw [rowStart_last hT] at h1
  refine ⟨rfl, h0, ?_, h1⟩
  simp only [jobAt, rowStart_succ]
  split <;> omega

theorem mainJobs_cover (kernel : Matrix) {rows T : Int} (hT : 0 < T)
    {y : Int} (hy0 : 0 ≤ y) (hy : y < rows) :
    ∃ j ∈ (List.range T.toNat).map (jobAt kernel (rows / T) (rows % T)),
      j.row_start ≤ y ∧ y < j.row_end := by
  have hrem : 0 ≤ rows % T := Int.emod_nonneg _ hT.ne'
  obtain ⟨i, hi, h1, h2⟩ := rowStart_find (rows / T) (rows % T) y T.toNat
    (by rw [rowStart_zero _ _ hrem]; exact hy0) (by rw [rowStart_last hT]; exact hy)
  exact ⟨_, List.mem_map.mpr ⟨i, List.mem_range.mpr hi, rfl⟩, h1, h2⟩

/-- The engine: whatever the order in which the workers of the partition run, the
destination ends up holding the convolved value at every coordinate. -/
theorem engine_spec {src : Image} (hwf : src.WF) {d0 : List Nat}
    (hd : (d0.length : Int) = src.width * src.height * src.bpp) (kernel : Matrix) {T : Int}
    (hT1 : 1 ≤ T) (hT2 : T ≤ src.height) :
    ∃ jobs, mainJobs kernel src.height T = some jobs ∧
      ∀ order : List ThreadJob, order.Perm jobs →
        ∃ m2, runJobs order (mainState src d0) = some m2 ∧
          Upd kernel (fun _ _ _ => True) (mainState src d0) m2 := by
  refine ⟨_, mainJobs_eq kernel (by omega) (by omega), fun order hperm => ?_⟩
  obtain ⟨m2, h1, h2⟩ := runJobs_upd kernel (WF.ready hwf hd) order _ _
    (Upd.init kernel (mainState src d0)) (fun j hj => by
      obtain ⟨a, b, c, d⟩ := mainJobs_ranges (by omega) hT2 (hperm.mem_iff.mp hj)
      exact ⟨a, b, c.le, d⟩)
  refine ⟨m2, h1, h2.congr (fun x y c hv => ?_)⟩
  obtain ⟨j, hj, h3⟩ := mainJobs_cover kernel (T := T)
    (by omega) hv.2.2.1 hv.2.2.2.1
  exact ⟨fun _ => trivial, fun _ => Or.inr ⟨j, hperm.mem_iff.mpr hj, h3⟩⟩

theorem mainJobs_one (kernel : Matrix) {rows : Int} (hrows : 0 ≤ rows) :
    mainJobs kernel rows 1 = some [{ kernel := kernel, row_start := 0, row_end := rows }] := by
  rw [mainJobs_eq kernel (by decide) hrows]
  simp [List.range_succ, jobAt, rowStart]

theorem Upd.unique {kernel : Matrix} {P Q : Int → Int → Int → Prop} {m0 m m2 : Bufs}
    (hr : Ready m0) (h : Upd kernel P m0 m) (h2 : Upd kernel Q m0 m2)
    (hP : ∀ x y c, m0.srcImage.Valid x y c → P x y c)
    (hQ : ∀ x y c, m0.srcImage.Valid x y c → Q x y c) : m = m2 := by
  apply bufs_eq
  · rw [h.1.1, h2.1.1]
  · rw [h.1.2.1, h2.1.2.1]
  · rw [h.1.2.2.1, h2.1.2.2.1]
  · rw [h.1.2.2.2.1, h2.1.2.2.2.1]
  · exact h.full_data hr hP _ h2.1.2.2.2.2 (fun x y c hv => (h2.2 x y c hv).1 (hQ x y c hv))

/-! ## The neighbourhood and the accumulated value of `getPixelValue` -/

theorem getD_lt_256 {img : Image} (hwf : img.WF) (n : Nat) : img.data.getD n 0 < 256 := by
  by_cases h : n < img.data.length
  · rw [List.getD_eq_getElem _ _ h]
    exact hwf.2.2.2.2 _ (List.getElem_mem h)
  · rw [List.getD_eq_default _ _ (by omega)]
    decide

theorem sampleNat_lt_256 {img : Image} (hwf : img.WF) (x y c : Int) :
    sampleNat img x y c < 256 :=
  getD_lt_256 hwf _

theorem neighbourhood_lt {img : Image} (hwf : img.WF) (x y c : Int) :
    ∀ s ∈ neighbourhood img x y c, s < 256 := by
  intro s hs
  obtain ⟨rk, _, rfl⟩ := List.mem_map.mp hs
  exact sampleNat_lt_256 hwf _ _ _

theorem neighbourhood_length (img : Image) (x y c : Int) :
    (neighbourhood img x y c).length = 9 := rfl

theorem neighbourhood_sum_le {img : Image} (hwf : img.WF) (x y c : Int) :
    (neighbourhood img x y c).sum ≤ 2295 := by
  have h := List.sum_le_card_nsmul (neighbourhood img x y c) 255
    (fun s hs => by have := neighbourhood_lt hwf x y c s hs; omega)
  rw [neighbourhood_length] at h
  simpa using h

theorem accSpec_eq_exactSum (img : Image) (x y c : Int) (q : Fin 3 → Fin 3 → ℚ) :
    accSpec img x y c q
      = exactSum (rowMajor.map fun rk => q rk.1 rk.2) (neighbourhood img x y c) := by
  simp only [accSpec, exactSum, neighbourhood, rowMajor, List.map, List.zipWith, List.sum_cons,
    List.sum_nil, Fin.sum_univ_three, sample]
  ring

theorem accSpec_const_kernel (img : Image) (x y c : Int) (a : ℚ) :
    accSpec img x y c (fun _ _ => a) = a * (((neighbourhood img x y c).sum : Nat) : ℚ) := by
  simp only [accSpec, neighbourhood, rowMajor, List.map, List.sum_cons, List.sum_nil,
    Fin.sum_univ_three, sample]
  push_cast
  ring

theorem cells_of_fin (kernel : Matrix) (v : Fin 3 → Fin 3 → ℚ)
    (hk : ∀ r k, kernel r k = Double.fin (v r k)) :
    kernel.cells = (rowMajor.map fun rk => v rk.1 rk.2).map Double.fin := by
  simp only [Matrix.cells, List.map_map]
  apply List.map_congr_left
  intro rk _
  exact hk rk.1 rk.2

/-- For weights of magnitude at most `2^j / 4096` the accumulated double of
`getPixelValue` is within `15 * 2^(j-53)` of the exact sum of the spec. -/
theorem accDouble_near (j : Nat) (hj : j ≤ 1000) {img : Image} (hwf : img.WF) (x y c : Int)
    (kernel : Matrix) (v : Fin 3 → Fin 3 → ℚ) (hk : ∀ r k, kernel r k = Double.fin (v r k))
    (hv : ∀ r k, |v r k| ≤ (2 : ℚ) ^ j / 4096) :
    Near (accDouble img x y c kernel) (accSpec img x y c v) (15 * ((2 : ℚ) ^ j / 2 ^ 53)) := by
  unfold accDouble
  rw [cells_of_fin kernel v hk, accSpec_eq_exactSum]
  refine accSum_near j hj _ _ ?_ (neighbourhood_lt hwf x y c) (by simp [rowMajor])
  intro w hw
  obtain ⟨rk, _, rfl⟩ := List.mem_map.mp hw
  exact hv rk.1 rk.2

theorem pixelValue_of_bounded (j : Nat) (h16 : 16 ≤ j) (h48 : j ≤ 48) {img : Image}
    (hwf : img.WF) (x y c : Int) (kernel : Matrix) (v : Fin 3 → Fin 3 → ℚ)
    (hk : ∀ r k, kernel r k = Double.fin (v r k))
    (hv : ∀ r k, |v r k| ≤ (2 : ℚ) ^ j / 4096)
    (htie : ∀ i : Int, 0 ≤ i → i ≤ 254 →
      (2 : ℚ) ^ j / 2 ^ 49 ≤ |accSpec img x y c v - ((i : ℚ) + 1 / 2)|) :
    pixelValue img x y c kernel = pixelSpec img x y c v := by
  have hn := accDouble_near j (by omega) hwf x y c kernel v hk hv
  have h1 : (2 : ℚ) ^ 16 ≤ (2 : ℚ) ^ j := pow_le_pow_right₀ (by norm_num) h16
  have h2 : (2 : ℚ) ^ j ≤ (2 : ℚ) ^ 48 := pow_le_pow_right₀ (by norm_num) h48
  unfold pixelValue pixelSpec
  refine clamp_u8_near_spec hn ?_ ?_ htie
  · have e : (2 : ℚ) ^ j / 2 ^ 49 = 16 * ((2 : ℚ) ^ j / 2 ^ 53) := by ring
    have h3 : (1 : ℚ) / 2 ^ 38 < (2 : ℚ) ^ 16 / 2 ^ 53 := by norm_num
    have h4 : (2 : ℚ) ^ 16 / 2 ^ 53 ≤ (2 : ℚ) ^ j / 2 ^ 53 :=
      div_le_div_of_nonneg_right h1 (by positivity)
    rw [e]
    linarith
  · have h5 : (2 : ℚ) ^ j / 2 ^ 49 ≤ (2 : ℚ) ^ 48 / 2 ^ 49 :=
      div_le_div_of_nonneg_right h2 (by positivity)
    have h6 : (2 : ℚ) ^ 48 / 2 ^ 49 = 1 / 2 := by norm_num
    linarith

/-- For weights that are multiples of 1/16 of magnitude at most `2^16` the output sample
is the exact sum of the spec, rounded and saturated. -/
theorem pixelValue_of_sixteenths {img : Image} (hwf : img.WF) (x y c : Int)
    (kernel : Matrix) (m : Fin 3 → Fin 3 → Int)
    (hk : ∀ r k, kernel r k = Double.fin ((m r k : ℚ) / 16))
    (hm : ∀ r k, |m r k| ≤ 2 ^ 20) :
    pixelValue img x y c kernel = pixelSpec img x y c (fun r k => (m r k : ℚ) / 16) := by
  have hc : kernel.cells
      = ((rowMajor.map fun rk => m rk.1 rk.2).map fun (i : Int) => Double.fin ((i : ℚ) / 16)) := by
    simp only [Matrix.cells, List.map_map]
    apply List.map_congr_left
    intro rk _
    exact hk rk.1 rk.2
  have hq : (rowMajor.map fun rk => (fun r k => (m r k : ℚ) / 16) rk.1 rk.2)
      = ((rowMajor.map fun rk => m rk.1 rk.2).map fun (i : Int) => (i : ℚ) / 16) := by
    simp only [List.map_map]
    rfl
  obtain ⟨K, hK, e1, e2⟩ := accSum_exact (rowMajor.map fun rk => m rk.1 rk.2)
    (neighbourhood img x y c)
    (fun i hi => by
      obtain ⟨rk, _, rfl⟩ := List.mem_map.mp hi
      exact hm rk.1 rk.2)
    (neighbourhood_lt hwf x y c) (by simp [rowMajor])
  unfold pixelValue pixelSpec accDouble
  rw [hc, e1, accSpec_eq_exactSum, hq, ← e2]
  exact clamp_u8_sixteenth K hK

theorem catalog_blur : catalog KernelTypes.BLUR = fun _ _ => 1 / 9 := by
  funext r k
  fin_cases r <;> fin_cases k <;> simp [catalog, Matrix.vecHead, Matrix.vecTail]

/-- The Blur kernel of the table: the nine samples sum to an integer `N`, so the exact
value `N / 9` is at least 1/18 away from every tie, and the rounding errors of the
nine products and the eight sums are far smaller. -/
theorem pixelValue_blur {img : Image} (hwf : img.WF) (x y c : Int) :
    pixelValue img x y c blurKernel = pixelSpec img x y c (catalog KernelTypes.BLUR) := by
  have hn := accDouble_near 16 (by norm_num) hwf x y c blurKernel (fun _ _ => ninthDouble)
    blurKernel_apply (fun _ _ => by norm_num [ninthDouble, abs_of_pos])
  have hN := neighbourhood_sum_le hwf x y c
  generalize hNdef : (neighbourhood img x y c).sum = N at hN
  have hNq : (N : ℚ) ≤ 2295 := by exact_mod_cast hN
  have hN0 : (0 : ℚ) ≤ (N : ℚ) := Nat.cast_nonneg N
  have e1 : accSpec img x y c (fun _ _ => ninthDouble) = ninthDouble * (N : ℚ) := by
    rw [accSpec_const_kernel, hNdef]
  have e2 : accSpec img x y c (catalog KernelTypes.BLUR) = (N : ℚ) / 9 := by
    rw [catalog_blur, accSpec_const_kernel, hNdef]
    ring
  rw [e1] at hn
  have hshift : |ninthDouble * (N : ℚ) - (N : ℚ) / 9| ≤ 1 / 2 ^ 40 := by
    have e3 : ninthDouble * (N : ℚ) - (N : ℚ) / 9 = -((N : ℚ) / (9 * 2 ^ 54)) := by
      unfold ninthDouble
      ring
    rw [e3, abs_neg, abs_of_nonneg (by positivity)]
    rw [div_le_iff₀ (by positivity)]
    norm_num
    linarith
  have hn2 := hn.shift hshift
  unfold pixelValue pixelSpec
  rw [e2]
  refine clamp_u8_near_spec (μ := 1 / 18) hn2 (by norm_num) (by norm_num) ?_
  intro i _ _
  have e4 : (N : ℚ) / 9 - ((i : ℚ) + 1 / 2) = ((2 * (N : Int) - 18 * i - 9 : Int) : ℚ) / 18 := by
    push_cast
    ring
  rw [e4, abs_div, abs_of_pos (by norm_num : (0 : ℚ) < 18)]
  have hodd : (1 : Int) ≤ |2 * (N : Int) - 18 * i - 9| := by
    exact Int.one_le_abs (by omega)
  have hodd2 : (1 : ℚ) ≤ |((2 * (N : Int) - 18 * i - 9 : Int) : ℚ)| := by
    rw [← Int.cast_abs]
    exact_mod_cast hodd
  exact div_le_div_of_nonneg_right hodd2 (by norm_num)

theorem ofConst_catalog_sixteenths (t : KernelTypes) (ht : t ≠ KernelTypes.BLUR) :
    ∃ m : Fin 3 → Fin 3 → Int, (∀ r k, |m r k| ≤ 2 ^ 20) ∧
      (∀ r k, Matrix.ofConst (catalog t) r k = Double.fin ((m r k : ℚ) / 16)) ∧
      (fun r k => (m r k : ℚ) / 16) = catalog t := by
  cases t with
  | EDGE =>
    refine ⟨![![0, -16, 0], ![-16, 64, -16], ![0, -16, 0]], ?_, ?_, ?_⟩
    · intro r k; fin_cases r <;> fin_cases k <;> simp [Matrix.vecHead, Matrix.vecTail]
    · intro r k
      fin_cases r <;> fin_cases k <;>
        norm_num [Matrix.ofConst, catalog, toDouble_zero, toDouble_neg_one, toDouble_four,
          Matrix.vecHead, Matrix.vecTail]
    · funext r k
      fin_cases r <;> fin_cases k <;> norm_num [catalog, Matrix.vecHead, Matrix.vecTail]
  | SHARPEN =>
    refine ⟨![![0, -16, 0], ![-16, 80, -16], ![0, -16, 0]], ?_, ?_, ?_⟩
    · intro r k; fin_cases r <;> fin_cases k <;> simp [Matrix.vecHead, Matrix.vecTail]
    · intro r k
      fin_cases r <;> fin_cases k <;>
        norm_num [Matrix.ofConst, catalog, toDouble_zero, toDouble_neg_one, toDouble_five,
          Matrix.vecHead, Matrix.vecTail]
    · funext r k
      fin_cases r <;> fin_cases k <;> norm_num [catalog, Matrix.vecHead, Matrix.vecTail]
  | BLUR => exact absurd rfl ht
  | GAUSE_BLUR =>
    refine ⟨![![1, 2, 1], ![2, 4, 2], ![1, 2, 1]], ?_, ?_, ?_⟩
    · intro r k; fin_cases r <;> fin_cases k <;> simp [Matrix.vecHead, Matrix.vecTail]
    · intro r k
      fin_cases r <;> fin_cases k <;>
        norm_num [Matrix.ofConst, catalog, toDouble_inv_four, toDouble_inv_eight,
          toDouble_inv_sixteen, toDouble_quarter, toDouble_eighth, toDouble_sixteenth,
          Matrix.vecHead, Matrix.vecTail]
    · funext r k
      fin_cases r <;> fin_cases k <;> norm_num [catalog, Matrix.vecHead, Matrix.vecTail]
  | EMBOSS =>
    refine ⟨![![-32, -16, 0], ![-16, 16, 16], ![0, 16, 32]], ?_, ?_, ?_⟩
    · intro r k; fin_cases r <;> fin_cases k <;> simp [Matrix.vecHead, Matrix.vecTail]
    · intro r k
      fin_cases r <;> fin_cases k <;>
        norm_num [Matrix.ofConst, catalog, toDouble_zero, toDouble_neg_one, toDouble_one,
          toDouble_two, toDouble_neg_two, Matrix.vecHead, Matrix.vecTail]
    · funext r k
      fin_cases r <;> fin_cases k <;> norm_num [catalog, Matrix.vecHead, Matrix.vecTail]
  | IDENTITY =>
    refine ⟨![![0, 0, 0], ![0, 16, 0], ![0, 0, 0]], ?_, ?_, ?_⟩
    · intro r k; fin_cases r <;> fin_cases k <;> simp [Matrix.vecHead, Matrix.vecTail]
    · intro r k
      fin_cases r <;> fin_cases k <;>
        simp [Matrix.ofConst, catalog, toDouble_zero, toDouble_one, Matrix.vecHead,
          Matrix.vecTail]
    · funext r k
      fin_cases r <;> fin_cases k <;> simp [catalog, Matrix.vecHead, Matrix.vecTail]

/-- For each of the six kernels of the table the output sample is the exact sum of the
spec, with the weights of the catalog, rounded and saturated. -/
theorem pixelValue_catalog {img : Image} (hwf : img.WF) (x y c : Int) (t : KernelTypes) :
    pixelValue img x y c (Matrix.ofConst (catalog t)) = pixelSpec img x y c (catalog t) := by
  by_cases ht : t = KernelTypes.BLUR
  · subst ht
    exact pixelValue_blur hwf x y c
  · obtain ⟨m, hm, hk, hq⟩ := ofConst_catalog_sixteenths t ht
    rw [pixelValue_of_sixteenths hwf x y c _ m hk hm, hq]

/-! ## Values of the convolution on particular inputs -/

theorem roundHalfAway_natCast (n : Nat) : roundHalfAway (n : ℚ) = (n : Int) := by
  unfold roundHalfAway
  rw [if_pos (Nat.cast_nonneg n), Int.floor_eq_iff]
  constructor
  · push_cast; linarith
  · push_cast; linarith

theorem saturate_round_natCast {n : Nat} (hn : n < 256) :
    saturate (roundHalfAway (n : ℚ)) = n := by
  rw [roundHalfAway_natCast]
  unfold saturate
  omega

theorem sample_eq_getD (img : Image) (x y c : Int) :
    sample img x y c = ((img.data.getD (Index x y img.width c img.bpp).toNat 0 : Nat) : ℚ) :=
  rfl

theorem getD_uniform {img : Image} {v : Nat} (huni : ∀ b ∈ img.data, b = v)
    (hlen : (img.data.length : Int) = img.width * img.height * img.bpp) {x y c : Int}
    (hv : img.Valid x y c) : img.data.getD (Index x y img.width c img.bpp).toNat 0 = v := by
  obtain ⟨hx0, hx, hy0, hy, hc0, hc⟩ := hv
  obtain ⟨h0, h1⟩ := index_bounds (h := img.height) hx0 hx hy0 hy hc0 hc
  have h2 : (Index x y img.width c img.bpp).toNat < img.data.length := by omega
  rw [List.getD_eq_getElem _ _ h2]
  exact huni _ (List.getElem_mem h2)

theorem clampCoord_range (v : Int) {w : Int} (hw : 1 ≤ w) :
    0 ≤ clampCoord v 0 (w - 1) ∧ clampCoord v 0 (w - 1) < w := by
  unfold clampCoord; omega

theorem clampCoord_self {x w : Int} (hx0 : 0 ≤ x) (hx : x < w) :
    clampCoord x 0 (w - 1) = x := by
  unfold clampCoord; omega

theorem accSpec_const {img : Image} {x y c : Int} {p : ℚ} (kernel : Fin 3 → Fin 3 → ℚ)
    (hp : ∀ r k : Fin 3,
      sample img (clampCoord (x + ((k : Nat) : Int) - 1) 0 (img.width - 1))
        (clampCoord (y + ((r : Nat) : Int) - 1) 0 (img.height - 1)) c = p) :
    accSpec img x y c kernel = (∑ r : Fin 3, ∑ k : Fin 3, kernel r k) * p := by
  unfold accSpec
  simp only [hp, Finset.sum_mul]

theorem accSpec_uniform {img : Image} {v : Nat} (hwf : img.WF) (huni : ∀ b ∈ img.data, b = v)
    {x y c : Int} (hv : img.Valid x y c) (kernel : Fin 3 → Fin 3 → ℚ) :
    accSpec img x y c kernel = (∑ r : Fin 3, ∑ k : Fin 3, kernel r k) * (v : ℚ) := by
  apply accSpec_const
  intro r k
  obtain ⟨hx0, hx1⟩ := clampCoord_range (x + ((k : Nat) : Int) - 1) hwf.1
  obtain ⟨hy0, hy1⟩ := clampCoord_range (y + ((r : Nat) : Int) - 1) hwf.2.1
  rw [sample_eq_getD, getD_uniform huni hwf.2.2.2.1 ⟨hx0, hx1, hy0, hy1, hv.2.2.2.2.1, hv.2.2.2.2.2⟩]

theorem isDouble_natCast {n : Nat} (hn : n < 256) : IsDouble (n : ℚ) :=
  ⟨n, 0, by rw [abs_of_nonneg (by positivity)]; exact_mod_cast (by omega : n < 2 ^ 53),
    by norm_num, by norm_num, by simp⟩

theorem natCast_ne_predHalf (n : Nat) : (n : ℚ) ≠ predHalf := by
  intro h
  rcases Nat.eq_zero_or_pos n with h0 | h0
  · subst h0; norm_num [predHalf] at h
  · have h1 : (1 : ℚ) ≤ n := by exact_mod_cast h0
    rw [h] at h1
    norm_num [predHalf] at h1

theorem clamp_u8_natCast {n : Nat} (hn : n < 256) : clamp_u8 (Double.fin (n : ℚ)) = n := by
  rw [clamp_u8_double (isDouble_natCast hn) (natCast_ne_predHalf n), saturate_round_natCast hn]

theorem identityKernel_apply (r k : Fin 3) :
    identityKernel r k = if r = 1 ∧ k = 1 then Double.fin 1 else Double.fin 0 := by
  fin_cases r <;> fin_cases k <;>
    simp [identityKernel, Matrix.ofConst, toDouble_zero, toDouble_one, Matrix.vecHead,
      Matrix.vecTail]

theorem pixelValue_identity {img : Image} (hwf : img.WF) {x y c : Int} (hv : img.Valid x y c) :
    pixelValue img x y c identityKernel =
      img.data.getD (Index x y img.width c img.bpp).toNat 0 := by
  have hs : ∀ n : Nat, toDouble ((img.data.getD n 0 : Nat) : ℚ) = Double.fin (img.data.getD n 0 : Nat) :=
    fun n => toDouble_natCast _ (by have := getD_lt_256 hwf n; omega)
  have hs2 : ∀ n : Nat, toDouble ((img.data[n]?.getD 0 : Nat) : ℚ) = Double.fin (img.data[n]?.getD 0 : Nat) :=
    fun n => by simpa using hs n
  have hcl := clamp_u8_natCast (getD_lt_256 hwf (Index x y img.width c img.bpp).toNat)
  unfold pixelValue accDouble
  simp only [accSum, Matrix.cells, neighbourhood, rowMajor, List.map, List.zipWith, List.foldl,
    Double.ofNat, sampleNat, hs, Fin.val_one,
    clampCoord_mid hv.1 hv.2.1, clampCoord_mid hv.2.2.1 hv.2.2.2.1, identityKernel_apply]
  simp [Double.fin_mul_fin, Double.fin_add_fin, toDouble_zero, hs2]
  simpa using hcl

/-- When every output sample equals the source sample at the same place, the engine
ends with a destination equal to the source. -/
theorem engine_fixed_point {src : Image} (hwf : src.WF) {d0 : List Nat}
    (hd : (d0.length : Int) = src.width * src.height * src.bpp) (kernel : Matrix) {T : Int}
    (hT1 : 1 ≤ T) (hT2 : T ≤ src.height)
    (hfix : ∀ x y c, src.Valid x y c →
      pixelValue src x y c kernel = src.data.getD (Index x y src.width c src.bpp).toNat 0) :
    ∃ jobs, mainJobs kernel src.height T = some jobs ∧
      ∀ order : List ThreadJob, order.Perm jobs →
        runJobs order (mainState src d0) = some { srcImage := src, destImage := src } := by
  obtain ⟨jobs, hj, hrun⟩ := engine_spec hwf hd kernel hT1 hT2
  refine ⟨jobs, hj, fun order hperm => ?_⟩
  obtain ⟨m2, h1, h2⟩ := hrun order hperm
  rw [h1]
  congr 1
  have hlen : src.data.length = d0.length := by
    have := hwf.2.2.2.1
    omega
  apply bufs_eq
  · exact h2.1.1
  · exact h2.1.2.1
  · exact h2.1.2.2.1
  · exact h2.1.2.2.2.1
  · exact h2.full_data (WF.ready hwf hd) (fun _ _ _ _ => trivial) src.data hlen
      (fun x y c hv => by
        have e := load_valid hwf.2.2.2.1 hv
        simp only [mainState] at hv ⊢
        rw [e, hfix x y c hv])

/-! ## Accumulations evaluated step by step -/

/-- The accumulation of nine products whose roundings are known. -/
theorem accSum_nine {t1 t2 t3 t4 t5 t6 t7 t8 t9 p1 p2 p3 p4 p5 p6 p7 p8 p9 : ℚ}
    {s2 s3 s4 s5 s6 s7 s8 s9 : ℚ}
    (h1 : toDouble t1 = Double.fin p1) (h2 : toDouble t2 = Double.fin p2)
    (h3 : toDouble t3 = Double.fin p3) (h4 : toDouble t4 = Double.fin p4)
    (h5 : toDouble t5 = Double.fin p5) (h6 : toDouble t6 = Double.fin p6)
    (h7 : toDouble t7 = Double.fin p7) (h8 : toDouble t8 = Double.fin p8)
    (h9 : toDouble t9 = Double.fin p9)
    (a2 : Double.fin p1 + Double.fin p2 = Double.fin s2)
    (a3 : Double.fin s2 + Double.fin p3 = Double.fin s3)
    (a4 : Double.fin s3 + Double.fin p4 = Double.fin s4)
    (a5 : Double.fin s4 + Double.fin p5 = Double.fin s5)
    (a6 : Double.fin s5 + Double.fin p6 = Double.fin s6)
    (a7 : Double.fin s6 + Double.fin p7 = Double.fin s7)
    (a8 : Double.fin s7 + Double.fin p8 = Double.fin s8)
    (a9 : Double.fin s8 + Double.fin p9 = Double.fin s9) :
    accSum (([t1, t2, t3, t4, t5, t6, t7, t8, t9] : List ℚ).map toDouble) = Double.fin s9 := by
  simp only [List.map, accSum, List.foldl, h1, h2, h3, h4, h5, h6, h7, h8, h9, a2, a3, a4, a5, a6,
    a7, a8, a9]

/-- The accumulated double of `getPixelValue`, from the weights, the samples of the
neighbourhood and their exact products. -/
theorem accDouble_eval {img : Image} {x y c : Int} {kernel : Matrix} {v : Fin 3 → Fin 3 → ℚ}
    {ss : List Nat} {ts : List ℚ} (hk : ∀ r k, kernel r k = Double.fin (v r k))
    (hs : neighbourhood img x y c = ss) (hlt : ∀ s ∈ ss, s < 256)
    (ht : List.zipWith (fun (w : ℚ) (s : Nat) => w * (s : ℚ))
      (rowMajor.map fun rk => v rk.1 rk.2) ss = ts) :
    accDouble img x y c kernel = accSum (ts.map toDouble) := by
  unfold accDouble
  rw [cells_of_fin kernel v hk, hs, zipWith_mul_fin _ _ hlt, ht]

/-- The nine products of the double `0.1` and the samples 43, 11, 6, 37, 36, 40, 12, 23, 7,
added from left to right in double arithmetic: the result is `21.499999999999996`,
below the exact sum 21.5. -/
theorem tenth_acc :
    accSum (([154923827181545071 / 36028797018963968, 39631676720860367 / 36028797018963968,
        10808639105689191 / 18014398509481984, 133306548970166689 / 36028797018963968,
        32425917317067573 / 9007199254740992, 18014398509481985 / 4503599627370496,
        10808639105689191 / 9007199254740992, 82866233143617131 / 36028797018963968,
        25220157913274779 / 36028797018963968] : List ℚ).map toDouble)
      = Double.fin (6051711999279103 / 281474976710656) := by
  have p1 : toDouble (154923827181545071 / 36028797018963968) = Double.fin (4841369599423283 /
      1125899906842624) := by
    rw [toDouble_cert_pos (154923827181545071 / 36028797018963968) (-50) 4841369599423283 (by
        norm_num) (by norm_num)
      (by norm_num) (by norm_num) (by norm_num) (by norm_num)]
    norm_num
  have p2 : toDouble (39631676720860367 / 36028797018963968) = Double.fin (2476979795053773 /
      2251799813685248) := by
    rw [toDouble_cert_pos (39631676720860367 / 36028797018963968) (-52) 4953959590107546 (by
        norm_num) (by norm_num)
      (by norm_num) (by norm_num) (by norm_num) (by norm_num)]
    norm_num
  have p3 : toDouble (10808639105689191 / 18014398509481984) = Double.fin (1351079888211149 /
      2251799813685248) := by
    rw [toDouble_cert_tie_pos (10808639105689191 / 18014398509481984) (-53) 5404319552844596 (by
        norm_num) (by norm_num)
      (by norm_num) (by norm_num) (Or.inl (by norm_num)) (by norm_num) (by norm_num)]
    norm_num
  have p4 : toDouble (133306548970166689 / 36028797018963968) = Double.fin (4165829655317709 /
      1125899906842624) := by
    rw [toDouble_cert_pos (133306548970166689 / 36028797018963968) (-51) 8331659310635418 (by
        norm_num) (by norm_num)
      (by norm_num) (by norm_num) (by norm_num) (by norm_num)]
    norm_num
  have p5 : toDouble (32425917317067573 / 9007199254740992) = Double.fin (8106479329266893 /
      2251799813685248) := by
    rw [toDouble_cert_pos (32425917317067573 / 9007199254740992) (-51) 8106479329266893 (by
        norm_num) (by norm_num)
      (by norm_num) (by norm_num) (by norm_num) (by norm_num)]
    norm_num
  have p6 : toDouble (18014398509481985 / 4503599627370496) = Double.fin 4 := by
    rw [toDouble_cert_pos (18014398509481985 / 4503599627370496) (-50) 4503599627370496 (by
        norm_num) (by norm_num)
      (by norm_num) (by norm_num) (by norm_num) (by norm_num)]
    norm_num
  have p7 : toDouble (10808639105689191 / 9007199254740992) = Double.fin (1351079888211149 /
      1125899906842624) := by
    rw [toDouble_cert_tie_pos (10808639105689191 / 9007199254740992) (-52) 5404319552844596 (by
        norm_num) (by norm_num)
      (by norm_num) (by norm_num) (Or.inl (by norm_num)) (by norm_num) (by norm_num)]
    norm_num
  have p8 : toDouble (82866233143617131 / 36028797018963968) = Double.fin (5179139571476071 /
      2251799813685248) := by
    rw [toDouble_cert_pos (82866233143617131 / 36028797018963968) (-51) 5179139571476071 (by
        norm_num) (by norm_num)
      (by norm_num) (by norm_num) (by norm_num) (by norm_num)]
    norm_num
  have p9 : toDouble (25220157913274779 / 36028797018963968) = Double.fin (6305039478318695 /
      9007199254740992) := by
    rw [toDouble_cert_pos (25220157913274779 / 36028797018963968) (-53) 6305039478318695 (by
        norm_num) (by norm_num)
      (by norm_num) (by norm_num) (by norm_num) (by norm_num)]
    norm_num
  have s10 : Double.fin (4841369599423283 / 1125899906842624) + Double.fin (2476979795053773 /
      2251799813685248) = Double.fin (3039929748475085 / 562949953421312) := by
    rw [Double.fin_add_fin]
    rw [toDouble_cert_tie_pos ((4841369599423283 / 1125899906842624) + (2476979795053773 /
        2251799813685248)) (-50) 6079859496950170 (by norm_num) (by norm_num)
      (by norm_num) (by norm_num) (Or.inl (by norm_num)) (by norm_num) (by norm_num)]
    norm_num
  have s11 : Double.fin (3039929748475085 / 562949953421312) + Double.fin (1351079888211149 /
      2251799813685248) = Double.fin 6 := by
    rw [Double.fin_add_fin]
    rw [toDouble_cert_tie_pos ((3039929748475085 / 562949953421312) + (1351079888211149 /
        2251799813685248)) (-50) 6755399441055744 (by norm_num) (by norm_num)
      (by norm_num) (by norm_num) (Or.inr (by norm_num)) (by norm_num) (by norm_num)]
    norm_num
  have s12 : Double.fin 6 + Double.fin (4165829655317709 / 1125899906842624) = Double.fin
      (2730307274093363 / 281474976710656) := by
    rw [Double.fin_add_fin]
    rw [toDouble_cert_tie_pos (6 + (4165829655317709 / 1125899906842624)) (-49) 5460614548186726
        (by norm_num) (by norm_num)
      (by norm_num) (by norm_num) (Or.inr (by norm_num)) (by norm_num) (by norm_num)]
    norm_num
  have s13 : Double.fin (2730307274093363 / 281474976710656) + Double.fin (8106479329266893 /
      2251799813685248) = Double.fin (7487234380503449 / 562949953421312) := by
    rw [Double.fin_add_fin]
    rw [toDouble_cert_pos ((2730307274093363 / 281474976710656) + (8106479329266893 /
        2251799813685248)) (-49) 7487234380503449 (by norm_num) (by norm_num)
      (by norm_num) (by norm_num) (by norm_num) (by norm_num)]
    norm_num
  have s14 : Double.fin (7487234380503449 / 562949953421312) + Double.fin 4 = Double.fin
      (1217379274273587 / 70368744177664) := by
    rw [Double.fin_add_fin]
    rw [toDouble_cert_tie_pos ((7487234380503449 / 562949953421312) + 4) (-48) 4869517097094348 (by
        norm_num) (by norm_num)
      (by norm_num) (by norm_num) (Or.inr (by norm_num)) (by norm_num) (by norm_num)]
    norm_num
  have s15 : Double.fin (1217379274273587 / 70368744177664) + Double.fin (1351079888211149 /
      1125899906842624) = Double.fin (5207287069147135 / 281474976710656) := by
    rw [Double.fin_add_fin]
    rw [toDouble_cert_pos ((1217379274273587 / 70368744177664) + (1351079888211149 /
        1125899906842624)) (-48) 5207287069147135 (by norm_num) (by norm_num)
      (by norm_num) (by norm_num) (by norm_num) (by norm_num)]
    norm_num
  have s16 : Double.fin (5207287069147135 / 281474976710656) + Double.fin (5179139571476071 /
      2251799813685248) = Double.fin (1463669878895411 / 70368744177664) := by
    rw [Double.fin_add_fin]
    rw [toDouble_cert_pos ((5207287069147135 / 281474976710656) + (5179139571476071 /
        2251799813685248)) (-48) 5854679515581644 (by norm_num) (by norm_num)
      (by norm_num) (by norm_num) (by norm_num) (by norm_num)]
    norm_num
  have s17 : Double.fin (1463669878895411 / 70368744177664) + Double.fin (6305039478318695 /
      9007199254740992) = Double.fin (6051711999279103 / 281474976710656) := by
    rw [Double.fin_add_fin]
    rw [toDouble_cert_pos ((1463669878895411 / 70368744177664) + (6305039478318695 /
        9007199254740992)) (-48) 6051711999279103 (by norm_num) (by norm_num)
      (by norm_num) (by norm_num) (by norm_num) (by norm_num)]
    norm_num
  exact accSum_nine p1 p2 p3 p4 p5 p6 p7 p8 p9 s10 s11 s12 s13 s14 s15 s16 s17

/-- The products of the weights `1e17, 1, -1e17, 0, ...` and the sample 128: the sum
`1.28e19 + 128` rounds to `1.28e19`, so the accumulated double is 0. -/
theorem cancel_acc :
    accSum (([12800000000000000000, 128, (-12800000000000000000), 0, 0, 0, 0, 0, 0] : List ℚ).map
        toDouble)
      = Double.fin 0 := by
  have p1 : toDouble 12800000000000000000 = Double.fin 12800000000000000000 := by
    have h0 : (12800000000000000000 : ℚ) = ((762939453125 : Int) : ℚ) * (2 : ℚ) ^ (24 : Int) := by
        norm_num
    rw [h0, toDouble_dyadic (762939453125) (24) (by norm_num) (by norm_num) (by norm_num)]
  have p2 : toDouble 128 = Double.fin 128 := by
    have h0 : (128 : ℚ) = ((1 : Int) : ℚ) * (2 : ℚ) ^ (7 : Int) := by norm_num
    rw [h0, toDouble_dyadic (1) (7) (by norm_num) (by norm_num) (by norm_num)]
  have p3 : toDouble (-12800000000000000000) = Double.fin (-12800000000000000000) := by
    have h0 : ((-12800000000000000000) : ℚ) = ((-762939453125 : Int) : ℚ) * (2 : ℚ) ^ (24 : Int) :=
        by norm_num
    rw [h0, toDouble_dyadic (-762939453125) (24) (by norm_num) (by norm_num) (by norm_num)]
  have p4 : toDouble 0 = Double.fin 0 := by
    exact toDouble_zero
  have s5 : Double.fin 12800000000000000000 + Double.fin 128 = Double.fin 12800000000000000000 := by
    rw [Double.fin_add_fin]
    rw [toDouble_cert_pos (12800000000000000000 + 128) (11) 6250000000000000 (by norm_num) (by
        norm_num)
      (by norm_num) (by norm_num) (by norm_num) (by norm_num)]
    norm_num
  have s6 : Double.fin 12800000000000000000 + Double.fin (-12800000000000000000) = Double.fin 0 :=
      by
    rw [Double.fin_add_fin]
    have h0 : (12800000000000000000 + (-12800000000000000000) : ℚ) = 0 := by norm_num
    rw [h0, toDouble_zero]
  have s7 : Double.fin 0 + Double.fin 0 = Double.fin 0 := by
    rw [Double.fin_add_fin]
    have h0 : (0 + 0 : ℚ) = 0 := by norm_num
    rw [h0, toDouble_zero]
  exact accSum_nine p1 p2 p3 p4 p4 p4 p4 p4 p4 s5 s6 s7 s7 s7 s7 s7 s7

/-- The products of the weights `1e17, 2, -1e17, 0, ...` and the sample 255: the sum
`2.55e19 + 510` rounds to `2.55e19`, so the accumulated double is 0. -/
theorem cancel2_acc :
    accSum (([25500000000000000000, 510, (-25500000000000000000), 0, 0, 0, 0, 0, 0] : List ℚ).map
        toDouble)
      = Double.fin 0 := by
  have p1 : toDouble 25500000000000000000 = Double.fin 25500000000000000000 := by
    have h0 : (25500000000000000000 : ℚ) = ((194549560546875 : Int) : ℚ) * (2 : ℚ) ^ (17 : Int) :=
        by norm_num
    rw [h0, toDouble_dyadic (194549560546875) (17) (by norm_num) (by norm_num) (by norm_num)]
  have p2 : toDouble 510 = Double.fin 510 := by
    have h0 : (510 : ℚ) = ((255 : Int) : ℚ) * (2 : ℚ) ^ (1 : Int) := by norm_num
    rw [h0, toDouble_dyadic (255) (1) (by norm_num) (by norm_num) (by norm_num)]
  have p3 : toDouble (-25500000000000000000) = Double.fin (-25500000000000000000) := by
    have h0 : ((-25500000000000000000) : ℚ) = ((-194549560546875 : Int) : ℚ) * (2 : ℚ) ^ (17 : Int)
        := by norm_num
    rw [h0, toDouble_dyadic (-194549560546875) (17) (by norm_num) (by norm_num) (by norm_num)]
  have p4 : toDouble 0 = Double.fin 0 := by
    exact toDouble_zero
  have s5 : Double.fin 25500000000000000000 + Double.fin 510 = Double.fin 25500000000000000000 := by
    rw [Double.fin_add_fin]
    rw [toDouble_cert_pos (25500000000000000000 + 510) (12) 6225585937500000 (by norm_num) (by
        norm_num)
      (by norm_num) (by norm_num) (by norm_num) (by norm_num)]
    norm_num
  have s6 : Double.fin 25500000000000000000 + Double.fin (-25500000000000000000) = Double.fin 0 :=
      by
    rw [Double.fin_add_fin]
    have h0 : (25500000000000000000 + (-25500000000000000000) : ℚ) = 0 := by norm_num
    rw [h0, toDouble_zero]
  have s7 : Double.fin 0 + Double.fin 0 = Double.fin 0 := by
    rw [Double.fin_add_fin]
    have h0 : (0 + 0 : ℚ) = 0 := by norm_num
    rw [h0, toDouble_zero]
  exact accSum_nine p1 p2 p3 p4 p4 p4 p4 p4 p4 s5 s6 s7 s7 s7 s7 s7 s7

/-- The products of the weights `0, 0, 0, 0, 0x1.fffffffffffffp-2, 0, ...` and the sample 1. -/
theorem half_acc :
    accSum (([0, 0, 0, 0, 9007199254740991 / 18014398509481984, 0, 0, 0, 0] : List ℚ).map toDouble)
      = Double.fin (9007199254740991 / 18014398509481984) := by
  have p1 : toDouble 0 = Double.fin 0 := by
    exact toDouble_zero
  have p2 : toDouble (9007199254740991 / 18014398509481984) = Double.fin (9007199254740991 /
      18014398509481984) := by
    have h0 : (9007199254740991 / 18014398509481984 : ℚ) = ((9007199254740991 : Int) : ℚ) * (2 : ℚ)
        ^ (-54 : Int) := by norm_num
    rw [h0, toDouble_dyadic (9007199254740991) (-54) (by norm_num) (by norm_num) (by norm_num)]
  have s3 : Double.fin 0 + Double.fin 0 = Double.fin 0 := by
    rw [Double.fin_add_fin]
    have h0 : (0 + 0 : ℚ) = 0 := by norm_num
    rw [h0, toDouble_zero]
  have s4 : Double.fin 0 + Double.fin (9007199254740991 / 18014398509481984) = Double.fin
      (9007199254740991 / 18014398509481984) := by
    rw [Double.fin_add_fin]
    have h0 : (0 + (9007199254740991 / 18014398509481984) : ℚ) = ((9007199254740991 : Int) : ℚ) *
        (2 : ℚ) ^ (-54 : Int) := by norm_num
    rw [h0, toDouble_dyadic (9007199254740991) (-54) (by norm_num) (by norm_num) (by norm_num)]
    norm_num
  have s5 : Double.fin (9007199254740991 / 18014398509481984) + Double.fin 0 = Double.fin
      (9007199254740991 / 18014398509481984) := by
    rw [Double.fin_add_fin]
    have h0 : ((9007199254740991 / 18014398509481984) + 0 : ℚ) = ((9007199254740991 : Int) : ℚ) *
        (2 : ℚ) ^ (-54 : Int) := by norm_num
    rw [h0, toDouble_dyadic (9007199254740991) (-54) (by norm_num) (by norm_num) (by norm_num)]
    norm_num
  exact accSum_nine p1 p1 p1 p1 p2 p1 p1 p1 p1 s3 s3 s3 s4 s5 s5 s5 s5

theorem saturate_round_predHalf : saturate (roundHalfAway predHalf) = 0 := by
  have h : roundHalfAway predHalf = 0 := by
    unfold roundHalfAway
    rw [if_pos (by norm_num [predHalf]), Int.floor_eq_iff]
    constructor <;> norm_num [predHalf]
  rw [h]
  rfl

/-! ## The kernels of the examples -/

theorem toDouble_tenth : toDouble (1 / 10) = Double.fin tenth := by
  rw [toDouble_cert_pos (1 / 10) (-56) 7205759403792794 (by norm_num) (by norm_num)
    (by norm_num) (by norm_num) (by norm_num) (by norm_num)]
  norm_num [tenth]

theorem tenthKernel_apply (r k : Fin 3) : tenthKernel r k = Double.fin tenth :=
  toDouble_tenth

theorem isDouble_tenth : IsDouble tenth :=
  ⟨3602879701896397, -55, by norm_num, by norm_num, by norm_num, by norm_num [tenth]⟩

theorem toDouble_e17 : toDouble 100000000000000000 = Double.fin 100000000000000000 := by
  have h0 : (100000000000000000 : ℚ) = ((762939453125 : Int) : ℚ) * (2 : ℚ) ^ (17 : Int) := by
    norm_num
  rw [h0, toDouble_dyadic (762939453125) (17) (by norm_num) (by norm_num) (by norm_num)]

theorem toDouble_neg_e17 :
    toDouble (-100000000000000000) = Double.fin (-100000000000000000) := by
  have h0 : (-100000000000000000 : ℚ) = ((-762939453125 : Int) : ℚ) * (2 : ℚ) ^ (17 : Int) := by
    norm_num
  rw [h0, toDouble_dyadic (-762939453125) (17) (by norm_num) (by norm_num) (by norm_num)]

theorem toDouble_below_half :
    toDouble (9007199254740991 / 18014398509481984)
      = Double.fin (9007199254740991 / 18014398509481984) := by
  have h0 : (9007199254740991 / 18014398509481984 : ℚ)
      = ((9007199254740991 : Int) : ℚ) * (2 : ℚ) ^ (-54 : Int) := by norm_num
  rw [h0, toDouble_dyadic (9007199254740991) (-54) (by norm_num) (by norm_num) (by norm_num)]

theorem cancelKernel_apply (r k : Fin 3) : cancelKernel r k = Double.fin (cancelWeights r k) := by
  fin_cases r <;> fin_cases k <;>
    simp [cancelKernel, Matrix.ofConst, cancelWeights, toDouble_zero, toDouble_one, toDouble_e17,
      toDouble_neg_e17, Matrix.vecHead, Matrix.vecTail]

theorem cancelKernel2_apply (r k : Fin 3) :
    cancelKernel2 r k = Double.fin (cancelWeights2 r k) := by
  fin_cases r <;> fin_cases k <;>
    simp [cancelKernel2, Matrix.ofConst, cancelWeights2, toDouble_zero, toDouble_two,
      toDouble_e17, toDouble_neg_e17, Matrix.vecHead, Matrix.vecTail]

theorem halfKernel_apply (r k : Fin 3) : halfKernel r k = Double.fin (halfWeights r k) := by
  fin_cases r <;> fin_cases k <;>
    simp [halfKernel, Matrix.ofConst, halfWeights, toDouble_zero, toDouble_below_half,
      Matrix.vecHead, Matrix.vecTail]

theorem heavyKernel_apply (r k : Fin 3) : heavyKernel r k = Double.fin (heavyWeights r k) := by
  fin_cases r <;> fin_cases k <;>
    simp [heavyKernel, Matrix.ofConst, heavyWeights, toDouble_zero, toDouble_one,
      Matrix.vecHead, Matrix.vecTail]

/-! ## Neighbourhoods of nine equal samples -/

theorem zipWith_cells_replicate (kernel : Matrix) (p : Nat) :
    List.zipWith (fun (w : Double) (s : Nat) => w * Double.ofNat s) kernel.cells
        (List.replicate 9 p)
      = kernel.cells.map fun w => w * Double.ofNat p := rfl

theorem neighbourhood_uniform {img : Image} {v : Nat} (hwf : img.WF)
    (huni : ∀ b ∈ img.data, b = v) {x y c : Int} (hv : img.Valid x y c) :
    neighbourhood img x y c = List.replicate 9 v := by
  rw [List.eq_replicate_iff]
  refine ⟨rfl, fun b hb => ?_⟩
  obtain ⟨rk, _, rfl⟩ := List.mem_map.mp hb
  obtain ⟨hx0, hx1⟩ := clampCoord_range (x + ((rk.2 : Nat) : Int) - 1) hwf.1
  obtain ⟨hy0, hy1⟩ := clampCoord_range (y + ((rk.1 : Nat) : Int) - 1) hwf.2.1
  exact getD_uniform huni hwf.2.2.2.1 ⟨hx0, hx1, hy0, hy1, hv.2.2.2.2.1, hv.2.2.2.2.2⟩

theorem neighbourhood_one_by_one {img : Image} (hw : img.width = 1) (hh : img.height = 1)
    (c : Int) : neighbourhood img 0 0 c = List.replicate 9 (img.data.getD c.toNat 0) := by
  rw [List.eq_replicate_iff]
  refine ⟨rfl, fun b hb => ?_⟩
  obtain ⟨rk, _, rfl⟩ := List.mem_map.mp hb
  have e1 : clampCoord (0 + ((rk.2 : Nat) : Int) - 1) 0 (img.width - 1) = 0 := by
    rw [hw]; unfold clampCoord; omega
  have e2 : clampCoord (0 + ((rk.1 : Nat) : Int) - 1) 0 (img.height - 1) = 0 := by
    rw [hh]; unfold clampCoord; omega
  rw [e1, e2]
  simp [sampleNat, Index]

theorem getPixelValue_of_neighbourhood {img : Image} {x y c : Int} (kernel : Matrix)
    (hlen : (img.data.length : Int) = img.width * img.height * img.bpp)
    (hv : img.Valid x y c) {p : Nat} (hn : neighbourhood img x y c = List.replicate 9 p) :
    getPixelValue img x y c kernel
      = some (clamp_u8 (accSum (kernel.cells.map fun w => w * Double.ofNat p))) := by
  rw [getPixelValue_eq_pixelValue kernel hlen hv]
  unfold pixelValue accDouble
  rw [hn, zipWith_cells_replicate]

theorem accSpec_of_neighbourhood {img : Image} {x y c : Int} {p : Nat}
    (hn : neighbourhood img x y c = List.replicate 9 p) (w : Fin 3 → Fin 3 → ℚ) :
    accSpec img x y c w = (∑ r : Fin 3, ∑ k : Fin 3, w r k) * (p : ℚ) := by
  rw [accSpec_eq_exactSum, hn]
  simp only [exactSum, rowMajor, List.map, List.replicate, List.zipWith, List.sum_cons,
    List.sum_nil, Fin.sum_univ_three]
  ring

/-- For weights of magnitude at most `2^35` and nine equal samples `p` the accumulated
double is within `15/64` of the sum of the weights times `p`. -/
theorem accDouble_near_of_neighbourhood {img : Image} (hwf : img.WF) {x y c : Int} {p : Nat}
    (hn : neighbourhood img x y c = List.replicate 9 p) (kernel : Matrix)
    (w : Fin 3 → Fin 3 → ℚ) (hk : ∀ r k, kernel r k = Double.fin (w r k))
    (hw : ∀ r k, |w r k| ≤ 2 ^ 35) :
    Near (accDouble img x y c kernel) ((∑ r : Fin 3, ∑ k : Fin 3, w r k) * (p : ℚ)) (15 / 64) := by
  have e : (2 : ℚ) ^ 47 / 4096 = 2 ^ 35 := by norm_num
  have h := accDouble_near 47 (by norm_num) hwf x y c kernel w hk
    (fun r k => by rw [e]; exact hw r k)
  rw [accSpec_of_neighbourhood hn] at h
  have e2 : (15 : ℚ) * ((2 : ℚ) ^ 47 / 2 ^ 53) = 15 / 64 := by norm_num
  rw [e2] at h
  exact h

theorem clamp_u8_eval {a r : ℚ} {n : Nat} (h0 : 0 ≤ a) (h1 : a ≤ 255)
    (hr : Double.fin a + Double.fin (1 / 2) = Double.fin r) (hn1 : (n : ℚ) ≤ r)
    (hn2 : r < (n : ℚ) + 1) (hn : n < 256) : clamp_u8 (Double.fin a) = n := by
  have hfl : ⌊r⌋ = (n : Int) := by
    rw [Int.floor_eq_iff]
    push_cast
    exact ⟨hn1, hn2⟩
  have hr0 : 0 ≤ r := le_trans (Nat.cast_nonneg n) hn1
  simp only [clamp_u8, Double.lt, hr, toU8, truncate, hr0, if_true, hfl, decide_eq_true_eq,
    not_lt.mpr h0, not_lt.mpr h1, if_false]
  omega

theorem algorithms_eq_ofConst {t : KernelTypes} {m : Matrix}
    (h : algorithms[t.toNat]? = some m) : m = Matrix.ofConst (catalog t) := by
  rw [algorithms_catalog t] at h
  exact (Option.some.inj h).symm

/-! ## C1: `getPixelValue` accumulates the weighted neighbourhood in double arithmetic -/

/-- C1, the claim refuted: on the 3x3 image with the samples 43, 11, 6, 37, 36, 40, 12, 23,
7 and nine weights `0.1`, at the centre `(1, 1)`: the nine rounded products, added from
left to right with a rounding after each sum, give `21.499999999999996`, and
`getPixelValue` returns 21; the exact sum, with the weights as the doubles they are or
as 1/10, is at least 21.5, and its round-and-saturate is 22. -/
theorem getPixelValue_differs_from_exact_sum :
    img3x3b.WF ∧ img3x3b.Valid 1 1 0 ∧
    (∀ r k : Fin 3, tenthKernel r k = Double.fin tenth) ∧ IsDouble tenth ∧
    neighbourhood img3x3b 1 1 0 = [43, 11, 6, 37, 36, 40, 12, 23, 7] ∧
    accDouble img3x3b 1 1 0 tenthKernel = Double.fin (6051711999279103 / 281474976710656) ∧
    getPixelValue img3x3b 1 1 0 tenthKernel = some 21 ∧
    saturate (roundHalfAway (∑ r : Fin 3, ∑ k : Fin 3,
      tenth * sample img3x3b (clampCoord (1 + ((k : Nat) : Int) - 1) 0 (img3x3b.width - 1))
        (clampCoord (1 + ((r : Nat) : Int) - 1) 0 (img3x3b.height - 1)) 0)) = 22 ∧
    saturate (roundHalfAway (∑ r : Fin 3, ∑ k : Fin 3,
      (1 / 10 : ℚ) * sample img3x3b (clampCoord (1 + ((k : Nat) : Int) - 1) 0 (img3x3b.width - 1))
        (clampCoord (1 + ((r : Nat) : Int) - 1) 0 (img3x3b.height - 1)) 0)) = 22 := by
  have hnb : neighbourhood img3x3b 1 1 0 = [43, 11, 6, 37, 36, 40, 12, 23, 7] := by decide
  have ht : List.zipWith (fun (w : ℚ) (s : Nat) => w * (s : ℚ))
      (rowMajor.map fun rk => (fun _ _ => tenth : Fin 3 → Fin 3 → ℚ) rk.1 rk.2) [43, 11, 6, 37, 36, 40, 12, 23, 7]
      = [154923827181545071 / 36028797018963968, 39631676720860367 / 36028797018963968,
        10808639105689191 / 18014398509481984, 133306548970166689 / 36028797018963968,
        32425917317067573 / 9007199254740992, 18014398509481985 / 4503599627370496,
        10808639105689191 / 9007199254740992, 82866233143617131 / 36028797018963968,
        25220157913274779 / 36028797018963968] := by
    simp only [rowMajor, List.map, List.zipWith, tenth]
    norm_num [Matrix.vecHead, Matrix.vecTail]
  have hacc : accDouble img3x3b 1 1 0 tenthKernel
      = Double.fin (6051711999279103 / 281474976710656) := by
    rw [accDouble_eval tenthKernel_apply hnb (by decide) ht, tenth_acc]
  have hsum : (((neighbourhood img3x3b 1 1 0).sum : Nat) : ℚ) = 215 := by
    rw [hnb]; norm_num
  have h1 : accSpec img3x3b 1 1 0 (fun _ _ => tenth) = tenth * 215 := by
    rw [accSpec_const_kernel, hsum]
  have h2 : accSpec img3x3b 1 1 0 (fun _ _ => (1 / 10 : ℚ)) = 1 / 10 * 215 := by
    rw [accSpec_const_kernel, hsum]
  refine ⟨by decide, by decide, tenthKernel_apply, isDouble_tenth, hnb, hacc, ?_, ?_, ?_⟩
  · rw [getPixelValue_eq_pixelValue tenthKernel (by decide) (by decide)]
    unfold pixelValue
    rw [hacc]
    congr 1
    refine clamp_u8_eval (r := 6192449487634431 / 281474976710656) (by norm_num) (by norm_num)
      ?_ (by norm_num) (by norm_num) (by norm_num)
    rw [Double.fin_add_fin, toDouble_cert_pos (6051711999279103 / 281474976710656 + 1 / 2) (-48)
      6192449487634431 (by norm_num) (by norm_num) (by norm_num) (by norm_num) (by norm_num)
      (by norm_num)]
    norm_num
  · have e := h1
    unfold accSpec at e
    rw [e]
    exact saturate_round_of_bounds (n := 22) (by norm_num) (by norm_num [tenth])
      (by norm_num [tenth]) (by norm_num [tenth])
  · have e := h2
    unfold accSpec at e
    rw [e]
    exact saturate_round_of_bounds (n := 22) (by norm_num) (by norm_num) (by norm_num)
      (by norm_num)

/-- C1 amended: for an image with positive dimensions, a valid `(x, y, c)` and every
kernel, `getPixelValue` returns `clamp_u8` of the double accumulation of the nine
products `kernel[dr+1][dc+1] * sample(clamp(x+dc), clamp(y+dr), c)`: each product is
rounded to a double, the products are added in row-major order (`dr` outer, `dc` inner)
and each partial sum is rounded; the kernel row follows the vertical offset, the column
the horizontal one.  That value is the round-and-saturate of the exact sum for each of
the six kernels of the table (with the weights of the catalog, 1/9 for Blur), for every
kernel whose weights are multiples of 1/16 of magnitude at most 65536, and for every
kernel with weights of magnitude at most `2^j / 4096`, `16 <= j <= 48`, when the exact
sum is at least `2^(j-49)` away from every tie `i + 1/2`. -/
theorem getPixelValue_refines_spec (img : Image) (x y c : Int) (kernel : Matrix)
    (hwf : img.WF) (hv : img.Valid x y c) :
    getPixelValue img x y c kernel =
      some (clamp_u8 (accSum (List.zipWith (fun (w : Double) (s : Nat) => w * Double.ofNat s)
        (rowMajor.map fun rk => kernel rk.1 rk.2)
        (rowMajor.map fun rk =>
          sampleNat img (clampCoord (x + ((rk.2 : Nat) : Int) - 1) 0 (img.width - 1))
            (clampCoord (y + ((rk.1 : Nat) : Int) - 1) 0 (img.height - 1)) c)))) ∧
    (∀ (t : KernelTypes) (m : Matrix), algorithms[t.toNat]? = some m →
      getPixelValue img x y c m =
        some (saturate (roundHalfAway (∑ r : Fin 3, ∑ k : Fin 3,
          catalog t r k * sample img (clampCoord (x + ((k : Nat) : Int) - 1) 0 (img.width - 1))
            (clampCoord (y + ((r : Nat) : Int) - 1) 0 (img.height - 1)) c)))) ∧
    (∀ m : Fin 3 → Fin 3 → Int, (∀ r k, kernel r k = Double.fin ((m r k : ℚ) / 16)) →
      (∀ r k, |m r k| ≤ 2 ^ 20) →
      getPixelValue img x y c kernel =
        some (saturate (roundHalfAway (∑ r : Fin 3, ∑ k : Fin 3,
          (m r k : ℚ) / 16 *
            sample img (clampCoord (x + ((k : Nat) : Int) - 1) 0 (img.width - 1))
              (clampCoord (y + ((r : Nat) : Int) - 1) 0 (img.height - 1)) c)))) ∧
    (∀ (j : Nat) (v : Fin 3 → Fin 3 → ℚ), 16 ≤ j → j ≤ 48 →
      (∀ r k, kernel r k = Double.fin (v r k)) → (∀ r k, |v r k| ≤ (2 : ℚ) ^ j / 4096) →
      (∀ i : Int, 0 ≤ i → i ≤ 254 → (2 : ℚ) ^ j / 2 ^ 49 ≤
        |(∑ r : Fin 3, ∑ k : Fin 3,
          v r k * sample img (clampCoord (x + ((k : Nat) : Int) - 1) 0 (img.width - 1))
            (clampCoord (y + ((r : Nat) : Int) - 1) 0 (img.height - 1)) c)
          - ((i : ℚ) + 1 / 2)|) →
      getPixelValue img x y c kernel =
        some (saturate (roundHalfAway (∑ r : Fin 3, ∑ k : Fin 3,
          v r k * sample img (clampCoord (x + ((k : Nat) : Int) - 1) 0 (img.width - 1))
            (clampCoord (y + ((r : Nat) : Int) - 1) 0 (img.height - 1)) c)))) := by
  have hlen := hwf.2.2.2.1
  refine ⟨getPixelValue_eq_pixelValue kernel hlen hv, fun t m hm => ?_, fun m hk hm => ?_,
    fun j v h16 h48 hk hb htie => ?_⟩
  · rw [algorithms_eq_ofConst hm, getPixelValue_eq_pixelValue _ hlen hv,
      pixelValue_catalog hwf x y c t]
    rfl
  · rw [getPixelValue_eq_pixelValue _ hlen hv, pixelValue_of_sixteenths hwf x y c kernel m hk hm]
    rfl
  · rw [getPixelValue_eq_pixelValue _ hlen hv,
      pixelValue_of_bounded j h16 h48 hwf x y c kernel v hk hb htie]
    rfl

/-- Witness of C1 amended on the two-channel 2x3 image, at the corner `(0, 0)`, channel 1,
with the Blur kernel of the table: the nine replicated samples sum to 1710 and the result
is 190. -/
theorem getPixelValue_refines_spec_witness :
    img2x3.WF ∧ img2x3.Valid 0 0 1 ∧ algorithms[KernelTypes.BLUR.toNat]? = some blurKernel ∧
    getPixelValue img2x3 0 0 1 blurKernel = some 190 := by
  refine ⟨by decide, by decide, rfl, ?_⟩
  rw [(getPixelValue_refines_spec img2x3 0 0 1 blurKernel (by decide) (by decide)).2.1
    KernelTypes.BLUR blurKernel rfl]
  have hsum : (((neighbourhood img2x3 0 0 1).sum : Nat) : ℚ) = 1710 := by
    have : (neighbourhood img2x3 0 0 1).sum = 1710 := by decide
    rw [this]; norm_num
  have h := accSpec_const_kernel img2x3 0 0 1 (1 / 9)
  rw [hsum, ← catalog_blur] at h
  unfold accSpec at h
  rw [h]
  congr 1
  exact saturate_round_of_bounds (n := 190) (by norm_num) (by norm_num) (by norm_num)
    (by norm_num)

/-! ## C2: the workers of the partition compute every destination sample -/

/-- C2: for an image with positive dimensions, a freshly allocated destination of the
same shape (arbitrary contents `d0`), every kernel and every `T` with `1 <= T <= height`,
the partition loop of `main` yields jobs, and once these workers have run (in any order)
the run has succeeded and every valid `(x, y, c)` of the destination holds
`getPixelValue(src, x, y, c, kernel)`: no sample is left unwritten. -/
theorem workers_compute_every_sample (src : Image) (d0 : List Nat) (kernel : Matrix) (T : Int)
    (hwf : src.WF) (hd : (d0.length : Int) = src.width * src.height * src.bpp)
    (hT1 : 1 ≤ T) (hT2 : T ≤ src.height) :
    ∃ jobs, mainJobs kernel src.height T = some jobs ∧
      ∀ order : List ThreadJob, order.Perm jobs →
        ∃ m2, runJobs order (mainState src d0) = some m2 ∧
          m2.destImage.data.length = d0.length ∧
          ∀ x y c, src.Valid x y c →
            (getPixelValue src x y c kernel).isSome = true ∧
            load m2.destImage.data (Index x y src.width c src.bpp) =
              getPixelValue src x y c kernel := by
  obtain ⟨jobs, hj, hrun⟩ := engine_spec hwf hd kernel hT1 hT2
  refine ⟨jobs, hj, fun order hperm => ?_⟩
  obtain ⟨m2, h1, h2⟩ := hrun order hperm
  refine ⟨m2, h1, h2.1.2.2.2.2, fun x y c hv => ?_⟩
  have e := getPixelValue_eq_pixelValue kernel hwf.2.2.2.1 hv
  rw [e]
  exact ⟨rfl, (h2.2 x y c hv).1 trivial⟩

/-- Witness of C2: the 1x4 image, three workers, a destination filled with 7. -/
theorem workers_compute_every_sample_witness :
    img1x4.WF ∧ (1 : Int) ≤ 3 ∧ (3 : Int) ≤ img1x4.height ∧
    ∃ jobs, mainJobs blurKernel img1x4.height 3 = some jobs ∧
      ∀ order : List ThreadJob, order.Perm jobs →
        ∃ m2, runJobs order (mainState img1x4 [7, 7, 7, 7]) = some m2 ∧
          m2.destImage.data.length = [7, 7, 7, 7].length ∧
          ∀ x y c, img1x4.Valid x y c →
            (getPixelValue img1x4 x y c blurKernel).isSome = true ∧
            load m2.destImage.data (Index x y img1x4.width c img1x4.bpp) =
              getPixelValue img1x4 x y c blurKernel :=
  ⟨by decide, by decide, by decide,
    workers_compute_every_sample img1x4 [7, 7, 7, 7] blurKernel 3 (by decide) (by decide)
      (by decide) (by decide)⟩

/-! ## C3: the result does not depend on the thread count or on the order of the workers -/

/-- C3: for every image, kernel `K` and `T` with `1 <= T <= height`, a single worker over
rows `[0, height)` (the partition for one thread) succeeds, and running the `T` workers of
the partition of `main`, in any order, ends in the very same state: the destination
buffers are identical sample for sample. -/
theorem partition_independent (src : Image) (d0 : List Nat) (K : Matrix) (T : Int)
    (hwf : src.WF) (hd : (d0.length : Int) = src.width * src.height * src.bpp)
    (hT1 : 1 ≤ T) (hT2 : T ≤ src.height) :
    mainJobs K src.height 1 = some [{ kernel := K, row_start := 0, row_end := src.height }] ∧
    ∃ jobs out, mainJobs K src.height T = some jobs ∧
      runJobs [{ kernel := K, row_start := 0, row_end := src.height }] (mainState src d0)
        = some out ∧
      ∀ order : List ThreadJob, order.Perm jobs →
        runJobs order (mainState src d0) = some out := by
  have hone := mainJobs_one K (by omega : 0 ≤ src.height)
  obtain ⟨jobs1, hj1, hrun1⟩ := engine_spec hwf hd K (le_refl 1) (by omega : 1 ≤ src.height)
  rw [hone] at hj1
  obtain ⟨out, ho1, ho2⟩ := hrun1 _ (by rw [← Option.some.inj hj1])
  obtain ⟨jobs, hj, hrun⟩ := engine_spec hwf hd K hT1 hT2
  refine ⟨hone, jobs, out, hj, ho1, fun order hperm => ?_⟩
  obtain ⟨m2, h1, h2⟩ := hrun order hperm
  rw [h1, Upd.unique (WF.ready hwf hd) h2 ho2 (fun _ _ _ _ => trivial) (fun _ _ _ _ => trivial)]

/-- Witness of C3: the two-channel 2x3 image, the Blur kernel and two workers. -/
theorem partition_independent_witness :
    img2x3.WF ∧ (1 : Int) ≤ 2 ∧ (2 : Int) ≤ img2x3.height ∧
    (mainJobs blurKernel img2x3.height 1 =
        some [{ kernel := blurKernel, row_start := 0, row_end := img2x3.height }] ∧
    ∃ jobs out, mainJobs blurKernel img2x3.height 2 = some jobs ∧
      runJobs [{ kernel := blurKernel, row_start := 0, row_end := img2x3.height }]
        (mainState img2x3 (List.replicate 12 0)) = some out ∧
      ∀ order : List ThreadJob, order.Perm jobs →
        runJobs order (mainState img2x3 (List.replicate 12 0)) = some out) :=
  ⟨by decide, by decide, by decide,
    partition_independent img2x3 (List.replicate 12 0) blurKernel 2 (by decide) (by decide)
      (by decide) (by decide)⟩

/-! ## C4: the row ranges of the partition -/

theorem jobAt_size (kernel : Matrix) (base rem : Int) (n : Nat) :
    (jobAt kernel base rem n).row_end - (jobAt kernel base rem n).row_start =
      base + (if (n : Int) < rem then 1 else 0) := by
  simp only [jobAt, rowStart_succ]
  omega

/-- C4: for `1 <= T <= height` the partition loop of `main` yields `T` ranges; range `i`
has `height / T` rows plus one exactly when `i < height % T`; the first range starts at
0, each next range starts where the previous one ends, the last range ends at `height`;
every row of `[0, height)` lies in exactly one range; two range sizes differ by at most
one. -/
theorem partition_covers_rows (kernel : Matrix) (height T : Int) (hT1 : 1 ≤ T)
    (hT2 : T ≤ height) :
    ∃ jobs : List ThreadJob, mainJobs kernel height T = some jobs ∧
      (jobs.length : Int) = T ∧
      (∀ i (hi : i < jobs.length), jobs[i].row_end - jobs[i].row_start =
        height / T + (if (i : Int) < height % T then 1 else 0)) ∧
      (∀ h0 : 0 < jobs.length, jobs[0].row_start = 0) ∧
      (∀ i (hi : i + 1 < jobs.length), jobs[i + 1].row_start = jobs[i].row_end) ∧
      (∀ hl : jobs.length - 1 < jobs.length, jobs[jobs.length - 1].row_end = height) ∧
      (∀ y, 0 ≤ y → y < height →
        ∃! i : Nat, ∃ hi : i < jobs.length, jobs[i].row_start ≤ y ∧ y < jobs[i].row_end) ∧
      (∀ i j (hi : i < jobs.length) (hj : j < jobs.length),
        (jobs[i].row_end - jobs[i].row_start) - (jobs[j].row_end - jobs[j].row_start) ≤ 1) := by
  have hT : 0 < T := by omega
  have hrem : 0 ≤ height % T := Int.emod_nonneg _ hT.ne'
  have hbase : 0 ≤ height / T := Int.ediv_nonneg (by omega) hT.le
  refine ⟨_, mainJobs_eq kernel hT (by omega), ?_, ?_, ?_, ?_, ?_, ?_, ?_⟩
  · simp only [List.length_map, List.length_range]; omega
  · intro i hi
    simp only [List.getElem_map, List.getElem_range, jobAt_size]
  · intro h0
    simp only [List.getElem_map, List.getElem_range, jobAt]
    exact rowStart_zero _ _ hrem
  · intro i hi
    simp only [List.getElem_map, List.getElem_range, jobAt]
  · intro hl
    simp only [List.length_map, List.length_range] at hl
    simp only [List.getElem_map, List.getElem_range, jobAt, List.length_map, List.length_range]
    have e : T.toNat - 1 + 1 = T.toNat := by omega
    rw [e, rowStart_last hT]
  · intro y hy0 hy
    obtain ⟨i, hi, h1, h2⟩ := rowStart_find (height / T) (height % T) y T.toNat
      (by rw [rowStart_zero _ _ hrem]; exact hy0) (by rw [rowStart_last hT]; exact hy)
    refine ⟨i, ⟨by simpa using hi, ?_⟩, ?_⟩
    · simp only [List.getElem_map, List.getElem_range, jobAt]
      exact ⟨h1, h2⟩
    · rintro k ⟨hk, h3, h4⟩
      simp only [List.getElem_map, List.getElem_range, jobAt] at h3 h4
      by_contra hne
      rcases Nat.lt_or_gt_of_ne hne with hlt | hgt
      · have := rowStart_mono (height / T) (height % T) hbase (by omega : k + 1 ≤ i)
        omega
      · have := rowStart_mono (height / T) (height % T) hbase (by omega : i + 1 ≤ k)
        omega
  · intro i j hi hj
    simp only [List.getElem_map, List.getElem_range, jobAt_size]
    split <;> split <;> omega

/-- Witness of C4: ten rows on three threads give the ranges `[0,4)`, `[4,7)`, `[7,10)`. -/
theorem partition_covers_rows_witness :
    (mainJobs identityKernel 10 3).map (fun js => js.map fun j => (j.row_start, j.row_end))
      = some [(0, 4), (4, 7), (7, 10)] ∧
    (1 : Int) ≤ 3 ∧ (3 : Int) ≤ 10 ∧
    ∃ jobs : List ThreadJob, mainJobs identityKernel 10 3 = some jobs ∧
      (jobs.length : Int) = 3 ∧
      (∀ i (hi : i < jobs.length), jobs[i].row_end - jobs[i].row_start =
        (10 : Int) / 3 + (if (i : Int) < (10 : Int) % 3 then 1 else 0)) ∧
      (∀ h0 : 0 < jobs.length, jobs[0].row_start = 0) ∧
      (∀ i (hi : i + 1 < jobs.length), jobs[i + 1].row_start = jobs[i].row_end) ∧
      (∀ hl : jobs.length - 1 < jobs.length, jobs[jobs.length - 1].row_end = 10) ∧
      (∀ y, 0 ≤ y → y < (10 : Int) →
        ∃! i : Nat, ∃ hi : i < jobs.length, jobs[i].row_start ≤ y ∧ y < jobs[i].row_end) ∧
      (∀ i j (hi : i < jobs.length) (hj : j < jobs.length),
        (jobs[i].row_end - jobs[i].row_start) - (jobs[j].row_end - jobs[j].row_start) ≤ 1) :=
  ⟨by decide, by decide, by decide,
    partition_covers_rows identityKernel 10 3 (by decide) (by decide)⟩

/-! ## C5: the Identity kernel returns the source -/

/-- C5: for an image with positive dimensions and a valid thread count `T`, with the
Identity kernel `getPixelValue` returns the source sample at every valid `(x, y, c)`, and
the workers of the partition, run in any order from any initial destination, leave a
destination image equal to the source. -/
theorem identity_returns_source (src : Image) (d0 : List Nat) (T : Int)
    (hwf : src.WF) (hd : (d0.length : Int) = src.width * src.height * src.bpp)
    (hT1 : 1 ≤ T) (hT2 : T ≤ src.height) :
    (∀ x y c, src.Valid x y c →
      getPixelValue src x y c identityKernel =
        load src.data (Index x y src.width c src.bpp)) ∧
    ∃ jobs, mainJobs identityKernel src.height T = some jobs ∧
      ∀ order : List ThreadJob, order.Perm jobs →
        runJobs order (mainState src d0) = some { srcImage := src, destImage := src } := by
  refine ⟨fun x y c hv => ?_, engine_fixed_point hwf hd identityKernel hT1 hT2
    (fun x y c hv => pixelValue_identity hwf hv)⟩
  rw [getPixelValue_eq_pixelValue identityKernel hwf.2.2.2.1 hv, load_valid hwf.2.2.2.1 hv,
    pixelValue_identity hwf hv]

/-- Witness of C5: the samples `[0, 255, 0, 255]` come back unchanged for thread counts
1 to 4, both as four rows of one column and as one row of four columns (where `main`
reduces every count to one thread). -/
theorem identity_returns_source_witness :
    mainConvolve img1x4 [9, 9, 9, 9] identityKernel 1
      = some { srcImage := img1x4, destImage := img1x4 } ∧
    mainConvolve img1x4 [9, 9, 9, 9] identityKernel 2
      = some { srcImage := img1x4, destImage := img1x4 } ∧
    mainConvolve img1x4 [9, 9, 9, 9] identityKernel 3
      = some { srcImage := img1x4, destImage := img1x4 } ∧
    mainConvolve img1x4 [9, 9, 9, 9] identityKernel 4
      = some { srcImage := img1x4, destImage := img1x4 } ∧
    mainConvolve img4x1 [9, 9, 9, 9] identityKernel 1
      = some { srcImage := img4x1, destImage := img4x1 } ∧
    mainConvolve img4x1 [9, 9, 9, 9] identityKernel 2
      = some { srcImage := img4x1, destImage := img4x1 } ∧
    mainConvolve img4x1 [9, 9, 9, 9] identityKernel 3
      = some { srcImage := img4x1, destImage := img4x1 } ∧
    mainConvolve img4x1 [9, 9, 9, 9] identityKernel 4
      = some { srcImage := img4x1, destImage := img4x1 } := by
  refine ⟨?_, ?_, ?_, ?_, ?_, ?_, ?_, ?_⟩
  · obtain ⟨jobs, hj, h⟩ := (identity_returns_source img1x4 [9, 9, 9, 9] 1 (by decide)
      (by decide) (by decide) (by decide)).2
    have e : clampThreads 1 img1x4.height = 1 := by decide
    rw [mainConvolve, e, hj]; exact h jobs (List.Perm.refl _)
  · obtain ⟨jobs, hj, h⟩ := (identity_returns_source img1x4 [9, 9, 9, 9] 2 (by decide)
      (by decide) (by decide) (by decide)).2
    have e : clampThreads 2 img1x4.height = 2 := by decide
    rw [mainConvolve, e, hj]; exact h jobs (List.Perm.refl _)
  · obtain ⟨jobs, hj, h⟩ := (identity_returns_source img1x4 [9, 9, 9, 9] 3 (by decide)
      (by decide) (by decide) (by decide)).2
    have e : clampThreads 3 img1x4.height = 3 := by decide
    rw [mainConvolve, e, hj]; exact h jobs (List.Perm.refl _)
  · obtain ⟨jobs, hj, h⟩ := (identity_returns_source img1x4 [9, 9, 9, 9] 4 (by decide)
      (by decide) (by decide) (by decide)).2
    have e : clampThreads 4 img1x4.height = 4 := by decide
    rw [mainConvolve, e, hj]; exact h jobs (List.Perm.refl _)
  · obtain ⟨jobs, hj, h⟩ := (identity_returns_source img4x1 [9, 9, 9, 9] 1 (by decide)
      (by decide) (by decide) (by decide)).2
    have e : clampThreads 1 img4x1.height = 1 := by decide
    rw [mainConvolve, e, hj]; exact h jobs (List.Perm.refl _)
  · obtain ⟨jobs, hj, h⟩ := (identity_returns_source img4x1 [9, 9, 9, 9] 1 (by decide)
      (by decide) (by decide) (by decide)).2
    have e : clampThreads 2 img4x1.height = 1 := by decide
    rw [mainConvolve, e, hj]; exact h jobs (List.Perm.refl _)
  · obtain ⟨jobs, hj, h⟩ := (identity_returns_source img4x1 [9, 9, 9, 9] 1 (by decide)
      (by decide) (by decide) (by decide)).2
    have e : clampThreads 3 img4x1.height = 1 := by decide
    rw [mainConvolve, e, hj]; exact h jobs (List.Perm.refl _)
  · obtain ⟨jobs, hj, h⟩ := (identity_returns_source img4x1 [9, 9, 9, 9] 1 (by decide)
      (by decide) (by decide) (by decide)).2
    have e : clampThreads 4 img4x1.height = 1 := by decide
    rw [mainConvolve, e, hj]; exact h jobs (List.Perm.refl _)

/-! ## C6: `clamp_u8` on doubles -/

/-- C7, the claim refuted: on the 1x1 image with the sample 1 and the kernel whose centre
weight is the largest double below 1/2 (0 elsewhere), the accumulated double is that
weight, `clamp_u8` adds 0.5 to it in double arithmetic and gets 1, the output sample is 1;
the sum of the nine weights times the sample rounds to 0. -/
theorem one_by_one_image_misrounds :
    img1.WF ∧ img1.width = 1 ∧ img1.height = 1 ∧
    (∀ r k : Fin 3, halfKernel r k = Double.fin (halfWeights r k)) ∧
    (∑ r : Fin 3, ∑ k : Fin 3, halfWeights r k) = predHalf ∧ IsDouble predHalf ∧
    getPixelValue img1 0 0 0 halfKernel = some 1 ∧
    saturate (roundHalfAway
      ((∑ r : Fin 3, ∑ k : Fin 3, halfWeights r k) * ((img1.data.getD 0 0 : Nat) : ℚ))) = 0 := by
  have hs : (∑ r : Fin 3, ∑ k : Fin 3, halfWeights r k) = predHalf := by
    norm_num [Fin.sum_univ_three, halfWeights, predHalf, Matrix.vecHead, Matrix.vecTail]
  have hnb : neighbourhood img1 0 0 0 = [1, 1, 1, 1, 1, 1, 1, 1, 1] := by decide
  have ht : List.zipWith (fun (w : ℚ) (s : Nat) => w * (s : ℚ))
      (rowMajor.map fun rk => halfWeights rk.1 rk.2) [1, 1, 1, 1, 1, 1, 1, 1, 1]
      = [0, 0, 0, 0, 9007199254740991 / 18014398509481984, 0, 0, 0, 0] := by
    simp only [rowMajor, List.map, List.zipWith, halfWeights]
    norm_num [Matrix.vecHead, Matrix.vecTail]
  have hacc : accDouble img1 0 0 0 halfKernel = Double.fin (9007199254740991 / 18014398509481984) := by
    rw [accDouble_eval halfKernel_apply hnb (by decide) ht, half_acc]
  refine ⟨by decide, rfl, rfl, halfKernel_apply, hs, isDouble_predHalf, ?_, ?_⟩
  · rw [getPixelValue_eq_pixelValue halfKernel (by decide) (by decide)]
    unfold pixelValue
    rw [hacc]
    congr 1
    exact clamp_u8_predHalf
  · rw [hs]
    have e : ((img1.data.getD 0 0 : Nat) : ℚ) = 1 := by
      have : img1.data.getD 0 0 = 1 := by decide
      rw [this]; norm_num
    rw [e, mul_one]
    exact saturate_round_predHalf

/-- C7 amended: for a 1x1 image with `bpp >= 1` channels (samples in `[0, 255]`), every
channel `c` and every kernel: the clamped neighbour coordinates computed by
`getPixelValue` are all 0, as are the nine clamped coordinates of the spec, so the
neighbourhood is nine copies of the sample `p` of the channel; `getPixelValue` returns
`clamp_u8` of the double accumulation of the nine products `weight * p`, and the engine
stores that value as output sample `c`.  That value is the sum of the nine weights times
`p`, rounded and saturated, for each of the six kernels of the table, and for every kernel
with weights of magnitude at most `2^j / 4096`, `16 <= j <= 48`, when the sum times `p`
is at least `2^(j-49)` away from every tie `i + 1/2`. -/
theorem one_by_one_image (img : Image) (c : Int) (kernel : Matrix) (d0 : List Nat)
    (hwf : img.WF) (hw : img.width = 1) (hh : img.height = 1) (hc0 : 0 ≤ c) (hc : c < img.bpp)
    (hd : (d0.length : Int) = img.width * img.height * img.bpp) :
    clampedNeighbours img 0 0 = (0, 0, 0, 0) ∧
    (∀ r k : Fin 3, clampCoord (0 + ((k : Nat) : Int) - 1) 0 (img.width - 1) = 0 ∧
      clampCoord (0 + ((r : Nat) : Int) - 1) 0 (img.height - 1) = 0) ∧
    load img.data c = some (img.data.getD c.toNat 0) ∧ img.data.getD c.toNat 0 ≤ 255 ∧
    neighbourhood img 0 0 c = List.replicate 9 (img.data.getD c.toNat 0) ∧
    getPixelValue img 0 0 c kernel =
      some (clamp_u8 (accSum ((rowMajor.map fun rk => kernel rk.1 rk.2).map
        fun w => w * Double.ofNat (img.data.getD c.toNat 0)))) ∧
    (∀ (t : KernelTypes) (m : Matrix), algorithms[t.toNat]? = some m →
      getPixelValue img 0 0 c m =
        some (saturate (roundHalfAway
          ((∑ r : Fin 3, ∑ k : Fin 3, catalog t r k) *
            ((img.data.getD c.toNat 0 : Nat) : ℚ))))) ∧
    (∀ (j : Nat) (v : Fin 3 → Fin 3 → ℚ), 16 ≤ j → j ≤ 48 →
      (∀ r k, kernel r k = Double.fin (v r k)) → (∀ r k, |v r k| ≤ (2 : ℚ) ^ j / 4096) →
      (∀ i : Int, 0 ≤ i → i ≤ 254 → (2 : ℚ) ^ j / 2 ^ 49 ≤
        |(∑ r : Fin 3, ∑ k : Fin 3, v r k) * ((img.data.getD c.toNat 0 : Nat) : ℚ)
          - ((i : ℚ) + 1 / 2)|) →
      getPixelValue img 0 0 c kernel =
        some (saturate (roundHalfAway
          ((∑ r : Fin 3, ∑ k : Fin 3, v r k) * ((img.data.getD c.toNat 0 : Nat) : ℚ))))) ∧
    ∃ jobs, mainJobs kernel img.height 1 = some jobs ∧
      ∀ order : List ThreadJob, order.Perm jobs →
        ∃ m2, runJobs order (mainState img d0) = some m2 ∧
          load m2.destImage.data c = getPixelValue img 0 0 c kernel := by
  have hv : img.Valid 0 0 c := ⟨le_rfl, by omega, le_rfl, by omega, hc0, hc⟩
  have hlen := hwf.2.2.2.1
  have hidx : Index 0 0 img.width c img.bpp = c := by simp [Index]
  have hcl : ∀ r k : Fin 3, clampCoord (0 + ((k : Nat) : Int) - 1) 0 (img.width - 1) = 0 ∧
      clampCoord (0 + ((r : Nat) : Int) - 1) 0 (img.height - 1) = 0 := by
    intro r k
    rw [hw, hh]
    unfold clampCoord
    omega
  have hnb := neighbourhood_one_by_one hw hh c
  have hload := load_valid hlen hv
  rw [hidx] at hload
  refine ⟨?_, hcl, hload, ?_, hnb, getPixelValue_of_neighbourhood kernel hlen hv hnb,
    fun t m hm => ?_, fun j v h16 h48 hk hb htie => ?_, ?_⟩
  · simp [clampedNeighbours, hw, hh]
  · have := getD_lt_256 hwf c.toNat
    omega
  · rw [algorithms_eq_ofConst hm, getPixelValue_eq_pixelValue _ hlen hv,
      pixelValue_catalog hwf 0 0 c t]
    unfold pixelSpec
    rw [accSpec_of_neighbourhood hnb]
  · rw [getPixelValue_eq_pixelValue _ hlen hv,
      pixelValue_of_bounded j h16 h48 hwf 0 0 c kernel v hk hb
        (by rw [accSpec_of_neighbourhood hnb]; exact htie)]
    unfold pixelSpec
    rw [accSpec_of_neighbourhood hnb]
  · obtain ⟨jobs, hj, hrun⟩ := engine_spec hwf hd kernel (le_refl 1) (by omega : 1 ≤ img.height)
    refine ⟨jobs, hj, fun order hperm => ?_⟩
    obtain ⟨m2, h1, h2⟩ := hrun order hperm
    refine ⟨m2, h1, ?_⟩
    have h3 := (h2.2 0 0 c hv).1 trivial
    simp only [mainState] at h3
    rw [hidx] at h3
    rw [h3, getPixelValue_eq_pixelValue kernel hlen hv]

/-- Witness of C7 amended: a 1x1 image with three channels, channel 1 (sample 200), the
Blur kernel of the table: the output sample is 200. -/
theorem one_by_one_image_witness :
    img1x1.WF ∧ img1x1.width = 1 ∧ img1x1.height = 1 ∧
    clampedNeighbours img1x1 0 0 = (0, 0, 0, 0) ∧
    neighbourhood img1x1 0 0 1 = List.replicate 9 200 ∧
    (∑ r : Fin 3, ∑ k : Fin 3, catalog KernelTypes.BLUR r k) = 1 ∧
    getPixelValue img1x1 0 0 1 blurKernel = some 200 := by
  have h := one_by_one_image img1x1 1 blurKernel [0, 0, 0] (by decide) (by decide) (by decide)
    (by decide) (by decide) (by decide)
  have hs : (∑ r : Fin 3, ∑ k : Fin 3, catalog KernelTypes.BLUR r k) = 1 := by
    rw [catalog_blur]
    simp [Fin.sum_univ_three]
    norm_num
  refine ⟨by decide, by decide, by decide, h.1, h.2.2.2.2.1, hs, ?_⟩
  rw [h.2.2.2.2.2.2.1 KernelTypes.BLUR blurKernel rfl, hs, one_mul]
  congr 1
  exact saturate_round_natCast (getD_lt_256 (by decide) _)

/-! ## C8: uniform images -/

/-- C8, the claim refuted: the weights `1e17, 1, -1e17, 0, 0, 0, 0, 0, 0` are doubles and
sum to exactly 1, and on the 3x3 all-128 image `getPixelValue` returns 0 at the centre:
the double sum `1.28e19 + 128` is `1.28e19`, so the accumulated double is 0, not 128. -/
theorem uniform_image_not_fixed :
    img3x3.WF ∧ (∀ b ∈ img3x3.data, b = 128) ∧ img3x3.Valid 1 1 0 ∧
    (∀ r k : Fin 3, cancelKernel r k = Double.fin (cancelWeights r k)) ∧
    (∑ r : Fin 3, ∑ k : Fin 3, cancelWeights r k) = 1 ∧
    accDouble img3x3 1 1 0 cancelKernel = Double.fin 0 ∧
    getPixelValue img3x3 1 1 0 cancelKernel = some 0 ∧
    getPixelValue img3x3 1 1 0 cancelKernel ≠ some 128 := by
  have hnb : neighbourhood img3x3 1 1 0 = [128, 128, 128, 128, 128, 128, 128, 128, 128] := by decide
  have ht : List.zipWith (fun (w : ℚ) (s : Nat) => w * (s : ℚ))
      (rowMajor.map fun rk => cancelWeights rk.1 rk.2) [128, 128, 128, 128, 128, 128, 128, 128, 128]
      = [12800000000000000000, 128, (-12800000000000000000), 0, 0, 0, 0, 0, 0] := by
    simp only [rowMajor, List.map, List.zipWith, cancelWeights]
    norm_num [Matrix.vecHead, Matrix.vecTail]
  have hacc : accDouble img3x3 1 1 0 cancelKernel = Double.fin 0 := by
    rw [accDouble_eval cancelKernel_apply hnb (by decide) ht, cancel_acc]
  have hget : getPixelValue img3x3 1 1 0 cancelKernel = some 0 := by
    rw [getPixelValue_eq_pixelValue cancelKernel (by decide) (by decide)]
    unfold pixelValue
    rw [hacc]
    congr 1
    have := clamp_u8_natCast (n := 0) (by norm_num)
    simpa using this
  refine ⟨by decide, by decide, by decide, cancelKernel_apply, ?_, hacc, hget, ?_⟩
  · norm_num [Fin.sum_univ_three, cancelWeights, Matrix.vecHead, Matrix.vecTail]
  · rw [hget]
    decide

/-- C8 amended: for an image with positive dimensions all of whose samples equal `v`,
with `v <= 255`: at every valid `(x, y, c)`, border or interior, the neighbourhood is nine
copies of `v` and `getPixelValue` returns `clamp_u8` of the double accumulation of the
nine products `weight * v`, whatever the position.  For every kernel whose weights are of
magnitude at most `2^35` and sum to 1 within `2^-10`, and so for the five kernels of the
table whose catalog weights sum to 1 (the Blur cells being the double nearest 1/9),
`getPixelValue` returns `v` at every valid `(x, y, c)` and the engine (any valid thread
count, any order of the workers) leaves a destination equal to the source. -/
theorem uniform_image_fixed_point (img : Image) (v : Nat) (d0 : List Nat)
    (T : Int) (hwf : img.WF) (huni : ∀ b ∈ img.data, b = v) (hv255 : v ≤ 255)
    (hd : (d0.length : Int) = img.width * img.height * img.bpp)
    (hT1 : 1 ≤ T) (hT2 : T ≤ img.height) :
    (∀ (kernel : Matrix) (x y c : Int), img.Valid x y c →
      neighbourhood img x y c = List.replicate 9 v ∧
      getPixelValue img x y c kernel =
        some (clamp_u8 (accSum ((rowMajor.map fun rk => kernel rk.1 rk.2).map
          fun w => w * Double.ofNat v)))) ∧
    (∀ (kernel : Matrix) (w : Fin 3 → Fin 3 → ℚ), (∀ r k, kernel r k = Double.fin (w r k)) →
      (∀ r k, |w r k| ≤ 2 ^ 35) → |(∑ r : Fin 3, ∑ k : Fin 3, w r k) - 1| ≤ 1 / 2 ^ 10 →
      (∀ x y c, img.Valid x y c → getPixelValue img x y c kernel = some v) ∧
      ∃ jobs, mainJobs kernel img.height T = some jobs ∧
        ∀ order : List ThreadJob, order.Perm jobs →
          runJobs order (mainState img d0) = some { srcImage := img, destImage := img }) ∧
    (∀ (t : KernelTypes) (m : Matrix), algorithms[t.toNat]? = some m →
      (∑ r : Fin 3, ∑ k : Fin 3, catalog t r k) = 1 →
      (∀ x y c, img.Valid x y c → getPixelValue img x y c m = some v) ∧
      ∃ jobs, mainJobs m img.height T = some jobs ∧
        ∀ order : List ThreadJob, order.Perm jobs →
          runJobs order (mainState img d0) = some { srcImage := img, destImage := img }) := by
  have hlen := hwf.2.2.2.1
  have hvq : (v : ℚ) ≤ 255 := by exact_mod_cast hv255
  have hv0 : (0 : ℚ) ≤ (v : ℚ) := Nat.cast_nonneg v
  refine ⟨fun kernel x y c hv => ⟨neighbourhood_uniform hwf huni hv,
    getPixelValue_of_neighbourhood kernel hlen hv (neighbourhood_uniform hwf huni hv)⟩,
    fun kernel w hk hw hsum => ?_, fun t m hm hsum => ?_⟩
  · have hpix : ∀ x y c, img.Valid x y c → pixelValue img x y c kernel = v := by
      intro x y c hv
      have hn := accDouble_near_of_neighbourhood hwf (neighbourhood_uniform hwf huni hv) kernel w
        hk hw
      have hshift : |(∑ r : Fin 3, ∑ k : Fin 3, w r k) * (v : ℚ) - (v : ℚ)| ≤ 255 / 1024 := by
        have e : (∑ r : Fin 3, ∑ k : Fin 3, w r k) * (v : ℚ) - (v : ℚ)
            = ((∑ r : Fin 3, ∑ k : Fin 3, w r k) - 1) * (v : ℚ) := by ring
        rw [e, abs_mul, abs_of_nonneg hv0]
        calc |(∑ r : Fin 3, ∑ k : Fin 3, w r k) - 1| * (v : ℚ)
            ≤ 1 / 2 ^ 10 * 255 := mul_le_mul hsum hvq hv0 (by norm_num)
          _ = 255 / 1024 := by norm_num
      unfold pixelValue
      exact clamp_u8_of_near (μ := 1 / 2) (hn.shift hshift) (by norm_num) hv255
        (Or.inl (by linarith)) (Or.inl (by linarith))
    refine ⟨fun x y c hv => ?_, engine_fixed_point hwf hd kernel hT1 hT2 (fun x y c hv => ?_)⟩
    · rw [getPixelValue_eq_pixelValue kernel hlen hv, hpix x y c hv]
    · rw [hpix x y c hv, getD_uniform huni hlen hv]
  · have hpix : ∀ x y c, img.Valid x y c → pixelValue img x y c m = v := by
      intro x y c hv
      rw [algorithms_eq_ofConst hm, pixelValue_catalog hwf x y c t]
      unfold pixelSpec
      rw [accSpec_of_neighbourhood (neighbourhood_uniform hwf huni hv), hsum, one_mul]
      exact saturate_round_natCast (by omega)
    refine ⟨fun x y c hv => ?_, engine_fixed_point hwf hd m hT1 hT2 (fun x y c hv => ?_)⟩
    · rw [getPixelValue_eq_pixelValue m hlen hv, hpix x y c hv]
    · rw [hpix x y c hv, getD_uniform huni hlen hv]

/-- Witness of C8 amended: the 3x3 all-128 image and the Blur kernel of the table give the
3x3 all-128 image, here with two threads. -/
theorem uniform_image_fixed_point_witness :
    img3x3.WF ∧ (∀ b ∈ img3x3.data, b = 128) ∧
    algorithms[KernelTypes.BLUR.toNat]? = some blurKernel ∧
    (∑ r : Fin 3, ∑ k : Fin 3, catalog KernelTypes.BLUR r k) = 1 ∧
    getPixelValue img3x3 0 0 0 blurKernel = some 128 ∧
    getPixelValue img3x3 1 1 0 blurKernel = some 128 ∧
    mainConvolve img3x3 [0, 0, 0, 0, 0, 0, 0, 0, 0] blurKernel 2
      = some { srcImage := img3x3, destImage := img3x3 } := by
  have hs : (∑ r : Fin 3, ∑ k : Fin 3, catalog KernelTypes.BLUR r k) = 1 := by
    rw [catalog_blur]
    simp [Fin.sum_univ_three]
    norm_num
  have h := (uniform_image_fixed_point img3x3 128 [0, 0, 0, 0, 0, 0, 0, 0, 0] 2
    (by decide) (by decide) (by decide) (by decide) (by decide) (by decide)).2.2
    KernelTypes.BLUR blurKernel rfl hs
  obtain ⟨h1, jobs, hj, h2⟩ := h
  refine ⟨by decide, by decide, rfl, hs, h1 0 0 0 (by decide), h1 1 1 0 (by decide), ?_⟩
  have e : clampThreads 2 img3x3.height = 2 := by decide
  rw [mainConvolve, e, hj]
  exact h2 jobs (List.Perm.refl _)

/-! ## C9: saturation at 255 -/

/-- C9, the claim refuted: the weights `1e17, 2, -1e17, 0, 0, 0, 0, 0, 0` are doubles and
sum to 2, and on the 2x2 all-255 image `getPixelValue` returns 0: the double sum
`2.55e19 + 510` is `2.55e19`, so the accumulated double is 0 and no saturation takes
place. -/
theorem saturation_fails_by_cancellation :
    img2x2.WF ∧ (∀ b ∈ img2x2.data, b = 255) ∧ img2x2.Valid 0 0 0 ∧
    (∀ r k : Fin 3, cancelKernel2 r k = Double.fin (cancelWeights2 r k)) ∧
    (1 : ℚ) < ∑ r : Fin 3, ∑ k : Fin 3, cancelWeights2 r k ∧
    accDouble img2x2 0 0 0 cancelKernel2 = Double.fin 0 ∧
    getPixelValue img2x2 0 0 0 cancelKernel2 = some 0 ∧
    getPixelValue img2x2 0 0 0 cancelKernel2 ≠ some 255 := by
  have hnb : neighbourhood img2x2 0 0 0 = [255, 255, 255, 255, 255, 255, 255, 255, 255] := by decide
  have ht : List.zipWith (fun (w : ℚ) (s : Nat) => w * (s : ℚ))
      (rowMajor.map fun rk => cancelWeights2 rk.1 rk.2) [255, 255, 255, 255, 255, 255, 255, 255, 255]
      = [25500000000000000000, 510, (-25500000000000000000), 0, 0, 0, 0, 0, 0] := by
    simp only [rowMajor, List.map, List.zipWith, cancelWeights2]
    norm_num [Matrix.vecHead, Matrix.vecTail]
  have hacc : accDouble img2x2 0 0 0 cancelKernel2 = Double.fin 0 := by
    rw [accDouble_eval cancelKernel2_apply hnb (by decide) ht, cancel2_acc]
  have hget : getPixelValue img2x2 0 0 0 cancelKernel2 = some 0 := by
    rw [getPixelValue_eq_pixelValue cancelKernel2 (by decide) (by decide)]
    unfold pixelValue
    rw [hacc]
    congr 1
    have := clamp_u8_natCast (n := 0) (by norm_num)
    simpa using this
  refine ⟨by decide, by decide, by decide, cancelKernel2_apply, ?_, hacc, hget, ?_⟩
  · norm_num [Fin.sum_univ_three, cancelWeights2, Matrix.vecHead, Matrix.vecTail]
  · rw [hget]
    decide

/-- C9 amended: `clamp_u8` stores every double above 255, `+inf` included, as 255: the
value is never reduced modulo 256.  For an image with positive dimensions all of whose
samples are 255, `getPixelValue` returns `clamp_u8` of the double accumulation of the
nine products `weight * 255`; and for every kernel whose weights are of magnitude at most
`2^35` and sum to more than 1, `getPixelValue` returns exactly 255 at every valid
`(x, y, c)` and the engine leaves a destination of 255s (equal to the source). -/
theorem saturation_at_255 (img : Image) (d0 : List Nat) (T : Int)
    (hwf : img.WF) (huni : ∀ b ∈ img.data, b = 255)
    (hd : (d0.length : Int) = img.width * img.height * img.bpp)
    (hT1 : 1 ≤ T) (hT2 : T ≤ img.height) :
    (∀ v : ℚ, 255 < v → clamp_u8 (Double.fin v) = 255) ∧ clamp_u8 Double.pinf = 255 ∧
    (∀ (kernel : Matrix) (x y c : Int), img.Valid x y c →
      getPixelValue img x y c kernel =
        some (clamp_u8 (accSum ((rowMajor.map fun rk => kernel rk.1 rk.2).map
          fun w => w * Double.ofNat 255)))) ∧
    (∀ (kernel : Matrix) (w : Fin 3 → Fin 3 → ℚ), (∀ r k, kernel r k = Double.fin (w r k)) →
      (∀ r k, |w r k| ≤ 2 ^ 35) → 1 < ∑ r : Fin 3, ∑ k : Fin 3, w r k →
      (∀ x y c, img.Valid x y c → getPixelValue img x y c kernel = some 255) ∧
      ∃ jobs, mainJobs kernel img.height T = some jobs ∧
        ∀ order : List ThreadJob, order.Perm jobs →
          runJobs order (mainState img d0) = some { srcImage := img, destImage := img }) := by
  have hlen := hwf.2.2.2.1
  refine ⟨fun v hv => clamp_u8_big hv, rfl, fun kernel x y c hv =>
    getPixelValue_of_neighbourhood kernel hlen hv (neighbourhood_uniform hwf huni hv),
    fun kernel w hk hw hsum => ?_⟩
  have hpix : ∀ x y c, img.Valid x y c → pixelValue img x y c kernel = 255 := by
    intro x y c hv
    have hn := accDouble_near_of_neighbourhood hwf (neighbourhood_uniform hwf huni hv) kernel w
      hk hw
    unfold pixelValue
    refine clamp_u8_of_near (μ := 1 / 2) (n := 255) hn (by norm_num) (by norm_num)
      (Or.inl ?_) (Or.inr rfl)
    push_cast
    linarith
  refine ⟨fun x y c hv => ?_, engine_fixed_point hwf hd kernel hT1 hT2 (fun x y c hv => ?_)⟩
  · rw [getPixelValue_eq_pixelValue kernel hlen hv, hpix x y c hv]
  · rw [hpix x y c hv, getD_uniform huni hlen hv]

/-- Witness of C9 amended: the 2x2 all-255 image and the kernel of sum 5. -/
theorem saturation_at_255_witness :
    img2x2.WF ∧ (∀ b ∈ img2x2.data, b = 255) ∧
    (∀ r k : Fin 3, heavyKernel r k = Double.fin (heavyWeights r k)) ∧
    (1 : ℚ) < ∑ r : Fin 3, ∑ k : Fin 3, heavyWeights r k ∧
    getPixelValue img2x2 1 0 0 heavyKernel = some 255 ∧
    mainConvolve img2x2 [1, 2, 3, 4] heavyKernel 2
      = some { srcImage := img2x2, destImage := img2x2 } := by
  have hs : (1 : ℚ) < ∑ r : Fin 3, ∑ k : Fin 3, heavyWeights r k := by
    norm_num [Fin.sum_univ_three, heavyWeights, Matrix.vecHead, Matrix.vecTail]
  have hb : ∀ r k : Fin 3, |heavyWeights r k| ≤ 2 ^ 35 := by
    intro r k
    fin_cases r <;> fin_cases k <;> norm_num [heavyWeights, Matrix.vecHead, Matrix.vecTail]
  have h := (saturation_at_255 img2x2 [1, 2, 3, 4] 2
    (by decide) (by decide) (by decide) (by decide) (by decide)).2.2.2
    heavyKernel heavyWeights heavyKernel_apply hb hs
  obtain ⟨h1, jobs, hj, h2⟩ := h
  refine ⟨by decide, by decide, heavyKernel_apply, hs, h1 1 0 0 (by decide), ?_⟩
  have e : clampThreads 2 img2x2.height = 2 := by decide
  rw [mainConvolve, e, hj]
  exact h2 jobs (List.Perm.refl _)

/-! ## C10: the frame of `worker` -/

/-- C10: for a job with `0 <= row_start <= row_end <= height` and any initial destination
buffer of the image size, `worker` returns; the source image, the destination dimensions
and the buffer length are unchanged; every destination sample of a row outside
`[row_start, row_end)` keeps its value; a buffer position whose value changed is
`Index x row c` for a valid `(x, row, c)` with `row_start <= row < row_end`; and the
positions of two disjoint row ranges are distinct. -/
theorem worker_frame (job : ThreadJob) (m : Bufs) (hr : Ready m) (h0 : 0 ≤ job.row_start)
    (h1 : job.row_start ≤ job.row_end) (h2 : job.row_end ≤ m.srcImage.height) :
    ∃ m2, worker job m = some m2 ∧
      m2.srcImage = m.srcImage ∧
      m2.destImage.width = m.destImage.width ∧ m2.destImage.height = m.destImage.height ∧
      m2.destImage.bpp = m.destImage.bpp ∧
      m2.destImage.data.length = m.destImage.data.length ∧
      (∀ x y c, m.srcImage.Valid x y c → ¬ (job.row_start ≤ y ∧ y < job.row_end) →
        load m2.destImage.data (Index x y m.srcImage.width c m.srcImage.bpp) =
          load m.destImage.data (Index x y m.srcImage.width c m.srcImage.bpp)) ∧
      (∀ n : Nat, m2.destImage.data[n]? ≠ m.destImage.data[n]? →
        ∃ x y c, m.srcImage.Valid x y c ∧ job.row_start ≤ y ∧ y < job.row_end ∧
          (n : Int) = Index x y m.srcImage.width c m.srcImage.bpp) ∧
      (∀ job2 : ThreadJob, job.row_end ≤ job2.row_start ∨ job2.row_end ≤ job.row_start →
        ∀ x y c x2 y2 c2, m.srcImage.Valid x y c → m.srcImage.Valid x2 y2 c2 →
          job.row_start ≤ y → y < job.row_end → job2.row_start ≤ y2 → y2 < job2.row_end →
          Index x y m.srcImage.width c m.srcImage.bpp ≠
            Index x2 y2 m.srcImage.width c2 m.srcImage.bpp) := by
  obtain ⟨m2, hw, hu⟩ := worker_upd job hr (Upd.init job.kernel m) h0 h1 h2
  obtain ⟨⟨e1, e2, e3, e4, e5⟩, hpt⟩ := hu
  have hframe : ∀ x y c, m.srcImage.Valid x y c → ¬ (job.row_start ≤ y ∧ y < job.row_end) →
      load m2.destImage.data (Index x y m.srcImage.width c m.srcImage.bpp) =
        load m.destImage.data (Index x y m.srcImage.width c m.srcImage.bpp) :=
    fun x y c hv hn => (hpt x y c hv).2 (fun h => h.elim (fun f => f) hn)
  refine ⟨m2, hw, e1, e2, e3, e4, e5, hframe, ?_, ?_⟩
  · intro n hne
    obtain ⟨hw0, hb0, _, hdlen⟩ := hr
    by_cases hn : n < m.destImage.data.length
    · have hk : (n : Int) < m.srcImage.width * m.srcImage.height * m.srcImage.bpp := by omega
      have hpos : 0 < m.srcImage.width ∧ 0 < m.srcImage.bpp := by
        constructor
        · rcases hw0.eq_or_lt with e | e
          · rw [← e] at hk; simp at hk; omega
          · exact e
        · rcases hb0.eq_or_lt with e | e
          · rw [← e] at hk; simp at hk; omega
          · exact e
      obtain ⟨x, y, c, hx0, hx, hy0, hy, hc0, hc, e⟩ :=
        index_decomp hpos.1 hpos.2 (Int.natCast_nonneg n) hk
      have hv : m.srcImage.Valid x y c := ⟨hx0, hx, hy0, hy, hc0, hc⟩
      by_cases hin : job.row_start ≤ y ∧ y < job.row_end
      · exact ⟨x, y, c, hv, hin.1, hin.2, e⟩
      · exfalso
        apply hne
        have := hframe x y c hv hin
        rw [← e, load_natCast, load_natCast] at this
        exact this
    · exfalso
      apply hne
      rw [List.getElem?_eq_none (by omega), List.getElem?_eq_none (by omega)]
  · intro job2 hdis x y c x2 y2 c2 hv hv2 ha hb hc hd heq
    obtain ⟨_, hy, _⟩ := index_inj hv.1 hv.2.1 hv.2.2.2.2.1 hv.2.2.2.2.2 hv2.1 hv2.2.1
      hv2.2.2.2.2.1 hv2.2.2.2.2.2 heq
    omega

/-- Witness of C10: the worker of row 1 of the two-channel 2x3 image, on a destination
filled with 7: rows 0 and 2 still hold 7 and row 1 holds the blurred samples. -/
theorem worker_frame_witness :
    Ready (mainState img2x3 (List.replicate 12 7)) ∧
    (worker { kernel := blurKernel, row_start := 1, row_end := 2 }
        (mainState img2x3 (List.replicate 12 7))).isSome = true ∧
    ∃ m2, worker { kernel := blurKernel, row_start := 1, row_end := 2 }
        (mainState img2x3 (List.replicate 12 7)) = some m2 ∧
      m2.srcImage = img2x3 ∧ m2.destImage.data.length = 12 ∧
      load m2.destImage.data (Index 1 0 2 1 2) = some 7 ∧
      load m2.destImage.data (Index 0 2 2 0 2) = some 7 := by
  obtain ⟨m2, hw, e1, _, _, _, e5, hf, _, _⟩ :=
    worker_frame { kernel := blurKernel, row_start := 1, row_end := 2 }
      (mainState img2x3 (List.replicate 12 7)) (by decide) (by decide) (by decide) (by decide)
  refine ⟨by decide, by rw [hw]; rfl, m2, hw, e1, e5, ?_, ?_⟩
  · exact hf 1 0 1 (by decide) (by decide)
  · exact hf 0 2 0 (by decide) (by decide)

/-! ## C11: `GetKernelType` -/

/-- C11: `GetKernelType` is a total function that sends exactly the strings "edge",
"sharpen", "blur", "gauss", "emboss" to `EDGE`, `SHARPEN`, `BLUR`, `GAUSE_BLUR`, `EMBOSS`
and every other string to `IDENTITY`; the comparison is case-sensitive: "Edge", the empty
string and "identity" itself all give `IDENTITY`. -/
theorem GetKernelType_mapping :
    (∀ s : String, GetKernelType s = KernelTypes.EDGE ↔ s = "edge") ∧
    (∀ s : String, GetKernelType s = KernelTypes.SHARPEN ↔ s = "sharpen") ∧
    (∀ s : String, GetKernelType s = KernelTypes.BLUR ↔ s = "blur") ∧
    (∀ s : String, GetKernelType s = KernelTypes.GAUSE_BLUR ↔ s = "gauss") ∧
    (∀ s : String, GetKernelType s = KernelTypes.EMBOSS ↔ s = "emboss") ∧
    (∀ s : String, GetKernelType s = KernelTypes.IDENTITY ↔
      ¬ (s = "edge" ∨ s = "sharpen" ∨ s = "blur" ∨ s = "gauss" ∨ s = "emboss")) ∧
    GetKernelType "Edge" = KernelTypes.IDENTITY ∧
    GetKernelType "EDGE" = KernelTypes.IDENTITY ∧
    GetKernelType "" = KernelTypes.IDENTITY ∧
    GetKernelType "identity" = KernelTypes.IDENTITY := by
  refine ⟨?_, ?_, ?_, ?_, ?_, ?_, by decide, by decide, by decide, by decide⟩
  · intro s
    constructor
    · intro h
      by_contra hne
      unfold GetKernelType at h
      split_ifs at h
    · rintro rfl; decide
  · intro s
    constructor
    · intro h
      by_contra hne
      unfold GetKernelType at h
      split_ifs at h
    · rintro rfl; decide
  · intro s
    constructor
    · intro h
      by_contra hne
      unfold GetKernelType at h
      split_ifs at h
    · rintro rfl; decide
  · intro s
    constructor
    · intro h
      by_contra hne
      unfold GetKernelType at h
      split_ifs at h
    · rintro rfl; decide
  · intro s
    constructor
    · intro h
      by_contra hne
      unfold GetKernelType at h
      split_ifs at h
    · rintro rfl; decide
  · intro s
    constructor
    · intro h hor
      unfold GetKernelType at h
      split_ifs at h
      rcases hor with e | e | e | e | e <;> contradiction
    · intro hne
      unfold GetKernelType
      split_ifs with h1 h2 h3 h4 h5
      · exact absurd (Or.inl h1) hne
      · exact absurd (Or.inr (Or.inl h2)) hne
      · exact absurd (Or.inr (Or.inr (Or.inl h3))) hne
      · exact absurd (Or.inr (Or.inr (Or.inr (Or.inl h4)))) hne
      · exact absurd (Or.inr (Or.inr (Or.inr (Or.inr h5)))) hne
      · rfl

/-! ## C12: the kernel table -/

/-- C12, the claim refuted: the Blur cells of the table are not 1/9.  The expression
`1/9.0` is a double division, 1/9 is not a double, and each of the nine cells holds
`2001599834386887 / 2^54 = 1/9 - 1/(9 * 2^54)`; the nine cells sum to `1 - 2^-54`. -/
theorem algorithms_blur_not_ninth :
    (algorithms[KernelTypes.BLUR.toNat]?).map Matrix.rows
      ≠ some [[Double.fin (1 / 9), Double.fin (1 / 9), Double.fin (1 / 9)],
          [Double.fin (1 / 9), Double.fin (1 / 9), Double.fin (1 / 9)],
          [Double.fin (1 / 9), Double.fin (1 / 9), Double.fin (1 / 9)]] ∧
    (∀ r k : Fin 3, blurKernel r k = Double.fin ninthDouble) ∧
    ninthDouble ≠ 1 / 9 ∧ 1 / 9 - ninthDouble = 1 / (9 * 2 ^ 54) ∧
    9 * ninthDouble = 1 - 1 / 2 ^ 54 ∧
    ¬ IsDouble (1 / 9) := by
  refine ⟨?_, blurKernel_apply, by norm_num [ninthDouble], by norm_num [ninthDouble],
    by norm_num [ninthDouble], not_isDouble_ninth⟩
  intro h
  simp [algorithms, KernelTypes.toNat, Matrix.rows, blurKernel_apply, ninthDouble] at h
  norm_num at h

/-- C12 amended: the table `algorithms` has six entries, one for every identifier;
indexed by Edge, Sharpen, Blur, GaussianBlur, Emboss, Identity it holds the matrices of
the catalog as doubles: the integer weights and 1/16, 1/8, 1/4 exactly, and in each of the
nine Blur cells the double `2001599834386887 / 2^54` that `1/9.0` evaluates to, which is
within `2^-57` of 1/9; the tables of image.c and image2.c are equal, entry for entry. -/
theorem algorithms_table :
    algorithms.length = 6 ∧
    (∀ t : KernelTypes, ∃ m, algorithms[t.toNat]? = some m) ∧
    (algorithms[KernelTypes.EDGE.toNat]?).map Matrix.rows
      = some [[Double.fin 0, Double.fin (-1), Double.fin 0],
          [Double.fin (-1), Double.fin 4, Double.fin (-1)],
          [Double.fin 0, Double.fin (-1), Double.fin 0]] ∧
    (algorithms[KernelTypes.SHARPEN.toNat]?).map Matrix.rows
      = some [[Double.fin 0, Double.fin (-1), Double.fin 0],
          [Double.fin (-1), Double.fin 5, Double.fin (-1)],
          [Double.fin 0, Double.fin (-1), Double.fin 0]] ∧
    (algorithms[KernelTypes.BLUR.toNat]?).map Matrix.rows
      = some [[Double.fin ninthDouble, Double.fin ninthDouble, Double.fin ninthDouble],
          [Double.fin ninthDouble, Double.fin ninthDouble, Double.fin ninthDouble],
          [Double.fin ninthDouble, Double.fin ninthDouble, Double.fin ninthDouble]] ∧
    (algorithms[KernelTypes.GAUSE_BLUR.toNat]?).map Matrix.rows
      = some [[Double.fin (1 / 16), Double.fin (1 / 8), Double.fin (1 / 16)],
          [Double.fin (1 / 8), Double.fin (1 / 4), Double.fin (1 / 8)],
          [Double.fin (1 / 16), Double.fin (1 / 8), Double.fin (1 / 16)]] ∧
    (algorithms[KernelTypes.EMBOSS.toNat]?).map Matrix.rows
      = some [[Double.fin (-2), Double.fin (-1), Double.fin 0],
          [Double.fin (-1), Double.fin 1, Double.fin 1],
          [Double.fin 0, Double.fin 1, Double.fin 2]] ∧
    (algorithms[KernelTypes.IDENTITY.toNat]?).map Matrix.rows
      = some [[Double.fin 0, Double.fin 0, Double.fin 0],
          [Double.fin 0, Double.fin 1, Double.fin 0],
          [Double.fin 0, Double.fin 0, Double.fin 0]] ∧
    ninthDouble = 2001599834386887 / 2 ^ 54 ∧ IsDouble ninthDouble ∧
    |ninthDouble - 1 / 9| ≤ 1 / 2 ^ 57 ∧
    algorithms2.length = 6 ∧
    algorithms2.map Matrix.rows = algorithms.map Matrix.rows ∧
    (∀ t : KernelTypes, algorithms2[t.toNat]? = algorithms[t.toNat]?) := by
  refine ⟨rfl, ?_, ?_, ?_, ?_, ?_, ?_, ?_, by norm_num [ninthDouble], isDouble_ninthDouble, ?_,
    rfl, rfl, ?_⟩
  · intro t
    cases t <;> exact ⟨_, rfl⟩
  · simp [algorithms, KernelTypes.toNat, Matrix.rows, edgeKernel, Matrix.ofConst, toDouble_zero,
      toDouble_neg_one, toDouble_four, Matrix.vecHead, Matrix.vecTail]
  · simp [algorithms, KernelTypes.toNat, Matrix.rows, sharpenKernel, Matrix.ofConst, toDouble_zero,
      toDouble_neg_one, toDouble_five, Matrix.vecHead, Matrix.vecTail]
  · simp [algorithms, KernelTypes.toNat, Matrix.rows, blurKernel_apply]
  · simp [algorithms, KernelTypes.toNat, Matrix.rows, gaussKernel, Matrix.ofConst,
      toDouble_inv_four, toDouble_inv_eight, toDouble_inv_sixteen, Matrix.vecHead,
      Matrix.vecTail]
  · simp [algorithms, KernelTypes.toNat, Matrix.rows, embossKernel, Matrix.ofConst, toDouble_zero,
      toDouble_neg_one, toDouble_one, toDouble_two, toDouble_neg_two, Matrix.vecHead,
      Matrix.vecTail]
  · simp [algorithms, KernelTypes.toNat, Matrix.rows, identityKernel, Matrix.ofConst,
      toDouble_zero, toDouble_one, Matrix.vecHead, Matrix.vecTail]
  · rw [abs_le]
    constructor <;> norm_num [ninthDouble]
  · intro t
    cases t <;> rfl

/-! ## C13: the number of workers -/

theorem decide_thread_count_range (hint : Option Int) (n : Int) :
    1 ≤ decide_thread_count hint n ∧ decide_thread_count hint n ≤ 1024 := by
  unfold decide_thread_count coreCount
  cases hint with
  | none => simp only []; split <;> split <;> omega
  | some t => simp only []; split <;> [omega; (split <;> split <;> omega)]

/-- C13: for an image with `height >= 1` and a requested count `r >= 1` (every value
returned by `decide_thread_count` is one), the number of workers `T` of `main` is
`min r height`; so `1 <= T <= height`, the partition is computed without a division by
zero, and it has `T` jobs. -/
theorem worker_count_is_min (height r : Int) (kernel : Matrix) (hh : 1 ≤ height)
    (hr : 1 ≤ r) :
    (∀ (hint : Option Int) (n : Int), 1 ≤ decide_thread_count hint n) ∧
    clampThreads r height = min r height ∧
    1 ≤ clampThreads r height ∧ clampThreads r height ≤ height ∧
    clampThreads r height ≠ 0 ∧
    ∃ jobs, mainJobs kernel height (clampThreads r height) = some jobs ∧
      (jobs.length : Int) = clampThreads r height := by
  have h1 : clampThreads r height = min r height := by
    unfold clampThreads; split <;> omega
  have h2 : 1 ≤ clampThreads r height := by rw [h1]; omega
  have h3 : clampThreads r height ≤ height := by rw [h1]; omega
  refine ⟨fun hint n => (decide_thread_count_range hint n).1, h1, h2, h3, by omega, ?_⟩
  refine ⟨_, mainJobs_eq kernel (by omega) (by omega), ?_⟩
  simp only [List.length_map, List.length_range]
  omega

/-- Witness of C13: three rows and eight requested threads give three workers; eight
rows and the count decided for `THREADS=2` give two. -/
theorem worker_count_is_min_witness :
    (1 : Int) ≤ 3 ∧ (1 : Int) ≤ 8 ∧ clampThreads 8 3 = 3 ∧
    clampThreads (decide_thread_count (some 2) 16) 8 = 2 ∧
    ∃ jobs, mainJobs blurKernel 3 (clampThreads 8 3) = some jobs ∧
      (jobs.length : Int) = clampThreads 8 3 :=
  ⟨by decide, by decide, by decide, by decide,
    (worker_count_is_min 3 8 blurKernel (by decide) (by decide)).2.2.2.2.2⟩

/-! ## C14: what `main` rejects -/

theorem clampThreads_bounds {height r : Int} (hh : 1 ≤ height) (hr : 1 ≤ r) :
    1 ≤ clampThreads r height ∧ clampThreads r height ≤ height := by
  unfold clampThreads; split <;> omega

theorem algorithms_lookup (t : KernelTypes) : ∃ m, algorithms[t.toNat]? = some m := by
  cases t <;> exact ⟨_, rfl⟩

/-- C14, the claim refuted: a decoded image with no row is not rejected, `main` clamps the
thread count to 0 and the partition divides by it (the run is undefined, not an error
return); a decoded image with no column is not rejected either, `main` returns 0 after
writing an empty image. -/
theorem main_accepts_empty_image :
    main ["a.png", "blur"] envNoRows = MainResult.undefined ∧
    clampThreads (decide_thread_count envNoRows.threadsHint envNoRows.nproc) 0 = 0 ∧
    mainJobs blurKernel 0 0 = none ∧
    main ["a.png", "blur"] envNoColumns
      = MainResult.exit 0 (some { data := [], width := 0, height := 2, bpp := 1 }) :=
  ⟨by decide, by decide, rfl, by decide⟩

/-- C14 amended: `main` returns -1 before any other work when `stbi_load` gives no data,
and a non-zero result of `main` (two arguments given) always comes from a failed load or
a failed allocation, never from a test of the dimensions; for a decoded image with
`height >= 1` the clamped thread count `T` satisfies `1 <= T <= height`, so `height / T`
and `height % T` are not evaluated with `T = 0`; and for a decoded image that meets the
image invariant, with the allocations succeeding, `main` returns 0 with an output of the
dimensions of the source. -/
theorem main_rejects_failed_load (env : Env) (fileName typeName : String) :
    (env.stbi_load fileName = none →
      main [fileName, typeName] env = MainResult.exit (-1) none) ∧
    (∀ img : Image, env.stbi_load fileName = some img → 1 ≤ img.height →
      1 ≤ clampThreads (decide_thread_count env.threadsHint env.nproc) img.height ∧
      clampThreads (decide_thread_count env.threadsHint env.nproc) img.height ≤ img.height ∧
      ∀ kernel : Matrix, (mainJobs kernel img.height
        (clampThreads (decide_thread_count env.threadsHint env.nproc) img.height)).isSome
          = true) ∧
    (∀ (img : Image) (d0 : List Nat), env.stbi_load fileName = some img →
      env.destBuf = some d0 → env.threadBufs = true → img.WF →
      (d0.length : Int) = img.width * img.height * img.bpp →
      ∃ out : Image, main [fileName, typeName] env = MainResult.exit 0 (some out) ∧
        out.width = img.width ∧ out.height = img.height ∧ out.bpp = img.bpp ∧
        out.data.length = d0.length) ∧
    (∀ (code : Int) (out : Option Image),
      main [fileName, typeName] env = MainResult.exit code out → code ≠ 0 →
      env.stbi_load fileName = none ∨ env.destBuf = none ∨ env.threadBufs = false) := by
  refine ⟨fun h => ?_, fun img himg hh => ?_, fun img d0 himg hbuf hthr hwf hd => ?_,
    fun code out h hc => ?_⟩
  · simp only [main, h]
  · obtain ⟨h1, h2⟩ := clampThreads_bounds hh (decide_thread_count_range env.threadsHint env.nproc).1
    refine ⟨h1, h2, fun kernel => ?_⟩
    rw [mainJobs_eq kernel (by omega) (by omega)]
    rfl
  · obtain ⟨k, hk⟩ := algorithms_lookup (GetKernelType typeName)
    obtain ⟨h1, h2⟩ := clampThreads_bounds hwf.2.1
      (decide_thread_count_range env.threadsHint env.nproc).1
    obtain ⟨jobs, hj, hrun⟩ := engine_spec hwf hd k h1 h2
    obtain ⟨m2, hm, hu⟩ := hrun jobs (List.Perm.refl _)
    refine ⟨m2.destImage, ?_, hu.1.2.1, hu.1.2.2.1, hu.1.2.2.2.1, hu.1.2.2.2.2⟩
    simp only [main, himg, hbuf, hthr, hk, mainConvolve, hj, Option.some_bind, hm]
    simp
  · cases hl : env.stbi_load fileName with
    | none => exact Or.inl rfl
    | some img =>
      cases hb : env.destBuf with
      | none => exact Or.inr (Or.inl rfl)
      | some d0 =>
        cases ht : env.threadBufs with
        | false => exact Or.inr (Or.inr rfl)
        | true =>
          exfalso
          simp only [main, hl, hb, ht] at h
          split at h
          · rename_i hf
            exact absurd hf (by decide)
          · split at h
            · simp at h
            · split at h
              · simp at h
              · simp only [MainResult.exit.injEq] at h
                exact hc h.1.symm

/-- Witness of C14 amended: with a failing decoder `main` returns -1; with the 2x3 image
and `THREADS=2` it returns 0 with a 2x3 output. -/
theorem main_rejects_failed_load_witness :
    main ["a.png", "blur"] envNoFile = MainResult.exit (-1) none ∧
    img2x3.WF ∧
    ∃ out : Image, main ["a.png", "blur"] envTwoThreads = MainResult.exit 0 (some out) ∧
      out.width = img2x3.width ∧ out.height = img2x3.height ∧ out.bpp = img2x3.bpp ∧
      out.data.length = [0, 0, 0, 0, 0, 0, 0, 0, 0, 0, 0, 0].length :=
  ⟨(main_rejects_failed_load envNoFile "a.png" "blur").1 rfl, by decide,
    (main_rejects_failed_load envTwoThreads "a.png" "blur").2.2.1 img2x3
      [0, 0, 0, 0, 0, 0, 0, 0, 0, 0, 0, 0] rfl rfl rfl (by decide) (by decide)⟩

/-! ## C17: `decide_thread_count` -/

/-- C17, the claim refuted: with no hint and 128 processors the code returns 64 where the
claim gives 128; with the hint 5000 and 8 processors the code returns 8 where the claim
gives 1024; with the hint 0 it returns 8 where the claim gives 1. -/
theorem decide_thread_count_differs_from_spec :
    decide_thread_count none 128 = 64 ∧ resolve_thread_count_spec none 128 = 128 ∧
    decide_thread_count (some 5000) 8 = 8 ∧ resolve_thread_count_spec (some 5000) 8 = 1024 ∧
    decide_thread_count (some 0) 8 = 8 ∧ resolve_thread_count_spec (some 0) 8 = 1 ∧
    decide_thread_count none 128 ≠ resolve_thread_count_spec none 128 := by
  decide

/-- C17 amended: `decide_thread_count` returns the hint when one is given and lies in
`1..1024`; with no hint, or a hint outside `1..1024`, it returns the processor count
capped at 64, or 4 when that count is below 1; the result is always in `1..1024`, and it
is the value of the spec whenever the hint lies in `1..1024`, or there is no hint and
the processor count is at most 64. -/
theorem decide_thread_count_cases (hint : Option Int) (n : Int) :
    (∀ t : Int, hint = some t → 1 ≤ t → t ≤ 1024 → decide_thread_count hint n = t) ∧
    (∀ t : Int, hint = some t → (t < 1 ∨ 1024 < t) →
      decide_thread_count hint n = decide_thread_count none n) ∧
    (1 ≤ n → decide_thread_count none n = min n 64) ∧
    (n < 1 → decide_thread_count none n = 4) ∧
    1 ≤ decide_thread_count hint n ∧ decide_thread_count hint n ≤ 1024 ∧
    ((∀ t : Int, hint = some t → 1 ≤ t ∧ t ≤ 1024) → n ≤ 64 →
      decide_thread_count hint n = resolve_thread_count_spec hint n) := by
  refine ⟨?_, ?_, ?_, ?_, (decide_thread_count_range hint n).1,
    (decide_thread_count_range hint n).2, ?_⟩
  · rintro t rfl h1 h2
    simp only [decide_thread_count, ge_iff_le, h1, h2, and_self, if_true]
  · rintro t rfl h
    have : ¬ (t ≥ 1 ∧ t ≤ 1024) := by omega
    simp only [decide_thread_count, this, if_false]
  · intro h
    simp only [decide_thread_count, coreCount]
    split <;> split <;> omega
  · intro h
    simp only [decide_thread_count, coreCount]
    split <;> split <;> omega
  · intro h hn
    cases hint with
    | none =>
      simp only [decide_thread_count, coreCount, resolve_thread_count_spec]
      split <;> split <;> split <;> omega
    | some t =>
      obtain ⟨h1, h2⟩ := h t rfl
      simp only [decide_thread_count, resolve_thread_count_spec, ge_iff_le, h1, h2, and_self,
        if_true]
      omega

/-- Witness of C17 amended: the hint 12 is returned; the hint 5000 is ignored and the 8
processors are returned; 128 processors are capped at 64; no processor count gives 4. -/
theorem decide_thread_count_cases_witness :
    decide_thread_count (some 12) 8 = 12 ∧
    decide_thread_count (some 5000) 8 = decide_thread_count none 8 ∧
    decide_thread_count none 128 = min 128 64 ∧
    decide_thread_count none (-1) = 4 :=
  ⟨(decide_thread_count_cases (some 12) 8).1 12 rfl (by decide) (by decide),
    (decide_thread_count_cases (some 5000) 8).2.1 5000 rfl (by decide),
    (decide_thread_count_cases none 128).2.2.1 (by decide),
    (decide_thread_count_cases none (-1)).2.2.2.1 (by decide)⟩

/-! ## C15: every access is inside the buffers -/

theorem clampedNeighbours_valid {img : Image} {x y c : Int} (hv : img.Valid x y c) :
    ∀ nx ∈ [(clampedNeighbours img x y).1, x, (clampedNeighbours img x y).2.1],
      ∀ ny ∈ [(clampedNeighbours img x y).2.2.1, y, (clampedNeighbours img x y).2.2.2],
        img.Valid nx ny c := by
  obtain ⟨hx0, hx, hy0, hy, hc0, hc⟩ := hv
  have hmx : 0 ≤ (if x - 1 < 0 then 0 else x - 1) ∧ (if x - 1 < 0 then 0 else x - 1) < img.width := by
    split <;> omega
  have hpx : 0 ≤ (if x + 1 ≥ img.width then img.width - 1 else x + 1) ∧
      (if x + 1 ≥ img.width then img.width - 1 else x + 1) < img.width := by
    split <;> omega
  have hmy : 0 ≤ (if y - 1 < 0 then 0 else y - 1) ∧ (if y - 1 < 0 then 0 else y - 1) < img.height := by
    split <;> omega
  have hpy : 0 ≤ (if y + 1 ≥ img.height then img.height - 1 else y + 1) ∧
      (if y + 1 ≥ img.height then img.height - 1 else y + 1) < img.height := by
    split <;> omega
  intro nx hnx ny hny
  simp only [clampedNeighbours, List.mem_cons, List.mem_singleton, List.not_mem_nil, or_false]
    at hnx hny
  rcases hnx with rfl | rfl | rfl <;> rcases hny with rfl | rfl | rfl <;>
    exact ⟨by omega, by omega, by omega, by omega, hc0, hc⟩

/-- C15: for an image with positive dimensions and a valid `(x, y, c)`, each of the nine
source positions read by `getPixelValue` (columns `mx, x, px`, rows `my, y, py`) is a
valid coordinate, its index lies in `[0, width * height * bpp)` and the read succeeds;
the destination index written by `worker` for `(x, y, c)` lies in the same interval and
the write succeeds on any destination buffer of the image size. -/
theorem accesses_in_bounds (img : Image) (x y c : Int) (hwf : img.WF)
    (hv : img.Valid x y c) :
    (∀ nx ∈ [(clampedNeighbours img x y).1, x, (clampedNeighbours img x y).2.1],
      ∀ ny ∈ [(clampedNeighbours img x y).2.2.1, y, (clampedNeighbours img x y).2.2.2],
        img.Valid nx ny c ∧
        0 ≤ Index nx ny img.width c img.bpp ∧
        Index nx ny img.width c img.bpp < img.width * img.height * img.bpp ∧
        (load img.data (Index nx ny img.width c img.bpp)).isSome = true) ∧
    0 ≤ Index x y img.width c img.bpp ∧
    Index x y img.width c img.bpp < img.width * img.height * img.bpp ∧
    (∀ (d0 : List Nat) (v : Nat), (d0.length : Int) = img.width * img.height * img.bpp →
      (store d0 (Index x y img.width c img.bpp) v).isSome = true) ∧
    ∀ kernel : Matrix, (getPixelValue img x y c kernel).isSome = true := by
  obtain ⟨h0, h1⟩ := index_bounds (h := img.height) hv.1 hv.2.1 hv.2.2.1 hv.2.2.2.1
    hv.2.2.2.2.1 hv.2.2.2.2.2
  refine ⟨fun nx hnx ny hny => ?_, h0, h1, fun d0 v hd => ?_, fun kernel => ?_⟩
  · have hn := clampedNeighbours_valid hv nx hnx ny hny
    obtain ⟨a, b⟩ := index_bounds (h := img.height) hn.1 hn.2.1 hn.2.2.1 hn.2.2.2.1
      hn.2.2.2.2.1 hn.2.2.2.2.2
    refine ⟨hn, a, b, ?_⟩
    rw [load_valid hwf.2.2.2.1 hn]
    rfl
  · have hlt : (Index x y img.width c img.bpp).toNat < d0.length := by omega
    simp only [store, h0, hlt, and_self, if_true]
    rfl
  · rw [getPixelValue_eq_pixelValue kernel hwf.2.2.2.1 hv]
    rfl

/-- Witness of C15: the corner `(1, 2)`, channel 1, of the two-channel 2x3 image. -/
theorem accesses_in_bounds_witness :
    img2x3.WF ∧ img2x3.Valid 1 2 1 ∧
    clampedNeighbours img2x3 1 2 = (0, 1, 1, 2) ∧
    0 ≤ Index 1 2 img2x3.width 1 img2x3.bpp ∧
    Index 1 2 img2x3.width 1 img2x3.bpp < img2x3.width * img2x3.height * img2x3.bpp ∧
    ∀ kernel : Matrix, (getPixelValue img2x3 1 2 1 kernel).isSome = true :=
  ⟨by decide, by decide, by decide,
    (accesses_in_bounds img2x3 1 2 1 (by decide) (by decide)).2.1,
    (accesses_in_bounds img2x3 1 2 1 (by decide) (by decide)).2.2.1,
    (accesses_in_bounds img2x3 1 2 1 (by decide) (by decide)).2.2.2.2⟩

/-! ## C16: channels are independent -/

theorem getPixelValue_congr {img img2 : Image} {x y c : Int} (kernel : Matrix)
    (hw : img2.width = img.width) (hh : img2.height = img.height) (hb : img2.bpp = img.bpp)
    (hagree : ∀ nx ∈ [(clampedNeighbours img x y).1, x, (clampedNeighbours img x y).2.1],
      ∀ ny ∈ [(clampedNeighbours img x y).2.2.1, y, (clampedNeighbours img x y).2.2.2],
        load img2.data (Index nx ny img.width c img.bpp) =
          load img.data (Index nx ny img.width c img.bpp)) :
    getPixelValue img2 x y c kernel = getPixelValue img x y c kernel := by
  have e : clampedNeighbours img2 x y = clampedNeighbours img x y := by
    simp only [clampedNeighbours, hw, hh]
  simp only [getPixelValue, e, hw, hb]
  rw [hagree _ (by simp) _ (by simp), hagree x (by simp) _ (by simp),
    hagree (clampedNeighbours img x y).2.1 (by simp) (clampedNeighbours img x y).2.2.1 (by simp),
    hagree (clampedNeighbours img x y).1 (by simp) y (by simp),
    hagree x (by simp) y (by simp),
    hagree (clampedNeighbours img x y).2.1 (by simp) y (by simp),
    hagree (clampedNeighbours img x y).1 (by simp) (clampedNeighbours img x y).2.2.2 (by simp),
    hagree x (by simp) (clampedNeighbours img x y).2.2.2 (by simp),
    hagree (clampedNeighbours img x y).2.1 (by simp) (clampedNeighbours img x y).2.2.2 (by simp)]

/-- C16: two images of the same shape that agree on the samples of channel `c` at the
nine neighbourhood positions read for `(x, y)` (columns `mx, x, px`, rows `my, y, py`)
give the same `getPixelValue` at `(x, y, c)` for every kernel; and overwriting one sample
of another channel, or of channel `c` at a position outside that neighbourhood, leaves
`getPixelValue` at `(x, y, c)` unchanged. -/
theorem channel_independence (img img2 : Image) (x y c : Int) (kernel : Matrix)
    (hwf : img.WF) (hv : img.Valid x y c)
    (hw : img2.width = img.width) (hh : img2.height = img.height) (hb : img2.bpp = img.bpp)
    (hagree : ∀ nx ∈ [(clampedNeighbours img x y).1, x, (clampedNeighbours img x y).2.1],
      ∀ ny ∈ [(clampedNeighbours img x y).2.2.1, y, (clampedNeighbours img x y).2.2.2],
        load img2.data (Index nx ny img.width c img.bpp) =
          load img.data (Index nx ny img.width c img.bpp)) :
    getPixelValue img2 x y c kernel = getPixelValue img x y c kernel ∧
    ∀ (x2 y2 c2 : Int) (v : Nat), img.Valid x2 y2 c2 →
      (c2 ≠ c ∨ x2 ∉ [(clampedNeighbours img x y).1, x, (clampedNeighbours img x y).2.1] ∨
        y2 ∉ [(clampedNeighbours img x y).2.2.1, y, (clampedNeighbours img x y).2.2.2]) →
      getPixelValue
        { img with data := img.data.set (Index x2 y2 img.width c2 img.bpp).toNat v }
        x y c kernel = getPixelValue img x y c kernel := by
  refine ⟨getPixelValue_congr kernel hw hh hb hagree, fun x2 y2 c2 v hv2 hout => ?_⟩
  refine @getPixelValue_congr img _ x y c kernel rfl rfl rfl (fun nx hnx ny hny => ?_)
  have hn := clampedNeighbours_valid hv nx hnx ny hny
  obtain ⟨hi0, hi1⟩ := index_bounds (h := img.height) hv2.1 hv2.2.1 hv2.2.2.1 hv2.2.2.2.1
    hv2.2.2.2.2.1 hv2.2.2.2.2.2
  obtain ⟨hj0, _⟩ := index_bounds (h := img.height) hn.1 hn.2.1 hn.2.2.1 hn.2.2.2.1
    hn.2.2.2.2.1 hn.2.2.2.2.2
  have hlen := hwf.2.2.2.1
  have hin : (Index x2 y2 img.width c2 img.bpp).toNat < img.data.length := by omega
  simp only []
  rw [load_set v hi0 hj0 hin, if_neg]
  intro heq
  obtain ⟨e1, e2, e3⟩ := index_inj hv2.1 hv2.2.1 hv2.2.2.2.2.1 hv2.2.2.2.2.2 hn.1 hn.2.1
    hn.2.2.2.2.1 hn.2.2.2.2.2 heq
  subst e1 e2 e3
  rcases hout with h | h | h
  · exact h rfl
  · exact h hnx
  · exact h hny

/-- Witness of C16: the two-channel 2x3 image and a second one with another channel 0;
channel 1 at `(0, 0)` gives the same value on both. -/
theorem channel_independence_witness :
    img2x3.WF ∧ img2x3.Valid 0 0 1 ∧
    getPixelValue img2x3b 0 0 1 blurKernel = getPixelValue img2x3 0 0 1 blurKernel ∧
    getPixelValue
      { img2x3 with data := img2x3.data.set (Index 1 2 img2x3.width 1 img2x3.bpp).toNat 0 }
      0 0 1 blurKernel = getPixelValue img2x3 0 0 1 blurKernel :=
  ⟨by decide, by decide,
    (channel_independence img2x3 img2x3b 0 0 1 blurKernel (by decide) (by decide) rfl rfl rfl
      (by decide)).1,
    (channel_independence img2x3 img2x3b 0 0 1 blurKernel (by decide) (by decide) rfl rfl rfl
      (by decide)).2 1 2 1 0 (by decide) (by decide)⟩

/-! ## C18: the pthread and the OpenMP variants compute the same image -/

/-- C18: for an image with positive dimensions, every kernel and every `T` with
`1 <= T <= height`, `convolute` of image2.c (its row loop over `[0, height)` run in
order) succeeds, and the workers of the partition of image.c, run in any order from the
same initial state, end in the same state: the two destination buffers are equal. -/
theorem convolute_matches_workers (src : Image) (d0 : List Nat) (K : Matrix) (T : Int)
    (hwf : src.WF) (hd : (d0.length : Int) = src.width * src.height * src.bpp)
    (hT1 : 1 ≤ T) (hT2 : T ≤ src.height) :
    ∃ out, convolute K (mainState src d0) = some out ∧
      ∃ jobs, mainJobs K src.height T = some jobs ∧
        ∀ order : List ThreadJob, order.Perm jobs →
          runJobs order (mainState src d0) = some out := by
  have hr := WF.ready hwf hd
  obtain ⟨out, ho1, ho2⟩ := rowLoop_upd hr (Upd.init K (mainState src d0)) (le_refl 0)
    (by have := hwf.2.1; simp only [mainState]; omega) (le_refl _)
  obtain ⟨jobs, hj, hrun⟩ := engine_spec hwf hd K hT1 hT2
  refine ⟨out, ho1, jobs, hj, fun order hperm => ?_⟩
  obtain ⟨m2, h1, h2⟩ := hrun order hperm
  rw [h1, Upd.unique hr h2 ho2 (fun _ _ _ _ => trivial)
    (fun _ y _ hv => Or.inr ⟨hv.2.2.1, hv.2.2.2.1⟩)]

/-- Witness of C18: the two-channel 2x3 image, the Blur kernel, three workers. -/
theorem convolute_matches_workers_witness :
    img2x3.WF ∧ (1 : Int) ≤ 3 ∧ (3 : Int) ≤ img2x3.height ∧
    ∃ out, convolute blurKernel (mainState img2x3 (List.replicate 12 0)) = some out ∧
      ∃ jobs, mainJobs blurKernel img2x3.height 3 = some jobs ∧
        ∀ order : List ThreadJob, order.Perm jobs →
          runJobs order (mainState img2x3 (List.replicate 12 0)) = some out :=
  ⟨by decide, by decide, by decide,
    convolute_matches_workers img2x3 (List.replicate 12 0) blurKernel 3 (by decide) (by decide)
      (by decide) (by decide)⟩

/-! ## C19: the ranges are non-empty and the cursor ends at `height` -/

theorem partitionLoop_eq (kernel : Matrix) (rows : Int) {T : Int} (hT : 0 < T) :
    ∃ st : PartState,
      forRange 0 T (partitionStep kernel (rows / T) (rows % T)) { cur := 0, jobs := [] }
        = some st ∧
      st.cur = rows ∧
      st.jobs = (List.range T.toNat).map (jobAt kernel (rows / T) (rows % T)) := by
  obtain ⟨st, h1, _, h2, h3⟩ := forRange_inv
    (fun i (st : PartState) => 0 ≤ i ∧ st.cur = rowStart (rows / T) (rows % T) i.toNat ∧
      st.jobs = (List.range i.toNat).map (jobAt kernel (rows / T) (rows % T)))
    (partitionStep kernel (rows / T) (rows % T)) 0 T hT.le { cur := 0, jobs := [] }
    ⟨le_rfl, by simp [rowStart_zero _ _ (Int.emod_nonneg rows hT.ne')], by simp⟩
    (fun i st hi0 _ hinv => by
      obtain ⟨_, hc, hj⟩ := hinv
      have e1 : (i + 1).toNat = i.toNat + 1 := by omega
      have e2 : ((i.toNat : Nat) : Int) = i := Int.toNat_of_nonneg hi0
      refine ⟨_, rfl, by omega, ?_, ?_⟩
      · simp only [e1, rowStart_succ, e2, hc]
      · simp only [e1, List.range_succ, List.map_append, List.map_cons, List.map_nil, hj, hc,
          jobAt, rowStart_succ, e2])
  exact ⟨st, h1, by rw [h2, rowStart_last hT], h3⟩

/-- C19: for `1 <= T <= height` the partition loop of `main` ends with the cursor `cur`
equal to `height`; `base = height / T` is at least 1; and every job it has built has
`0 <= row_start < row_end <= height`: no worker gets an empty range or a range outside
the image. -/
theorem partition_ranges_nonempty (kernel : Matrix) (height T : Int) (hT1 : 1 ≤ T)
    (hT2 : T ≤ height) :
    ∃ st : PartState,
      forRange 0 T (partitionStep kernel (Int.tdiv height T) (Int.tmod height T))
        { cur := 0, jobs := [] } = some st ∧
      st.cur = height ∧
      mainJobs kernel height T = some st.jobs ∧
      (st.jobs.length : Int) = T ∧
      1 ≤ Int.tdiv height T ∧
      ∀ j ∈ st.jobs, 0 ≤ j.row_start ∧ j.row_start < j.row_end ∧ j.row_end ≤ height := by
  have hT : 0 < T := by omega
  have hh : 0 ≤ height := by omega
  obtain ⟨st, h1, h2, h3⟩ := partitionLoop_eq kernel height hT
  refine ⟨st, ?_, h2, ?_, ?_, ?_, ?_⟩
  · rw [Int.tdiv_eq_ediv hh hT.le, Int.tmod_eq_emod hh hT.le]; exact h1
  · rw [mainJobs_eq kernel hT hh, h3]
  · rw [h3]; simp only [List.length_map, List.length_range]; omega
  · rw [Int.tdiv_eq_ediv hh hT.le]
    exact (Int.le_ediv_iff_mul_le hT).mpr (by omega)
  · intro j hj
    rw [h3] at hj
    exact (mainJobs_ranges hT hT2 hj).2

/-- Witness of C19: ten rows on three threads. -/
theorem partition_ranges_nonempty_witness :
    (1 : Int) ≤ 3 ∧ (3 : Int) ≤ 10 ∧
    ∃ st : PartState,
      forRange 0 3 (partitionStep identityKernel (Int.tdiv 10 3) (Int.tmod 10 3))
        { cur := 0, jobs := [] } = some st ∧
      st.cur = 10 ∧
      mainJobs identityKernel 10 3 = some st.jobs ∧
      (st.jobs.length : Int) = 3 ∧
      1 ≤ Int.tdiv 10 3 ∧
      ∀ j ∈ st.jobs, 0 ≤ j.row_start ∧ j.row_start < j.row_end ∧ j.row_end ≤ 10 :=
  ⟨by decide, by decide, partition_ranges_nonempty identityKernel 10 3 (by decide) (by decide)⟩

end PicProject
